import Mathlib

/-!
# notify-queue: BigSet (bigset.go) and Queue (queue.go)

A shallow embedding of the two collections of the repository and the properties proved
about them.

Conventions of the embedding.

* A Go pointer to an `Item` is an address, a natural number; `nil` is `none`.  The memory
  `Mem` gives the `Item` stored at every address, and `nextAddr` is the first address that
  has not been handed out by `NewItem` yet.
* A payload (`interface{}` used as a map key) is a natural number: the payloads are values
  of a type whose `==` is an equivalence, as the keys of a Go map are expected to be.
  `Item.c`, the `unsafe.Pointer` to the payload, is `some c`, or `none` for nil.
* Calls are sequential.  A goroutine started with `go` is recorded in the state and runs as
  a step of its own at any later point between two calls.
* A nil-pointer dereference is a failure of the operation (`none`, or
  `ScanResult.nilDeref`).
-/

namespace NotifyQueue

/-! ## bigset.go -/

/-- The error values `ERROR_NODE_EXISTED` and `ERROR_NODE_DELETED`. -/
inductive BigSetError where
  | ERROR_NODE_EXISTED
  | ERROR_NODE_DELETED
deriving DecidableEq

/-- The struct `Item`: payload pointer and the two links. -/
structure Item where
  c : Option Nat
  Prev : Option Nat
  Next : Option Nat
deriving DecidableEq

/-- The function `NewItem`: all three fields nil. -/
def NewItem : Item := { c := none, Prev := none, Next := none }

/-- The memory of items, by address. -/
abbrev Mem := Nat → Item

/-- Store `it` at address `a`. -/
def Mem.write (m : Mem) (a : Nat) (it : Item) : Mem :=
  fun b => if b = a then it else m b

/-- The struct `BigSet`, together with the part of the program state its methods touch:
the memory of items, the package-level `itemPool`, and the `go bs.clear(queue)` goroutines
that have been started and have not run yet (`clearing`, oldest first). -/
structure BigSet where
  mem : Mem
  nextAddr : Nat
  itemPool : List Nat
  head : Option Nat
  tail : Option Nat
  mapItem : List (Nat × Nat)
  delQueue : List Nat
  discardThreshold : Int
  clearing : List (List Nat)

/-- The function `NewBigSet`.  `make([]*Item, 0, discardThreshold)` panics for a negative
capacity, which is `none`. -/
def NewBigSet (discardThreshold : Int) : Option BigSet :=
  if discardThreshold < 0 then none
  else some
    { mem := fun _ => NewItem
      nextAddr := 0
      itemPool := []
      head := none
      tail := none
      mapItem := []
      delQueue := []
      discardThreshold := discardThreshold
      clearing := [] }

/-- The function `GetItem`: `itemPool.Get()` hands out a pooled item when there is one and
calls `NewItem` otherwise; the item then gets the payload and nil links. -/
def GetItem (c : Nat) (s : BigSet) : Nat × BigSet :=
  match s.itemPool with
  | a :: rest =>
    (a, { s with itemPool := rest, mem := s.mem.write a { c := some c, Prev := none, Next := none } })
  | [] =>
    (s.nextAddr,
      { s with
        nextAddr := s.nextAddr + 1
        mem := s.mem.write s.nextAddr { c := some c, Prev := none, Next := none } })

/-- The function `PutItem`. -/
def PutItem (item : Nat) (s : BigSet) : BigSet :=
  { s with itemPool := item :: s.itemPool }

/-- The method `syncMap.judge`: the item stored under `c`, nil when there is none. -/
def judge (m : List (Nat × Nat)) (c : Nat) : Option Nat :=
  (m.find? (fun p => p.1 == c)).map Prod.snd

/-- The method `syncMap.addMap`. -/
def addMap (m : List (Nat × Nat)) (c item : Nat) : Bool × List (Nat × Nat) :=
  match judge m c with
  | none => (true, m ++ [(c, item)])
  | some _ => (false, m)

/-- The method `syncMap.delMap`. -/
def delMap (m : List (Nat × Nat)) (c : Nat) : Option Nat × List (Nat × Nat) :=
  match judge m c with
  | some item => (some item, m.filter (fun p => p.1 != c))
  | none => (none, m)

/-- The method `syncMap.sizeMap`. -/
def sizeMap (m : List (Nat × Nat)) : Nat := m.length

/-- The method `BigSet.delList`. -/
def delList (item : Nat) (s : BigSet) : BigSet :=
  let s1 : BigSet :=
    match (s.mem item).Prev with
    | some p => { s with mem := s.mem.write p { s.mem p with Next := (s.mem item).Next } }
    | none => { s with head := (s.mem item).Next }
  match (s1.mem item).Next with
  | some n => { s1 with mem := s1.mem.write n { s1.mem n with Prev := (s1.mem item).Prev } }
  | none => { s1 with tail := (s1.mem item).Prev }

/-- The method `BigSet.addList`.  `bs.tail.Next = item` with a nil `bs.tail` is a
nil-pointer dereference, `none`. -/
def addList (item : Nat) (s : BigSet) : Option BigSet :=
  match s.head with
  | none => some { s with tail := some item, head := some item }
  | some _ =>
    let m1 := s.mem.write item { s.mem item with Prev := s.tail }
    match s.tail with
    | none => none
    | some t =>
      some { s with mem := m1.write t { m1 t with Next := some item }, tail := some item }

/-- The method `BigSet.Put`: the returned error (`none` is nil) and the state after. -/
def Put (c : Nat) (s : BigSet) : Option (Option BigSetError × BigSet) :=
  let (item, s1) := GetItem c s
  match addMap s1.mapItem c item with
  | (true, m) => (addList item { s1 with mapItem := m }).map (fun s2 => (none, s2))
  | (false, _) => some (some BigSetError.ERROR_NODE_EXISTED, PutItem item s1)

/-- The method `BigSet.Delete`.  The goroutine `go bs.clear(queue)` is appended to
`clearing`. -/
def Delete (c : Nat) (s : BigSet) : Option BigSetError × BigSet :=
  match delMap s.mapItem c with
  | (some it, m) =>
    let s1 : BigSet := { s with mapItem := m, mem := s.mem.write it { s.mem it with c := none } }
    let s2 : BigSet := { s1 with delQueue := s1.delQueue ++ [it] }
    if (s2.delQueue.length : Int) ≥ s2.discardThreshold then
      (none, { s2 with delQueue := [], clearing := s2.clearing ++ [s2.delQueue] })
    else (none, s2)
  | (none, _) => (some BigSetError.ERROR_NODE_DELETED, s)

/-- The method `BigSet.clear`, the body of the goroutine: unlink every item of the batch. -/
def clear (qs : List Nat) (s : BigSet) : BigSet :=
  qs.foldl (fun acc it => delList it acc) s

/-- The method `BigSet.TotalSize`. -/
def TotalSize (s : BigSet) : Nat := sizeMap s.mapItem + s.delQueue.length

/-- The method `BigSet.ValidSize`. -/
def ValidSize (s : BigSet) : Nat := sizeMap s.mapItem

/-- One call of a visitor (the `handlers` argument of `Scan`), as the calls it makes on the
set it is scanning: it may call `Put` and `Delete`, go on according to what they return, and
ends by returning its own state for the next call and whether its error is non-nil. -/
inductive Visit (σ : Type) where
  | ret (st : σ) (err : Bool)
  | put (c : Nat) (k : Option BigSetError → Visit σ)
  | delete (c : Nat) (k : Option BigSetError → Visit σ)

/-- Run one call of a visitor on the set; `none` when a `Put` it makes fails. -/
def Visit.exec {σ : Type} : Visit σ → BigSet → Option (σ × Bool × BigSet)
  | .ret st err, s => some (st, err, s)
  | .put c k, s =>
    match Put c s with
    | none => none
    | some (r, s1) => (k r).exec s1
  | .delete c k, s => (k (Delete c s).1).exec (Delete c s).2

/-- How a `Scan` ends: it returns (with the visitor state, the set and the payloads it
passed to the visitor, in order), or dereferences nil, or is still walking when the fuel
is used up. -/
inductive ScanResult (σ : Type) where
  | returned (st : σ) (s : BigSet) (calls : List Nat)
  | nilDeref
  | outOfFuel

/-- The last part of `Scan`, `if end != nil { ... }`. -/
def scanEnd {σ : Type} (handlers : σ → Nat → Visit σ) (end_ : Option Nat)
    (st : σ) (s : BigSet) (calls : List Nat) : ScanResult σ :=
  match end_ with
  | none => .returned st s calls
  | some e =>
    match (s.mem e).c with
    | none => .returned st s calls
    | some c =>
      match (handlers st c).exec s with
      | none => .nilDeref
      | some (st1, _, s1) => .returned st1 s1 (calls ++ [c])

/-- The loop `for item != end { ... }` of `Scan` followed by `scanEnd`; every iteration
uses one unit of fuel. -/
def scanLoop {σ : Type} (handlers : σ → Nat → Visit σ) (end_ : Option Nat) :
    Nat → Option Nat → σ → BigSet → List Nat → ScanResult σ
  | fuel, item, st, s, calls =>
    if item = end_ then scanEnd handlers end_ st s calls
    else
      match fuel with
      | 0 => .outOfFuel
      | fuel + 1 =>
        match item with
        | none => .nilDeref
        | some a =>
          match (s.mem a).c with
          | none => scanLoop handlers end_ fuel (s.mem a).Next st s calls
          | some c =>
            match (handlers st c).exec s with
            | none => .nilDeref
            | some (st1, err, s1) =>
              if err then .returned st1 s1 (calls ++ [c])
              else scanLoop handlers end_ fuel (s1.mem a).Next st1 s1 (calls ++ [c])

/-- The method `BigSet.Scan`.  The fuel is the number of items allocated when the scan
starts. -/
def Scan {σ : Type} (handlers : σ → Nat → Visit σ) (st : σ) (s : BigSet) : ScanResult σ :=
  scanLoop handlers s.tail s.nextAddr s.head st s []

/-- A call on the set, or the run of a waiting `clear` goroutine (`clearStep i` runs the
one at position `i` of `clearing`). -/
inductive Op where
  | Put (c : Nat)
  | Delete (c : Nat)
  | clearStep (i : Nat)
deriving DecidableEq

/-- Remove position `i` of a list. -/
def dropAt {α : Type} (l : List α) (i : Nat) : List α := l.take i ++ l.drop (i + 1)

/-- One step: the error the call returns (nil for a goroutine step) and the state after. -/
def step (o : Op) (s : BigSet) : Option (Option BigSetError × BigSet) :=
  match o with
  | .Put c => Put c s
  | .Delete c => some (Delete c s)
  | .clearStep i =>
    match s.clearing[i]? with
    | none => some (none, s)
    | some qs => some (none, clear qs { s with clearing := dropAt s.clearing i })

/-- Run a sequence of steps; the history pairs every step with what it returned. -/
def run : List Op → BigSet → Option (List (Op × Option BigSetError) × BigSet)
  | [], s => some ([], s)
  | o :: os, s =>
    match step o s with
    | none => none
    | some (r, s1) =>
      match run os s1 with
      | none => none
      | some (h, s2) => some ((o, r) :: h, s2)

/-- The effect of one entry of the history on the live keys, in the words of the
specification: a successful put makes the key the most recently put live key, a successful
delete ends its being live, and a failed call or a compaction step changes nothing. -/
def specLiveStep (l : List Nat) (e : Op × Option BigSetError) : List Nat :=
  match e with
  | (.Put c, none) => l.filter (fun x => x != c) ++ [c]
  | (.Delete c, none) => l.filter (fun x => x != c)
  | _ => l

/-- The live keys of a history (oldest entry first): the keys put successfully and not
deleted since, in the order of their latest successful put. -/
def specLive (h : List (Op × Option BigSetError)) : List Nat :=
  h.foldl specLiveStep []

/-- The set made by `NewBigSet discardThreshold` after the steps `ops`, with the history of
what the steps returned. -/
def reach (discardThreshold : Int) (ops : List Op) :
    Option (List (Op × Option BigSetError) × BigSet) :=
  match NewBigSet discardThreshold with
  | none => none
  | some s => run ops s

/-- The payloads a scan passed to its visitor, when it returned. -/
def ScanResult.calls? {σ : Type} : ScanResult σ → Option (List Nat)
  | .returned _ _ calls => some calls
  | .nilDeref => none
  | .outOfFuel => none

/-- The payloads a `Scan` with a visitor that only looks (it calls nothing on the set and
returns a nil error) passes to the visitor. -/
def scanKeys (s : BigSet) : Option (List Nat) :=
  (Scan (fun (st : Unit) (_ : Nat) => Visit.ret st false) () s).calls?

/-- The set a scan left, when it returned. -/
def ScanResult.set? {σ : Type} : ScanResult σ → Option BigSet
  | .returned _ s _ => some s
  | .nilDeref => none
  | .outOfFuel => none

/-! ### The linked list as a list of addresses -/

/-- First address of `l`, or `d` when `l` is empty. -/
def headOr (l : List Nat) (d : Option Nat) : Option Nat :=
  match l with
  | [] => d
  | b :: _ => some b

/-- Last address of `l`, or `d` when `l` is empty. -/
def lastOr : List Nat → Option Nat → Option Nat
  | [], d => d
  | b :: l, _ => lastOr l (some b)

/-- The items at the addresses `l` are linked in this order: the first points back to
`prev`, the last points on to `next`. -/
def Seg (m : Mem) : Option Nat → List Nat → Option Nat → Prop
  | _, [], _ => True
  | prev, a :: rest, next =>
    (m a).Prev = prev ∧ (m a).Next = headOr rest next ∧ Seg m (some a) rest next

/-- The memory after `delList item`. -/
def unlinkMem (m : Mem) (item : Nat) : Mem :=
  let m1 : Mem :=
    match (m item).Prev with
    | some p => m.write p { m p with Next := (m item).Next }
    | none => m
  match (m1 item).Next with
  | some n => m1.write n { m1 n with Prev := (m1 item).Prev }
  | none => m1

/-- The nil-payload items waiting to be unlinked: the pending batch, then the batches
handed to `clear` goroutines that have not run yet. -/
def tombs (s : BigSet) : List Nat := s.delQueue ++ s.clearing.flatten

/-- The payloads of the items at the addresses `l`, in this order, nil payloads left out. -/
def payloads (m : Mem) (l : List Nat) : List Nat := l.filterMap (fun a => (m a).c)

/-- The addresses met by following `Next` from `item`, at most `fuel` of them. -/
def listFrom (m : Mem) : Nat → Option Nat → List Nat
  | 0, _ => []
  | _ + 1, none => []
  | fuel + 1, some a => a :: listFrom m fuel (m a).Next

/-- The items reachable from `head`, in list order. -/
def nodes (s : BigSet) : List Nat := listFrom s.mem s.nextAddr s.head

/-- Structural invariant of a `BigSet` whose nil-payload items waiting to be unlinked are
`ts`: `l` lists the addresses of the items reachable from `head`, in list order. -/
structure InvT (s : BigSet) (l : List Nat) (ts : List Nat) : Prop where
  nodup : l.Nodup
  bound : ∀ a ∈ l, a < s.nextAddr
  head_eq : s.head = headOr l none
  tail_eq : s.tail = lastOr l none
  seg : Seg s.mem none l none
  pool_nodup : s.itemPool.Nodup
  pool_bound : ∀ a ∈ s.itemPool, a < s.nextAddr
  pool_fresh : ∀ a ∈ s.itemPool, a ∉ l
  keys_nodup : (s.mapItem.map Prod.fst).Nodup
  map_sound : ∀ c a, (c, a) ∈ s.mapItem → a ∈ l ∧ (s.mem a).c = some c
  map_complete : ∀ a ∈ l, ∀ c, (s.mem a).c = some c → (c, a) ∈ s.mapItem
  tomb_nodup : ts.Nodup
  tomb_sound : ∀ a ∈ ts, a ∈ l ∧ (s.mem a).c = none
  tomb_complete : ∀ a ∈ l, (s.mem a).c = none → a ∈ ts
  threshold : 0 ≤ s.discardThreshold
  pending : (s.delQueue.length : Int) < max s.discardThreshold 1

/-- Structural invariant of a `BigSet` between two steps. -/
def Inv (s : BigSet) (l : List Nat) : Prop := InvT s l (tombs s)

/-- From memory `m` to memory `m2` the payload of every item of `l` is kept or set to nil. -/
def Fades (m m2 : Mem) (l : List Nat) : Prop :=
  ∀ a ∈ l, (m2 a).c = (m a).c ∨ (m2 a).c = none

/-! ## queue.go

A slot channel (`chan interface{}` made with capacity 2) is an address; the memory
`ChanMem` gives the elements buffered in every channel, oldest first.  A send on a full
channel blocks: in a sequential run the call does not return, which is `none`, as is a
panic.  The field `last` of `Queue` is never read or written and is left out.

The pool `chanPool` is a package-level variable: `NewQueue` does not touch it, and a queue
starts with the channels that queues destroyed before have put into it, each with what
`putChan` left in it (`Chans`).

A gc goroutine started by `judgeGC` runs `gc` in three steps that the caller of the queue
can go between: the part under `qlock`, up to `q.qlock.Unlock()`; the statement
`atomic.StoreInt32(&q.used, 0)`; and the statement `atomic.StoreInt32(&q.gcRunning, 0)`.
The first store can also fall inside a `Scan` of the caller, which holds `qlock` for
reading only (`ScanAcross`). -/

/-- The type `flagNode` and its three constants. -/
inductive flagNode where
  | lisureNode
  | usedNode
  | destroyNode
deriving DecidableEq

/-- A value sent on a slot channel: a `flagNode`, or a value of any other type. -/
inductive Msg where
  | flag (f : flagNode)
  | val (v : Nat)
deriving DecidableEq

/-- The elements buffered in every channel, by address, oldest first. -/
abbrev ChanMem := Nat → List Msg

/-- Set the buffer of channel `c`. -/
def ChanMem.write (m : ChanMem) (c : Nat) (b : List Msg) : ChanMem :=
  fun d => if d = c then b else m d

/-- The capacity of a slot channel, `make(chan interface{}, 2)`. -/
def chanCap : Nat := 2

/-- The buffer after `cc <- m`; `none` when the channel is full and the send blocks. -/
def send (b : List Msg) (m : Msg) : Option (List Msg) :=
  if b.length < chanCap then some (b ++ [m]) else none

/-- An `int32` counter after an addition: the value wraps around. -/
def wrap32 (x : Int) : Int := (x + 2147483648) % 4294967296 - 2147483648

/-- The struct `Queue`, together with the part of the program state its methods touch:
the memory of channels, the package-level `chanPool`, and the gc goroutines started by
`judgeGC`: those that have not run yet (`gcTasks`, oldest first, each with its `garbage`
argument), the number of those that have left `qlock` and have
`atomic.StoreInt32(&q.used, 0)` as next statement (`atStoreUsed`), and the number of those
that have `atomic.StoreInt32(&q.gcRunning, 0)` as next statement (`atStoreRunning`). -/
structure Queue where
  chanMem : ChanMem
  nextChan : Nat
  chanPool : List Nat
  used : Int
  qchan : List Nat
  garbage : List Nat
  size : Int
  gcRunning : Int
  valid : Int
  validCount : Int
  gcTasks : List (List Nat)
  atStoreUsed : Nat
  atStoreRunning : Nat

/-- The part of the program state that all queues share: the memory of channels, the next
address a new channel gets, and the package-level `chanPool`. -/
structure Chans where
  chanMem : ChanMem
  nextChan : Nat
  chanPool : List Nat

/-- The shared state at the start of a program: no channel made, the pool empty. -/
def Chans.start : Chans := { chanMem := fun _ => [], nextChan := 0, chanPool := [] }

/-- The function `NewQueue`, called in the shared state `w`, which it leaves as it is.
`make` panics for a negative capacity, which is `none`. -/
def NewQueue (sizeQueue sizeGC : Int) (w : Chans) : Option Queue :=
  if sizeQueue < 0 ∨ sizeGC < 0 then none
  else some
    { chanMem := w.chanMem
      nextChan := w.nextChan
      chanPool := w.chanPool
      used := 0
      qchan := []
      garbage := []
      size := sizeGC
      gcRunning := 0
      valid := 0
      validCount := 0
      gcTasks := []
      atStoreUsed := 0
      atStoreRunning := 0 }

/-- The method `Queue.invalid`. -/
def Queue.invalid (q : Queue) : Bool := decide (q.valid = 1)

/-- The call `chanPool.Get()`: a pooled channel when there is one, with whatever it still
holds, and a new empty channel otherwise. -/
def chanGet (q : Queue) : Nat × Queue :=
  match q.chanPool with
  | c :: rest => (c, { q with chanPool := rest })
  | [] => (q.nextChan, { q with nextChan := q.nextChan + 1, chanMem := q.chanMem.write q.nextChan [] })

/-- The function `putChan`: take one element out of the channel if it holds one, and put
the channel into the pool. -/
def putChan (cc : Nat) (q : Queue) : Queue :=
  { q with chanMem := q.chanMem.write cc (q.chanMem cc).tail, chanPool := cc :: q.chanPool }

/-- The method `Queue.GetNode`: the returned channel (`none` is nil) and the state after. -/
def Queue.GetNode (q : Queue) : Option Nat × Queue :=
  if q.invalid then (none, q)
  else if q.used ≠ 0 then (none, q)
  else
    let (rchan, q1) := chanGet q
    (some rchan,
      { q1 with qchan := q1.qchan ++ [rchan], validCount := wrap32 (q1.validCount + 1) })

/-- The method `Queue.DiscardNode`; `none` when the send of the marker blocks, as it does
on a full channel and on a nil channel. -/
def Queue.DiscardNode (schan : Option Nat) (q : Queue) : Option Queue :=
  if q.invalid then some q
  else
    match schan with
    | none => none
    | some c =>
      match send (q.chanMem c) (Msg.flag flagNode.destroyNode) with
      | none => none
      | some b =>
        some { q with chanMem := q.chanMem.write c b, validCount := wrap32 (q.validCount - 1) }

/-- The method `Queue.ValidCount`. -/
def Queue.ValidCount (q : Queue) : Int := q.validCount

/-- The method `Queue.updateChan`: what it returns and the state after; `none` when the
send of the message blocks. -/
def Queue.updateChan (message : Msg) (cc : Nat) (q : Queue) : Option (Bool × Queue) :=
  match q.chanMem cc with
  | Msg.flag _ :: rest => some (false, { q with chanMem := q.chanMem.write cc rest })
  | Msg.val _ :: rest =>
    (send rest message).map (fun b => (true, { q with chanMem := q.chanMem.write cc b }))
  | [] => (send [] message).map (fun b => (true, { q with chanMem := q.chanMem.write cc b }))

/-- The method `Queue.judgeGC`.  The goroutine it starts is appended to `gcTasks`. -/
def Queue.judgeGC (indexs : List Nat) (q : Queue) : Queue :=
  let garbage := q.garbage ++ indexs
  if (garbage.length : Int) > q.size ∧ q.gcRunning = 0 then
    { q with garbage := [], gcRunning := 1, gcTasks := q.gcTasks ++ [garbage] }
  else { q with garbage := garbage }

/-- The loop `for i, pos := range garbage { q.qchan[pos] = q.qchan[last-i] }` of `gc`, from
index `i` on; `none` when an index is out of range. -/
def gcLoop (last : Int) : List Nat → Nat → List Nat → Option (List Nat)
  | [], _, qchan => some qchan
  | pos :: rest, i, qchan =>
    if last - (i : Int) < 0 then none
    else
      match qchan[(last - (i : Int)).toNat]? with
      | none => none
      | some c =>
        if pos < qchan.length then gcLoop last rest (i + 1) (qchan.set pos c) else none

/-- The part of `Queue.gc` under `qlock`, from `q.qlock.Lock()` to `q.qlock.Unlock()`;
`none` when an index or the bound of the final slice expression is out of range. -/
def Queue.gcLocked (garbage : List Nat) (q : Queue) : Option Queue :=
  let last : Int := (q.qchan.length : Int) - 1
  match gcLoop last garbage 0 q.qchan with
  | none => none
  | some qchan =>
    if last - (garbage.length : Int) < 0 then none
    else some { q with qchan := qchan.take (last - (garbage.length : Int)).toNat }

/-- The method `Queue.gc`, run from its first statement to its last with nothing in
between: the part under `qlock`, then the two stores. -/
def Queue.gc (garbage : List Nat) (q : Queue) : Option Queue :=
  match Queue.gcLocked garbage q with
  | none => none
  | some q1 => some { q1 with used := 0, gcRunning := 0 }

/-- The statement `atomic.StoreInt32(&q.used, 0)` of a gc goroutine that has left `qlock`;
the goroutine has `atomic.StoreInt32(&q.gcRunning, 0)` as next statement. -/
def Queue.storeUsed (q : Queue) : Queue :=
  { q with used := 0, atStoreUsed := q.atStoreUsed - 1, atStoreRunning := q.atStoreRunning + 1 }

/-- The statement `atomic.StoreInt32(&q.gcRunning, 0)` of a gc goroutine, its last. -/
def Queue.storeRunning (q : Queue) : Queue :=
  { q with gcRunning := 0, atStoreRunning := q.atStoreRunning - 1 }

/-- The method `Queue.GC`: what it returns and the state after; `none` when `gc` panics. -/
def Queue.GC (q : Queue) : Option (Bool × Queue) :=
  if q.invalid then some (false, q)
  else if q.gcRunning ≠ 0 then some (false, q)
  else
    match Queue.gc q.garbage { q with gcRunning := 1, garbage := [] } with
    | none => none
    | some q1 => some (true, q1)

/-- The loop of `Queue.Scan` over the slots `rcs`, the first of them at index `i`, followed
by the final `judgeGC`: the state after and the number of handler calls.  The handler gets
the number of its earlier calls in this scan and the state of the queue; it calls nothing
on the queue. -/
def Queue.scanFrom (message : Msg) (handler : Nat → Queue → Bool) :
    List Nat → Nat → List Nat → Nat → Queue → Option (Queue × Nat)
  | [], _, indexs, calls, q => some (q.judgeGC indexs, calls)
  | rc :: rest, i, indexs, calls, q =>
    match q.updateChan message rc with
    | none => none
    | some (false, q1) => Queue.scanFrom message handler rest (i + 1) (indexs ++ [i]) calls q1
    | some (true, q1) =>
      if handler calls q1 then some (q1.judgeGC indexs, calls + 1)
      else Queue.scanFrom message handler rest (i + 1) indexs (calls + 1) q1

/-- The method `Queue.Scan`: the state after and the number of handler calls. -/
def Queue.Scan (message : Msg) (handler : Nat → Queue → Bool) (q : Queue) :
    Option (Queue × Nat) :=
  if q.invalid then some (q, 0)
  else
    let q1 : Queue := { q with used := wrap32 (q.used + 1) }
    match Queue.scanFrom message handler q1.qchan 0 [] 0 q1 with
    | none => none
    | some (q2, calls) => some ({ q2 with used := wrap32 (q2.used - 1) }, calls)

/-- The method `Queue.Scan` when a gc goroutine that has left `qlock` runs its
`atomic.StoreInt32(&q.used, 0)` right after the `atomic.AddInt32(&q.used, 1)` of the scan:
the loop runs with `used` 0 and the deferred `atomic.AddInt32(&q.used, -1)` leaves -1.
With no such goroutine it is `Scan`. -/
def Queue.ScanAcross (message : Msg) (handler : Nat → Queue → Bool) (q : Queue) :
    Option (Queue × Nat) :=
  if q.invalid then some (q, 0)
  else if q.atStoreUsed = 0 then q.Scan message handler
  else
    let q1 : Queue := Queue.storeUsed { q with used := wrap32 (q.used + 1) }
    match Queue.scanFrom message handler q1.qchan 0 [] 0 q1 with
    | none => none
    | some (q2, calls) => some ({ q2 with used := wrap32 (q2.used - 1) }, calls)

/-- Run the gc goroutines `tasks` one after the other. -/
def runTasks : List (List Nat) → Queue → Option Queue
  | [], q => some q
  | g :: rest, q =>
    match Queue.gc g q with
    | none => none
    | some q1 => runTasks rest q1

/-- The gc goroutines that have left `qlock` run their remaining stores. -/
def Queue.finishStores (q : Queue) : Queue :=
  { q with
    used := if q.atStoreUsed = 0 then q.used else 0
    gcRunning := if q.atStoreUsed = 0 ∧ q.atStoreRunning = 0 then q.gcRunning else 0
    atStoreUsed := 0
    atStoreRunning := 0 }

/-- The method `Queue.Destory`; `wg.Wait()` lets the gc goroutines run to their end first,
those that have left `qlock` and those that have not run yet. -/
def Queue.Destory (q : Queue) : Option Queue :=
  if q.invalid then some q
  else
    match runTasks q.gcTasks (Queue.finishStores { q with valid := 1, gcTasks := [] }) with
    | none => none
    | some q1 => some (q1.qchan.foldl (fun acc c => putChan c acc) q1)

/-- A caller of the queue keeps the results of its `GetNode` calls in a list `nc`, as
`TestQueue` does.  Its steps: a call of a method (`DiscardNode i` is
`q.DiscardNode(nc[i])`), the run of a gc goroutine that has not run yet, from its first
statement to its last (`gcStep i` runs the one at position `i` of `gcTasks`), or the
receipt of one element from the channel `nc[i]` by the owner of the slot, when the channel
holds one.  The steps of a gc goroutine one by one: `gcLock i` runs the goroutine at
position `i` of `gcTasks` up to `q.qlock.Unlock()`, `gcStoreUsed` and `gcStoreRunning` run
the next statement of a goroutine that has left `qlock`, and `ScanAcross` is a call of
`Scan` with the store of `used` by such a goroutine inside it. -/
inductive QOp where
  | GetNode
  | DiscardNode (i : Nat)
  | Scan (message : Msg) (handler : Nat → Queue → Bool)
  | GC
  | gcStep (i : Nat)
  | Recv (i : Nat)
  | Destory
  | gcLock (i : Nat)
  | gcStoreUsed
  | gcStoreRunning
  | ScanAcross (message : Msg) (handler : Nat → Queue → Bool)

/-- What a step returned. -/
inductive QRes where
  | slot (c : Option Nat)
  | calls (n : Nat)
  | done (b : Bool)
  | unit
deriving DecidableEq

/-- One step of a caller holding `nc`: what it returned, the state and `nc` after; `none`
when the step panics or blocks. -/
def qstep (o : QOp) (q : Queue) (nc : List (Option Nat)) :
    Option (QRes × Queue × List (Option Nat)) :=
  match o with
  | .GetNode => some (QRes.slot q.GetNode.1, q.GetNode.2, nc ++ [q.GetNode.1])
  | .DiscardNode i =>
    match nc[i]? with
    | some schan => (q.DiscardNode schan).map (fun q1 => (QRes.unit, q1, nc))
    | none => none
  | .Scan message handler =>
    (q.Scan message handler).map (fun r => (QRes.calls r.2, r.1, nc))
  | .GC => q.GC.map (fun r => (QRes.done r.1, r.2, nc))
  | .gcStep i =>
    match q.gcTasks[i]? with
    | none => some (QRes.unit, q, nc)
    | some g => (Queue.gc g { q with gcTasks := dropAt q.gcTasks i }).map (fun q1 => (QRes.unit, q1, nc))
  | .Recv i =>
    match nc[i]? with
    | some (some c) => some (QRes.unit, { q with chanMem := q.chanMem.write c (q.chanMem c).tail }, nc)
    | _ => none
  | .Destory => q.Destory.map (fun q1 => (QRes.unit, q1, nc))
  | .gcLock i =>
    match q.gcTasks[i]? with
    | none => some (QRes.unit, q, nc)
    | some g =>
      (Queue.gcLocked g { q with gcTasks := dropAt q.gcTasks i }).map
        (fun q1 => (QRes.unit, { q1 with atStoreUsed := q1.atStoreUsed + 1 }, nc))
  | .gcStoreUsed =>
    if q.atStoreUsed = 0 then some (QRes.unit, q, nc) else some (QRes.unit, q.storeUsed, nc)
  | .gcStoreRunning =>
    if q.atStoreRunning = 0 then some (QRes.unit, q, nc)
    else some (QRes.unit, q.storeRunning, nc)
  | .ScanAcross message handler =>
    (q.ScanAcross message handler).map (fun r => (QRes.calls r.2, r.1, nc))

/-- Run a sequence of steps; the results are listed in order. -/
def qrun : List QOp → Queue → List (Option Nat) → Option (List QRes × Queue × List (Option Nat))
  | [], q, nc => some ([], q, nc)
  | o :: os, q, nc =>
    match qstep o q nc with
    | none => none
    | some (r, q1, nc1) =>
      match qrun os q1 nc1 with
      | none => none
      | some (rs, q2, nc2) => some (r :: rs, q2, nc2)

/-- The queue made by `NewQueue sizeQueue sizeGC` in the shared state `w`, after the steps
`ops` of a caller. -/
def qreachIn (w : Chans) (sizeQueue sizeGC : Int) (ops : List QOp) :
    Option (List QRes × Queue × List (Option Nat)) :=
  match NewQueue sizeQueue sizeGC w with
  | none => none
  | some q => qrun ops q []

/-- The queue made by `NewQueue sizeQueue sizeGC` at the start of a program, after the
steps `ops` of a caller. -/
def qreach (sizeQueue sizeGC : Int) (ops : List QOp) :
    Option (List QRes × Queue × List (Option Nat)) :=
  qreachIn Chans.start sizeQueue sizeGC ops

/-- The number of `GetNode` calls among the steps. -/
def countGet : List QOp → Nat
  | [] => 0
  | QOp.GetNode :: os => countGet os + 1
  | _ :: os => countGet os

/-- The number of `DiscardNode` calls among the steps. -/
def countDiscard : List QOp → Nat
  | [] => 0
  | QOp.DiscardNode _ :: os => countDiscard os + 1
  | _ :: os => countDiscard os

/-- The steps of a caller that only obtains slots, discards slots, scans, and lets slot
owners receive: every `DiscardNode i` is for a slot obtained before (`i < n`, with `n`
the number of `GetNode` calls so far) and not discarded before (`i ∉ gone`), and every
`Recv i` is for a slot obtained before.  With `scans = false` the steps are `GetNode` and
`DiscardNode` calls only. -/
def admissible (scans : Bool) : List QOp → Nat → List Nat → Bool
  | [], _, _ => true
  | QOp.GetNode :: os, n, gone => admissible scans os (n + 1) gone
  | QOp.DiscardNode i :: os, n, gone =>
    decide (i < n) && decide (i ∉ gone) && admissible scans os n (i :: gone)
  | QOp.Scan _ _ :: os, n, gone => scans && admissible scans os n gone
  | QOp.Recv i :: os, n, gone => scans && decide (i < n) && admissible scans os n gone
  | _ :: _, _, _ => false

/-- The indices discarded by the steps, latest first, on top of `gone`. -/
def discarded : List QOp → List Nat → List Nat
  | [], gone => gone
  | QOp.DiscardNode i :: os, gone => discarded os (i :: gone)
  | _ :: os, gone => discarded os gone

/-- What holds of the shared state whatever queues have done before: no channel holds more
than its capacity, the pool holds distinct channels that have been made, and a pooled
channel holds at most one element, since it held at most two when `putChan` took one out. -/
structure Chans.ok (w : Chans) : Prop where
  cap : ∀ c, (w.chanMem c).length ≤ 2
  pool_nodup : w.chanPool.Nodup
  pool_lt : ∀ c ∈ w.chanPool, c < w.nextChan
  pool_len : ∀ c ∈ w.chanPool, (w.chanMem c).length ≤ 1

/-- Invariant of a queue on which only `GetNode`, `DiscardNode`, `Scan` and receipts by
slot owners have run: the channels `hs` have been obtained, in this order, those with
index in `gone` have been discarded, and the pool holds channels not obtained yet. -/
structure QInv (q : Queue) (nc : List (Option Nat)) (hs : List Nat) (gone : List Nat) :
    Prop where
  valid : q.valid = 0
  used : q.used = 0
  nc_eq : nc = hs.map some
  qchan_eq : q.qchan = hs
  hs_nodup : hs.Nodup
  hs_lt : ∀ c ∈ hs, c < q.nextChan
  pool_nodup : q.chanPool.Nodup
  pool_lt : ∀ c ∈ q.chanPool, c < q.nextChan
  pool_new : ∀ c ∈ q.chanPool, c ∉ hs
  pool_len : ∀ c ∈ q.chanPool, (q.chanMem c).length ≤ 1
  count : q.validCount = wrap32 ((hs.length : Int) - (gone.length : Int))
  gone_nodup : gone.Nodup
  gone_lt : ∀ i ∈ gone, i < hs.length
  live_len : ∀ i c, hs[i]? = some c → i ∉ gone → (q.chanMem c).length ≤ 1
  all_len : ∀ c, (q.chanMem c).length ≤ 2

/-- The channels on which the steps called `DiscardNode`, for a caller whose `GetNode`
calls have returned `nc`. -/
def discardedChans : List QOp → List (Option Nat) → List Nat
  | [], _ => []
  | QOp.DiscardNode i :: os, nc =>
    match nc[i]? with
    | some (some c) => c :: discardedChans os nc
    | _ => discardedChans os nc
  | _ :: os, nc => discardedChans os nc

/-- Invariant of a queue under all steps, with `gone` the channels on which `DiscardNode`
has been called: no channel holds more than its capacity, the array holds distinct
channels that the caller has obtained, a channel obtained and never discarded holds at
most one element, and so does a pooled channel; while the queue is valid the pooled
channels have not been obtained. -/
structure QWf (q : Queue) (nc : List (Option Nat)) (gone : List Nat) : Prop where
  cap : ∀ c, (q.chanMem c).length ≤ 2
  qchan_nodup : q.qchan.Nodup
  qchan_handed : ∀ c ∈ q.qchan, some c ∈ nc
  handed_lt : ∀ c, some c ∈ nc → c < q.nextChan
  gone_handed : ∀ c ∈ gone, some c ∈ nc
  live_len : ∀ c, some c ∈ nc → c ∉ gone → (q.chanMem c).length ≤ 1
  pool_nodup : q.chanPool.Nodup
  pool_lt : ∀ c ∈ q.chanPool, c < q.nextChan
  pool_len : ∀ c ∈ q.chanPool, (q.chanMem c).length ≤ 1
  pool_new : q.invalid = false → ∀ c ∈ q.chanPool, some c ∉ nc

/-- The steps that only collect: a `GC()` call and the steps of gc goroutines. -/
def QOp.collects : QOp → Bool
  | .GC => true
  | .gcStep _ => true
  | .gcLock _ => true
  | .gcStoreUsed => true
  | .gcStoreRunning => true
  | _ => false

/-- Whether the oldest element buffered in a channel is a `flagNode`, which is what
`updateChan` tests on the element it receives. -/
def headFlag (b : List Msg) : Bool :=
  match b with
  | Msg.flag _ :: _ => true
  | _ => false

/-- The buffer of a channel after `updateChan message` on it, when the send does not block:
a `flagNode` in front is taken out and nothing is sent; otherwise the element in front, if
there is one, is taken out and `message` is sent. -/
def delivered (message : Msg) (b : List Msg) : List Msg :=
  match b with
  | Msg.flag _ :: rest => rest
  | Msg.val _ :: rest => rest ++ [message]
  | [] => [message]

/-- The positions, counted from `i`, of the slots of `rcs` whose channel has a `flagNode`
in front. -/
def markedAt (mem : ChanMem) : List Nat → Nat → List Nat
  | [], _ => []
  | c :: rest, i =>
    if headFlag (mem c) then i :: markedAt mem rest (i + 1) else markedAt mem rest (i + 1)

/-- The slots of `rcs` whose channel does not have a `flagNode` in front, in order. -/
def unmarked (mem : ChanMem) (rcs : List Nat) : List Nat :=
  rcs.filter (fun c => !headFlag (mem c))

/-- The memory of channels after `updateChan message` has run once on each channel of
`rcs`. -/
def deliverAll (message : Msg) (rcs : List Nat) (mem : ChanMem) : ChanMem :=
  fun d => if d ∈ rcs then delivered message (mem d) else mem d

/-! ## Proofs for bigset.go -/

@[simp] theorem Mem.write_same (m : Mem) (a : Nat) (it : Item) : (m.write a it) a = it := by
  simp [Mem.write]

theorem Mem.write_other (m : Mem) (a b : Nat) (it : Item) (h : b ≠ a) :
    (m.write a it) b = m b := by
  simp [Mem.write, h]

theorem lastOr_append_singleton (l : List Nat) (a : Nat) (d : Option Nat) :
    lastOr (l ++ [a]) d = some a := by
  induction l generalizing d with
  | nil => rfl
  | cons b l ih => simpa [lastOr] using ih (some b)

theorem lastOr_some (l : List Nat) (d : Nat) :
    lastOr l (some d) = some ((l.getLast?).getD d) := by
  induction l generalizing d with
  | nil => rfl
  | cons b l ih =>
    rw [lastOr, ih b]
    cases l with
    | nil => rfl
    | cons x l =>
      rw [List.getLast?_cons_cons, List.getLast?_eq_getLast _ (List.cons_ne_nil _ _)]
      rfl

theorem lastOr_eq_getLast? (l : List Nat) : lastOr l none = l.getLast? := by
  cases l with
  | nil => rfl
  | cons b l =>
    rw [lastOr, lastOr_some]
    cases l with
    | nil => rfl
    | cons x l =>
      rw [List.getLast?_cons_cons, List.getLast?_eq_getLast _ (List.cons_ne_nil _ _)]
      rfl

theorem headOr_eq_head? (l : List Nat) : headOr l none = l.head? := by
  cases l <;> rfl

theorem Seg_congr {m m2 : Mem} {l : List Nat} {p n : Option Nat}
    (h : ∀ a ∈ l, (m2 a).Prev = (m a).Prev ∧ (m2 a).Next = (m a).Next)
    (hs : Seg m p l n) : Seg m2 p l n := by
  induction l generalizing p with
  | nil => trivial
  | cons a rest ih =>
    obtain ⟨h1, h2, h3⟩ := hs
    have ha := h a (List.mem_cons_self _ _)
    refine ⟨by rw [ha.1, h1], by rw [ha.2, h2], ih (fun b hb => h b (List.mem_cons_of_mem _ hb)) h3⟩

theorem Seg_prev_of_split {m : Mem} {A B : List Nat} {a : Nat} {p n : Option Nat}
    (hs : Seg m p (A ++ a :: B) n) : (m a).Prev = lastOr A p ∧ (m a).Next = headOr B n := by
  induction A generalizing p with
  | nil => exact ⟨hs.1, hs.2.1⟩
  | cons x A ih => exact ih hs.2.2

theorem lastOr_cons_mem (y : Nat) (l : List Nat) (d : Option Nat) :
    ∃ z, lastOr (y :: l) d = some z ∧ z ∈ y :: l := by
  induction l generalizing y d with
  | nil => exact ⟨y, rfl, List.mem_cons_self _ _⟩
  | cons x l ih =>
    obtain ⟨z, hz, hmem⟩ := ih x (some y)
    exact ⟨z, by simpa [lastOr] using hz, List.mem_cons_of_mem _ hmem⟩

theorem unlinkMem_c (m : Mem) (a b : Nat) : (unlinkMem m a b).c = (m b).c := by
  unfold unlinkMem Mem.write
  rcases hP : (m a).Prev with _ | p <;> rcases hN : (m a).Next with _ | n <;> simp only [hP, hN]
  · by_cases h : b = n <;> simp [h]
  · by_cases h3 : a = p <;> by_cases h : b = p <;> simp_all
  · by_cases h3 : a = p <;> by_cases h : b = p <;> by_cases h2 : b = n <;>
      by_cases h4 : n = p <;> simp_all [eq_comm]

theorem unlinkMem_Prev (m : Mem) (a b : Nat) :
    (unlinkMem m a b).Prev = if (m a).Next = some b then (m a).Prev else (m b).Prev := by
  unfold unlinkMem Mem.write
  rcases hP : (m a).Prev with _ | p <;> rcases hN : (m a).Next with _ | n <;> simp only [hP, hN]
  · simp
  · by_cases h : b = n <;> simp [h, hP, eq_comm]
  · by_cases h3 : a = p <;> by_cases h : b = p <;> simp_all
  · by_cases h3 : a = p <;> by_cases h : b = p <;> by_cases h2 : b = n <;>
      by_cases h4 : n = p <;> simp_all [eq_comm]

theorem unlinkMem_Next (m : Mem) (a b : Nat) :
    (unlinkMem m a b).Next = if (m a).Prev = some b then (m a).Next else (m b).Next := by
  unfold unlinkMem Mem.write
  rcases hP : (m a).Prev with _ | p <;> rcases hN : (m a).Next with _ | n <;> simp only [hP, hN]
  · simp
  · by_cases h : b = n <;> simp [h, hP, eq_comm]
  · by_cases h3 : a = p <;> by_cases h : b = p <;> simp_all [eq_comm]
  · by_cases h3 : a = p <;> by_cases h : b = p <;> by_cases h2 : b = n <;>
      by_cases h4 : n = p <;> simp_all [eq_comm]
theorem headOr_append_cons (A B : List Nat) (a : Nat) (n : Option Nat) :
    headOr (A ++ a :: B) n = headOr (A ++ [a]) n := by
  cases A <;> rfl

/-- Unlinking `a` keeps the items after it linked, now pointing back to what was before
`a`. -/
theorem Seg_unlink_after {m : Mem} {a : Nat} {B : List Nat} {p n : Option Nat}
    (hnd : (a :: B).Nodup) (hp : ∀ q, p = some q → q ∉ a :: B)
    (hP : (m a).Prev = p) (hN : (m a).Next = headOr B n)
    (hs : Seg m (some a) B n) : Seg (unlinkMem m a) p B n := by
  cases B with
  | nil => trivial
  | cons b B =>
    obtain ⟨h1, h2, h3⟩ := hs
    have hN2 : (m a).Next = some b := hN
    have hbB : b ∉ B := (List.nodup_cons.1 (List.nodup_cons.1 hnd).2).1
    refine ⟨?_, ?_, ?_⟩
    · rw [unlinkMem_Prev, hN2]; simp [hP]
    · rw [unlinkMem_Next, hP]
      have : p ≠ some b := fun h => hp b h (by simp)
      simp [this, h2]
    · refine Seg_congr (fun x hx => ?_) h3
      have hxb : x ≠ b := fun h => hbB (h ▸ hx)
      have hpx : p ≠ some x := fun h => hp x h (by simp [hx])
      rw [unlinkMem_Prev, unlinkMem_Next, hN2, hP]
      simp [hpx, Ne.symm hxb]

/-- Unlinking an item of a linked list of distinct items leaves the others linked in the
same order. -/
theorem Seg_unlink {m : Mem} {a : Nat} {B : List Nat} {n : Option Nat} :
    ∀ (A : List Nat) (p : Option Nat), (A ++ a :: B).Nodup →
      (∀ q, n = some q → q ∉ A ++ a :: B) → (∀ q, p = some q → q ∉ A ++ a :: B) →
      Seg m p (A ++ a :: B) n → Seg (unlinkMem m a) p (A ++ B) n := by
  intro A
  induction A with
  | nil =>
    intro p hnd _ hp hs
    exact Seg_unlink_after hnd hp hs.1 hs.2.1 hs.2.2
  | cons x A ih =>
    intro p hnd hn hp hs
    obtain ⟨h1, h2, h3⟩ := hs
    have hnd2 : (A ++ a :: B).Nodup := (List.nodup_cons.1 hnd).2
    have hx : x ∉ A ++ a :: B := (List.nodup_cons.1 hnd).1
    have hsplit := Seg_prev_of_split h3
    have ih2 := ih (some x) hnd2 (fun q hq hmem => hn q hq (List.mem_cons_of_mem _ hmem))
      (fun q hq => by cases hq; exact hx) h3
    have hNx : (m a).Next ≠ some x := by
      rw [hsplit.2]
      cases B with
      | nil =>
        intro h
        exact hn x h (List.mem_cons_self _ _)
      | cons b B =>
        intro h
        have : b = x := by simpa [headOr] using h
        exact hx (by simp [this])
    refine ⟨?_, ?_, ih2⟩
    · rw [unlinkMem_Prev]; simp [hNx, h1]
    · rw [unlinkMem_Next, hsplit.1]
      cases A with
      | nil => simp [lastOr, hsplit.2]
      | cons y A =>
        obtain ⟨z, hz, hmem⟩ := lastOr_cons_mem y A (some x)
        have hzx : z ≠ x := fun h => hx (by
          rw [← h]
          exact List.mem_append_left _ hmem)
        rw [hz]
        simp [hzx, h2, headOr]
theorem lastOr_append (A B : List Nat) (d : Option Nat) :
    lastOr (A ++ B) d = lastOr B (lastOr A d) := by
  induction A generalizing d with
  | nil => rfl
  | cons x A ih => simpa [lastOr] using ih (some x)

theorem lastOr_mem {l : List Nat} {t : Nat} (h : lastOr l none = some t) : t ∈ l := by
  cases l with
  | nil => simp [lastOr] at h
  | cons y l =>
    obtain ⟨z, hz, hmem⟩ := lastOr_cons_mem y l none
    rw [hz] at h
    cases h
    exact hmem

/-- Appending a fresh item after the last one keeps the list linked. -/
theorem Seg_snoc {m m2 : Mem} {a t : Nat} :
    ∀ (l : List Nat) (p d : Option Nat), l ≠ [] → l.Nodup → a ∉ l → lastOr l d = some t →
      (m2 a).Prev = some t → (m2 a).Next = none →
      (m2 t).Prev = (m t).Prev → (m2 t).Next = some a →
      (∀ b, b ≠ a → b ≠ t → m2 b = m b) →
      Seg m p l none → Seg m2 p (l ++ [a]) none := by
  intro l
  induction l with
  | nil => intro p d h; exact absurd rfl h
  | cons x l ih =>
    intro p d _ hnd ha hlast ha1 ha2 ht1 ht2 ho hs
    obtain ⟨h1, h2, h3⟩ := hs
    have hxa : x ≠ a := fun h => ha (by simp [h])
    cases l with
    | nil =>
      have hxt : x = t := by simpa [lastOr] using hlast
      subst hxt
      exact ⟨by rw [ht1, h1], by simpa [headOr] using ht2, ha1, by simpa [headOr] using ha2, trivial⟩
    | cons y l =>
      have hnd2 : (y :: l).Nodup := (List.nodup_cons.1 hnd).2
      have hx : x ∉ y :: l := (List.nodup_cons.1 hnd).1
      have hlast2 : lastOr (y :: l) (some x) = some t := by simpa [lastOr] using hlast
      obtain ⟨z, hz, hmem⟩ := lastOr_cons_mem y l (some x)
      have hzt : z = t := by rw [hz] at hlast2; cases hlast2; rfl
      have hxt : x ≠ t := fun h => hx (by rw [h, ← hzt]; exact hmem)
      have ih2 := ih (some x) (some x) (List.cons_ne_nil _ _) hnd2
        (fun h => ha (List.mem_cons_of_mem _ h)) hlast2 ha1 ha2 ht1 ht2 ho h3
      refine ⟨?_, ?_, ih2⟩
      · rw [ho x hxa hxt, h1]
      · rw [ho x hxa hxt, h2]; rfl

theorem Inv_NewBigSet {t : Int} {s : BigSet} (h : NewBigSet t = some s) : Inv s [] := by
  unfold NewBigSet at h
  split at h
  · cases h
  · cases h
    constructor <;> simp [headOr, lastOr, Seg, tombs]
    · omega

theorem judge_none_iff (m : List (Nat × Nat)) (c : Nat) :
    judge m c = none ↔ c ∉ m.map Prod.fst := by
  simp [judge, List.find?_eq_none]
  constructor
  · intro h x hx; exact h c x hx rfl
  · intro h a b hab hac; subst hac; exact h b hab

theorem judge_some_mem {m : List (Nat × Nat)} {c a : Nat} (h : judge m c = some a) :
    (c, a) ∈ m := by
  unfold judge at h
  cases hf : m.find? (fun p => p.1 == c) with
  | none => simp [hf] at h
  | some p =>
    rw [hf] at h
    have h1 := List.find?_some hf
    have h2 := List.mem_of_find?_eq_some hf
    simp at h h1
    rcases p with ⟨k, v⟩
    simp at h h1
    subst h; subst h1; exact h2

theorem judge_of_mem {m : List (Nat × Nat)} {c a : Nat} (hnd : (m.map Prod.fst).Nodup)
    (h : (c, a) ∈ m) : judge m c = some a := by
  cases hj : judge m c with
  | none =>
    rw [judge_none_iff] at hj
    exact absurd (List.mem_map_of_mem Prod.fst h) hj
  | some b =>
    have hb := judge_some_mem hj
    have := List.inj_on_of_nodup_map hnd hb h rfl
    simp at this
    rw [this]

theorem GetItem_facts {s : BigSet} {l ts : List Nat} (hI : InvT s l ts) (c : Nat) :
    (GetItem c s).2.mem = s.mem.write (GetItem c s).1 { c := some c, Prev := none, Next := none } ∧
    (GetItem c s).1 ∉ l ∧ (GetItem c s).1 < (GetItem c s).2.nextAddr ∧
    s.nextAddr ≤ (GetItem c s).2.nextAddr ∧
    ((GetItem c s).1 :: (GetItem c s).2.itemPool).Nodup ∧
    (∀ x ∈ (GetItem c s).2.itemPool, x < (GetItem c s).2.nextAddr ∧ x ∉ l) ∧
    (GetItem c s).2.head = s.head ∧ (GetItem c s).2.tail = s.tail ∧
    (GetItem c s).2.mapItem = s.mapItem ∧ (GetItem c s).2.delQueue = s.delQueue ∧
    (GetItem c s).2.clearing = s.clearing ∧
    (GetItem c s).2.discardThreshold = s.discardThreshold := by
  unfold GetItem
  cases hp : s.itemPool with
  | nil =>
    simp only
    refine ⟨trivial, ?_, Nat.lt_succ_self _, Nat.le_succ _, by simp, by simp, trivial, trivial, trivial, trivial, trivial, trivial⟩
    intro h
    exact absurd (hI.bound _ h) (Nat.lt_irrefl _)
  | cons a rest =>
    simp only
    have hnd := hI.pool_nodup
    rw [hp] at hnd
    refine ⟨trivial, hI.pool_fresh a (by simp [hp]), hI.pool_bound a (by simp [hp]), Nat.le_refl _,
      hnd, ?_, trivial, trivial, trivial, trivial, trivial, trivial⟩
    intro x hx
    exact ⟨hI.pool_bound x (by simp [hp, hx]), hI.pool_fresh x (by simp [hp, hx])⟩

/-- The invariant after a new item with payload `c` has been linked at the end. -/
theorem InvT_append {s s2 : BigSet} {l ts : List Nat} {a c : Nat} (hI : InvT s l ts)
    (ha : a ∉ l) (hb : a < s2.nextAddr) (hle : s.nextAddr ≤ s2.nextAddr)
    (hc : (s2.mem a).c = some c) (hframe : ∀ b, b ≠ a → (s2.mem b).c = (s.mem b).c)
    (hhead : s2.head = headOr (l ++ [a]) none) (htail : s2.tail = some a)
    (hseg : Seg s2.mem none (l ++ [a]) none)
    (hpool : (a :: s2.itemPool).Nodup)
    (hpool2 : ∀ x ∈ s2.itemPool, x < s2.nextAddr ∧ x ∉ l)
    (hmap : s2.mapItem = s.mapItem ++ [(c, a)]) (hkey : judge s.mapItem c = none)
    (hthr : s2.discardThreshold = s.discardThreshold) (hq : s2.delQueue = s.delQueue) :
    InvT s2 (l ++ [a]) ts := by
  have hkey2 := (judge_none_iff _ _).1 hkey
  constructor
  · exact List.Nodup.append hI.nodup (List.nodup_singleton a) (by simpa using ha)
  · intro x hx
    rcases List.mem_append.1 hx with h | h
    · exact Nat.lt_of_lt_of_le (hI.bound x h) hle
    · simp at h; rw [h]; exact hb
  · exact hhead
  · rw [htail, lastOr_append_singleton]
  · exact hseg
  · exact (List.nodup_cons.1 hpool).2
  · exact fun x hx => (hpool2 x hx).1
  · intro x hx hmem
    rcases List.mem_append.1 hmem with h | h
    · exact (hpool2 x hx).2 h
    · simp at h; subst h; exact (List.nodup_cons.1 hpool).1 hx
  · rw [hmap, List.map_append]
    exact List.Nodup.append hI.keys_nodup (List.nodup_singleton c) (by simpa using hkey2)
  · intro k x hx
    rw [hmap] at hx
    rcases List.mem_append.1 hx with h | h
    · have := hI.map_sound k x h
      have hxa : x ≠ a := fun e => ha (e ▸ this.1)
      exact ⟨List.mem_append_left _ this.1, by rw [hframe x hxa]; exact this.2⟩
    · simp at h
      obtain ⟨rfl, rfl⟩ := h
      exact ⟨by simp, hc⟩
  · intro x hx k hk
    rw [hmap]
    rcases List.mem_append.1 hx with h | h
    · have hxa : x ≠ a := fun e => ha (e ▸ h)
      rw [hframe x hxa] at hk
      exact List.mem_append_left _ (hI.map_complete x h k hk)
    · simp at h; subst h
      rw [hc] at hk; cases hk
      simp
  · exact hI.tomb_nodup
  · intro x hx
    have := hI.tomb_sound x hx
    have hxa : x ≠ a := fun e => ha (e ▸ this.1)
    exact ⟨List.mem_append_left _ this.1, by rw [hframe x hxa]; exact this.2⟩
  · intro x hx hn
    rcases List.mem_append.1 hx with h | h
    · have hxa : x ≠ a := fun e => ha (e ▸ h)
      rw [hframe x hxa] at hn
      exact hI.tomb_complete x h hn
    · simp at h; subst h
      rw [hc] at hn; cases hn
  · rw [hthr]; exact hI.threshold
  · rw [hthr, hq]; exact hI.pending
theorem tombs_congr {s s2 : BigSet} (hq : s2.delQueue = s.delQueue)
    (hc : s2.clearing = s.clearing) : tombs s2 = tombs s := by
  simp [tombs, hq, hc]

theorem Inv_of_InvT {s s2 : BigSet} {l : List Nat} (h : InvT s2 l (tombs s))
    (hq : s2.delQueue = s.delQueue) (hc : s2.clearing = s.clearing) : Inv s2 l := by
  unfold Inv
  rw [tombs_congr hq hc]
  exact h

theorem headOr_none_iff {l : List Nat} : headOr l none = none ↔ l = [] := by
  cases l <;> simp [headOr]

/-- A `Put` of a key that is not in the index: it returns nil and links a new item with
this payload at the end of the list. -/
theorem Put_fresh {s : BigSet} {l : List Nat} (hI : Inv s l) (c : Nat)
    (hj : judge s.mapItem c = none) :
    ∃ a s2, Put c s = some (none, s2) ∧ Inv s2 (l ++ [a]) ∧ a ∉ l ∧
      (s2.mem a).c = some c ∧ (∀ b, b ≠ a → (s2.mem b).c = (s.mem b).c) ∧
      s2.mapItem = s.mapItem ++ [(c, a)] ∧ s2.delQueue = s.delQueue ∧
      s2.clearing = s.clearing ∧ s2.discardThreshold = s.discardThreshold ∧
      s.nextAddr ≤ s2.nextAddr := by
  have hG := GetItem_facts hI c
  rcases hg : GetItem c s with ⟨item, s1⟩
  rw [hg] at hG
  simp only at hG
  obtain ⟨hmem, hnl, hlt, hle, hpool, hpool2, hhead, htail, hmap, hdq, hcl, hthr⟩ := hG
  have hframe1 : ∀ b, b ≠ item → s1.mem b = s.mem b := by
    intro b hb; rw [hmem, Mem.write_other _ _ _ _ hb]
  have hitem : s1.mem item = { c := some c, Prev := none, Next := none } := by
    rw [hmem, Mem.write_same]
  have hseg1 : Seg s1.mem none l none :=
    Seg_congr (fun b hb => by rw [hframe1 b (fun e => hnl (e ▸ hb))]; exact ⟨rfl, rfl⟩) hI.seg
  unfold Put
  rw [hg]
  simp only [addMap, hmap, hj, addList, hhead]
  cases hh : s.head with
  | none =>
    have hl : l = [] := headOr_none_iff.1 (hI.head_eq ▸ hh)
    subst hl
    refine ⟨item, _, rfl, ?_, hnl, ?_, ?_, rfl, hdq, hcl, hthr, hle⟩
    · refine Inv_of_InvT (s := s) ?_ hdq hcl
      refine InvT_append hI hnl hlt hle ?_ ?_ rfl rfl ?_ hpool hpool2 rfl hj hthr hdq
      · simp [hitem]
      · intro b hb; simp [hframe1 b hb]
      · simp [Seg, hitem, headOr]
    · simp [hitem]
    · intro b hb; simp [hframe1 b hb]
  | some h0 =>
    have hne : l ≠ [] := by
      intro e; subst e
      have := hI.head_eq
      rw [hh] at this
      simp [headOr] at this
    obtain ⟨y, l2, hyl⟩ := List.exists_cons_of_ne_nil hne
    obtain ⟨t, ht, htmem⟩ := lastOr_cons_mem y l2 none
    rw [← hyl] at ht htmem
    have htail2 : s.tail = some t := by rw [hI.tail_eq, ht]
    have hti : t ≠ item := fun e => hnl (e ▸ htmem)
    simp only [htail, htail2, Option.map_some']
    refine ⟨item, _, rfl, ?_, hnl, ?_, ?_, rfl, hdq, hcl, hthr, hle⟩
    · refine Inv_of_InvT (s := s) ?_ hdq hcl
      refine InvT_append hI hnl hlt hle ?_ ?_ ?_ rfl ?_ hpool hpool2 rfl hj hthr hdq
      · simp [Mem.write, hti.symm, hitem]
      · intro b hb
        by_cases hbt : b = t
        · subst hbt; simp [Mem.write, hb, hframe1 b hb]
        · simp [Mem.write, hb, hbt, hframe1 b hb]
      · show some h0 = _
        rw [← hh, hI.head_eq, hyl]; rfl
      · refine Seg_snoc (m := s1.mem) l none none hne hI.nodup hnl ht ?_ ?_ ?_ ?_ ?_ hseg1
        · simp [Mem.write, hti.symm]
        · simp [Mem.write, hti.symm, hitem]
        · simp [Mem.write, hti]
        · simp [Mem.write]
        · intro b hb hbt; simp [Mem.write, hb, hbt]
    · simp [Mem.write, hti.symm, hitem]
    · intro b hb
      by_cases hbt : b = t
      · subst hbt; simp [Mem.write, hb, hframe1 b hb]
      · simp [Mem.write, hb, hbt, hframe1 b hb]
/-- The invariant carries over to a state that differs only outside the list. -/
theorem InvT_frame {s s2 : BigSet} {l ts : List Nat} (hI : InvT s l ts)
    (hle : s.nextAddr ≤ s2.nextAddr) (hmem : ∀ b ∈ l, s2.mem b = s.mem b)
    (hhead : s2.head = s.head) (htail : s2.tail = s.tail)
    (hpool : s2.itemPool.Nodup) (hpool2 : ∀ x ∈ s2.itemPool, x < s2.nextAddr ∧ x ∉ l)
    (hmap : s2.mapItem = s.mapItem)
    (hthr : s2.discardThreshold = s.discardThreshold) (hq : s2.delQueue = s.delQueue) :
    InvT s2 l ts := by
  constructor
  · exact hI.nodup
  · exact fun x hx => Nat.lt_of_lt_of_le (hI.bound x hx) hle
  · rw [hhead]; exact hI.head_eq
  · rw [htail]; exact hI.tail_eq
  · exact Seg_congr (fun b hb => by rw [hmem b hb]; exact ⟨rfl, rfl⟩) hI.seg
  · exact hpool
  · exact fun x hx => (hpool2 x hx).1
  · exact fun x hx => (hpool2 x hx).2
  · rw [hmap]; exact hI.keys_nodup
  · intro k x hx
    rw [hmap] at hx
    have := hI.map_sound k x hx
    exact ⟨this.1, by rw [hmem x this.1]; exact this.2⟩
  · intro x hx k hk
    rw [hmap]
    rw [hmem x hx] at hk
    exact hI.map_complete x hx k hk
  · exact hI.tomb_nodup
  · intro x hx
    have := hI.tomb_sound x hx
    exact ⟨this.1, by rw [hmem x this.1]; exact this.2⟩
  · intro x hx hn
    rw [hmem x hx] at hn
    exact hI.tomb_complete x hx hn
  · rw [hthr]; exact hI.threshold
  · rw [hthr, hq]; exact hI.pending

/-- A `Put` of a key that is in the index: it returns `ERROR_NODE_EXISTED` and changes
neither the index, nor the list, nor the batches. -/
theorem Put_existing {s : BigSet} {l : List Nat} (hI : Inv s l) (c : Nat)
    (hj : judge s.mapItem c ≠ none) :
    ∃ s2, Put c s = some (some BigSetError.ERROR_NODE_EXISTED, s2) ∧ Inv s2 l ∧
      s2.mapItem = s.mapItem ∧ s2.head = s.head ∧ s2.tail = s.tail ∧
      s2.delQueue = s.delQueue ∧ s2.clearing = s.clearing ∧
      s2.discardThreshold = s.discardThreshold ∧ (∀ b ∈ l, s2.mem b = s.mem b) ∧
      s.nextAddr ≤ s2.nextAddr := by
  have hG := GetItem_facts hI c
  rcases hg : GetItem c s with ⟨item, s1⟩
  rw [hg] at hG
  simp only at hG
  obtain ⟨hmem, hnl, hlt, hle, hpool, hpool2, hhead, htail, hmap, hdq, hcl, hthr⟩ := hG
  have hframe1 : ∀ b ∈ l, s1.mem b = s.mem b := by
    intro b hb
    have hbi : b ≠ item := fun e => hnl (e ▸ hb)
    rw [hmem, Mem.write_other _ _ _ _ hbi]
  obtain ⟨v, hv⟩ := Option.ne_none_iff_exists'.1 hj
  unfold Put
  rw [hg]
  simp only [addMap, hmap, hv, PutItem]
  refine ⟨_, rfl, ?_, rfl, hhead, htail, hdq, hcl, hthr, hframe1, hle⟩
  refine Inv_of_InvT (s := s) ?_ hdq hcl
  refine InvT_frame hI hle hframe1 hhead htail hpool ?_ rfl hthr hdq
  intro x hx
  rcases List.mem_cons.1 hx with h | h
  · rw [h]; exact ⟨hlt, hnl⟩
  · exact hpool2 x h

theorem Delete_absent {s : BigSet} (c : Nat) (hj : judge s.mapItem c = none) :
    Delete c s = (some BigSetError.ERROR_NODE_DELETED, s) := by
  simp [Delete, delMap, hj]

/-- The invariant after the payload of the item stored under `c` has been set to nil, the
key removed from the index, and the item added to those waiting to be unlinked. -/
theorem InvT_delete {s s2 : BigSet} {l ts ts2 : List Nat} {c a : Nat} (hI : InvT s l ts)
    (hca : (c, a) ∈ s.mapItem)
    (hmem : s2.mem = s.mem.write a { s.mem a with c := none })
    (hmap : s2.mapItem = s.mapItem.filter (fun p => p.1 != c))
    (hhead : s2.head = s.head) (htail : s2.tail = s.tail)
    (hpool : s2.itemPool = s.itemPool) (hnext : s2.nextAddr = s.nextAddr)
    (hthr : s2.discardThreshold = s.discardThreshold)
    (hperm : List.Perm ts2 (a :: ts))
    (hpend : (s2.delQueue.length : Int) < max s.discardThreshold 1) :
    InvT s2 l ts2 := by
  have hal := hI.map_sound c a hca
  have hother : ∀ b, b ≠ a → s2.mem b = s.mem b := by
    intro b hb; rw [hmem, Mem.write_other _ _ _ _ hb]
  have hself : (s2.mem a).c = none := by rw [hmem, Mem.write_same]
  have hlinks : ∀ b, (s2.mem b).Prev = (s.mem b).Prev ∧ (s2.mem b).Next = (s.mem b).Next := by
    intro b
    by_cases hb : b = a
    · subst hb; rw [hmem, Mem.write_same]; exact ⟨rfl, rfl⟩
    · rw [hother b hb]; exact ⟨rfl, rfl⟩
  have hnot : a ∉ ts := by
    intro h
    have := (hI.tomb_sound a h).2
    rw [hal.2] at this
    cases this
  constructor
  · exact hI.nodup
  · rw [hnext]; exact hI.bound
  · rw [hhead]; exact hI.head_eq
  · rw [htail]; exact hI.tail_eq
  · exact Seg_congr (fun b _ => hlinks b) hI.seg
  · rw [hpool]; exact hI.pool_nodup
  · rw [hpool, hnext]; exact hI.pool_bound
  · rw [hpool]; exact hI.pool_fresh
  · rw [hmap]
    exact hI.keys_nodup.sublist (List.Sublist.map _ (List.filter_sublist _))
  · intro k x hx
    rw [hmap] at hx
    have hx2 := List.mem_filter.1 hx
    have hkc : k ≠ c := by simpa using hx2.2
    have := hI.map_sound k x hx2.1
    have hxa : x ≠ a := by
      intro e
      rw [e, hal.2] at this
      exact hkc (Option.some.inj this.2).symm
    exact ⟨this.1, by rw [hother x hxa]; exact this.2⟩
  · intro x hx k hk
    have hxa : x ≠ a := by
      intro e
      rw [e, hself] at hk
      cases hk
    rw [hother x hxa] at hk
    have hin := hI.map_complete x hx k hk
    rw [hmap]
    refine List.mem_filter.2 ⟨hin, ?_⟩
    have hkc : k ≠ c := by
      intro e
      subst e
      have := List.inj_on_of_nodup_map hI.keys_nodup hin hca rfl
      exact hxa (by simpa using this)
    simpa using hkc
  · exact (List.Perm.nodup_iff hperm).2 (List.nodup_cons.2 ⟨hnot, hI.tomb_nodup⟩)
  · intro x hx
    rcases List.mem_cons.1 ((List.Perm.mem_iff hperm).1 hx) with h | h
    · rw [h]; exact ⟨hal.1, hself⟩
    · have := hI.tomb_sound x h
      have hxa : x ≠ a := fun e => hnot (e ▸ h)
      exact ⟨this.1, by rw [hother x hxa]; exact this.2⟩
  · intro x hx hn
    refine (List.Perm.mem_iff hperm).2 ?_
    by_cases hxa : x = a
    · rw [hxa]; exact List.mem_cons_self _ _
    · rw [hother x hxa] at hn
      exact List.mem_cons_of_mem _ (hI.tomb_complete x hx hn)
  · rw [hthr]; exact hI.threshold
  · rw [hthr]; exact hpend

/-- A `Delete` of a key that is in the index: it returns nil, takes the key out of the
index, sets the payload of its item to nil and puts the item into the pending batch, which
is handed to a `clear` goroutine when it has reached the threshold. -/
theorem Delete_present {s : BigSet} {l : List Nat} (hI : Inv s l) (c a : Nat)
    (hj : judge s.mapItem c = some a) :
    ∃ s2, Delete c s = (none, s2) ∧ Inv s2 l ∧
      s2.mapItem = s.mapItem.filter (fun p => p.1 != c) ∧
      s2.mem = s.mem.write a { s.mem a with c := none } ∧
      s2.head = s.head ∧ s2.tail = s.tail ∧ s2.nextAddr = s.nextAddr ∧
      s2.discardThreshold = s.discardThreshold ∧ a ∈ l ∧ (s.mem a).c = some c ∧
      (if ((s.delQueue ++ [a]).length : Int) ≥ s.discardThreshold
        then s2.delQueue = [] ∧ s2.clearing = s.clearing ++ [s.delQueue ++ [a]]
        else s2.delQueue = s.delQueue ++ [a] ∧ s2.clearing = s.clearing) := by
  have hca := judge_some_mem hj
  have hal := hI.map_sound c a hca
  unfold Delete
  simp only [delMap, hj]
  by_cases hthr : ((s.delQueue ++ [a]).length : Int) ≥ s.discardThreshold
  · simp only [if_pos hthr]
    refine ⟨_, rfl, ?_, rfl, rfl, rfl, rfl, rfl, rfl, hal.1, hal.2, rfl, rfl⟩
    refine InvT_delete hI hca rfl rfl rfl rfl rfl rfl rfl ?_ ?_
    · simp only [tombs, List.flatten_append, List.flatten_cons, List.flatten_nil,
        List.nil_append, List.append_nil]
      have h1 : List.Perm (s.clearing.flatten ++ (s.delQueue ++ [a]))
          ((s.delQueue ++ [a]) ++ s.clearing.flatten) := List.perm_append_comm
      refine h1.trans ?_
      rw [List.append_assoc]
      exact @List.perm_middle _ a s.delQueue s.clearing.flatten
    · have := hI.threshold
      simp
  · simp only [if_neg hthr]
    refine ⟨_, rfl, ?_, rfl, rfl, rfl, rfl, rfl, rfl, hal.1, hal.2, rfl, rfl⟩
    refine InvT_delete hI hca rfl rfl rfl rfl rfl rfl rfl ?_ ?_
    · simp only [tombs, List.append_assoc]
      exact @List.perm_middle _ a s.delQueue s.clearing.flatten
    · have : ((s.delQueue ++ [a]).length : Int) < s.discardThreshold := not_le.1 hthr
      exact lt_of_lt_of_le this (le_max_left _ _)

theorem delList_mem (a : Nat) (s : BigSet) : (delList a s).mem = unlinkMem s.mem a := by
  unfold delList unlinkMem
  rcases hP : (s.mem a).Prev with _ | p
  · simp only
    rcases hN : (s.mem a).Next with _ | n <;> rfl
  · simp only
    have hNa : ((s.mem.write p { s.mem p with Next := (s.mem a).Next }) a).Next
        = (s.mem a).Next := by
      by_cases h : a = p
      · subst h; simp
      · rw [Mem.write_other _ _ _ _ h]
    rw [hNa]
    rcases hN : (s.mem a).Next with _ | n <;> rfl

theorem delList_head (a : Nat) (s : BigSet) :
    (delList a s).head = if (s.mem a).Prev = none then (s.mem a).Next else s.head := by
  unfold delList
  rcases hP : (s.mem a).Prev with _ | p
  · simp only
    rcases hN : (s.mem a).Next with _ | n <;> simp
  · simp only
    split <;> simp

theorem delList_tail (a : Nat) (s : BigSet) :
    (delList a s).tail = if (s.mem a).Next = none then (s.mem a).Prev else s.tail := by
  unfold delList
  rcases hP : (s.mem a).Prev with _ | p
  · simp only
    rcases hN : (s.mem a).Next with _ | n <;> simp [hP]
  · simp only
    have hNa : ((s.mem.write p { s.mem p with Next := (s.mem a).Next }) a).Next
        = (s.mem a).Next := by
      by_cases h : a = p
      · subst h; simp
      · rw [Mem.write_other _ _ _ _ h]
    have hPa : ((s.mem.write p { s.mem p with Next := (s.mem a).Next }) a).Prev
        = (s.mem a).Prev := by
      by_cases h : a = p
      · subst h; simp
      · rw [Mem.write_other _ _ _ _ h]
    rw [hNa, hPa]
    rcases hN : (s.mem a).Next with _ | n <;> simp [hP]

theorem delList_rest (a : Nat) (s : BigSet) :
    (delList a s).nextAddr = s.nextAddr ∧ (delList a s).itemPool = s.itemPool ∧
    (delList a s).mapItem = s.mapItem ∧ (delList a s).delQueue = s.delQueue ∧
    (delList a s).discardThreshold = s.discardThreshold ∧
    (delList a s).clearing = s.clearing := by
  unfold delList
  rcases hP : (s.mem a).Prev with _ | p <;> simp only <;> split <;> simp
theorem payloads_append (m : Mem) (A B : List Nat) :
    payloads m (A ++ B) = payloads m A ++ payloads m B := by
  simp [payloads, List.filterMap_append]

theorem payloads_congr {m m2 : Mem} {l : List Nat} (h : ∀ a ∈ l, (m2 a).c = (m a).c) :
    payloads m2 l = payloads m l := by
  unfold payloads
  induction l with
  | nil => rfl
  | cons x l ih =>
    have hx := h x (List.mem_cons_self _ _)
    have ih2 := ih (fun a ha => h a (List.mem_cons_of_mem _ ha))
    simp only [List.filterMap_cons, hx, ih2]

/-- Unlinking a nil-payload item that waits to be unlinked keeps the invariant, with the
item taken out of the list. -/
theorem InvT_delList {s : BigSet} {l ts : List Nat} {a : Nat} (hI : InvT s l (a :: ts)) :
    ∃ A B, l = A ++ a :: B ∧ InvT (delList a s) (A ++ B) ts ∧
      payloads (delList a s).mem (A ++ B) = payloads s.mem l := by
  have hal := hI.tomb_sound a (List.mem_cons_self _ _)
  obtain ⟨A, B, hl⟩ := List.append_of_mem hal.1
  have hnd : (A ++ a :: B).Nodup := hl ▸ hI.nodup
  have hseg : Seg s.mem none (A ++ a :: B) none := hl ▸ hI.seg
  have hsplit := Seg_prev_of_split hseg
  have haA : a ∉ A := fun h => by
    have := List.nodup_append.1 hnd
    exact this.2.2 h (List.mem_cons_self _ _)
  have haB : a ∉ B := by
    have := (List.nodup_append.1 hnd).2.1
    exact (List.nodup_cons.1 this).1
  have hsub : ∀ x, x ∈ A ++ B → x ∈ l ∧ x ≠ a := by
    intro x hx
    rw [hl]
    rcases List.mem_append.1 hx with h | h
    · exact ⟨List.mem_append_left _ h, fun e => haA (e ▸ h)⟩
    · exact ⟨List.mem_append_right _ (List.mem_cons_of_mem _ h), fun e => haB (e ▸ h)⟩
  have hrest := delList_rest a s
  have hc : ∀ b, ((delList a s).mem b).c = (s.mem b).c := by
    intro b; rw [delList_mem, unlinkMem_c]
  refine ⟨A, B, hl, ?_, ?_⟩
  · constructor
    · have := List.nodup_append.1 hnd
      exact List.nodup_append.2 ⟨this.1, (List.nodup_cons.1 this.2.1).2,
        fun x hx hy => this.2.2 hx (List.mem_cons_of_mem _ hy)⟩
    · intro x hx
      rw [hrest.1]
      exact hI.bound x (hsub x hx).1
    · rw [delList_head, hsplit.1, hsplit.2, hI.head_eq, hl]
      cases A with
      | nil => simp [lastOr]
      | cons y A =>
        obtain ⟨z, hz, _⟩ := lastOr_cons_mem y A none
        simp [hz, headOr]
    · rw [delList_tail, hsplit.1, hsplit.2, hI.tail_eq, hl]
      cases B with
      | nil => simp [headOr]
      | cons y B =>
        simp [headOr, lastOr_append, lastOr]
    · rw [delList_mem]
      exact Seg_unlink A none hnd (fun q hq => by cases hq) (fun q hq => by cases hq) hseg
    · rw [hrest.2.1]; exact hI.pool_nodup
    · rw [hrest.2.1, hrest.1]; exact hI.pool_bound
    · rw [hrest.2.1]
      intro x hx hmem
      exact hI.pool_fresh x hx (hsub x hmem).1
    · rw [hrest.2.2.1]; exact hI.keys_nodup
    · intro k x hx
      rw [hrest.2.2.1] at hx
      have := hI.map_sound k x hx
      have hxa : x ≠ a := by
        intro e
        rw [e, hal.2] at this
        cases this.2
      refine ⟨?_, by rw [hc]; exact this.2⟩
      have h2 := this.1
      rw [hl] at h2
      rcases List.mem_append.1 h2 with h | h
      · exact List.mem_append_left _ h
      · rcases List.mem_cons.1 h with h | h
        · exact absurd h hxa
        · exact List.mem_append_right _ h
    · intro x hx k hk
      rw [hc] at hk
      rw [hrest.2.2.1]
      exact hI.map_complete x (hsub x hx).1 k hk
    · exact (List.nodup_cons.1 hI.tomb_nodup).2
    · intro x hx
      have := hI.tomb_sound x (List.mem_cons_of_mem _ hx)
      have hxa : x ≠ a := fun e => (List.nodup_cons.1 hI.tomb_nodup).1 (e ▸ hx)
      refine ⟨?_, by rw [hc]; exact this.2⟩
      have h2 := this.1
      rw [hl] at h2
      rcases List.mem_append.1 h2 with h | h
      · exact List.mem_append_left _ h
      · rcases List.mem_cons.1 h with h | h
        · exact absurd h hxa
        · exact List.mem_append_right _ h
    · intro x hx hn
      rw [hc] at hn
      rcases List.mem_cons.1 (hI.tomb_complete x (hsub x hx).1 hn) with h | h
      · exact absurd h (hsub x hx).2
      · exact h
    · rw [hrest.2.2.2.2.1]; exact hI.threshold
    · rw [hrest.2.2.2.2.1, hrest.2.2.2.1]; exact hI.pending
  · rw [payloads_congr (fun b _ => hc b), hl, payloads_append, payloads_append]
    simp [payloads, hal.2]
theorem InvT_perm {s : BigSet} {l ts ts2 : List Nat} (hI : InvT s l ts)
    (hp : List.Perm ts2 ts) : InvT s l ts2 :=
  { hI with
    tomb_nodup := (List.Perm.nodup_iff hp).2 hI.tomb_nodup
    tomb_sound := fun a ha => hI.tomb_sound a ((List.Perm.mem_iff hp).1 ha)
    tomb_complete := fun a ha hn => (List.Perm.mem_iff hp).2 (hI.tomb_complete a ha hn) }

theorem clear_cons (a : Nat) (qs : List Nat) (s : BigSet) :
    clear (a :: qs) s = clear qs (delList a s) := rfl

/-- Running `clear` on a batch of items that wait to be unlinked keeps the invariant and the
payloads in the list, and takes exactly the items of the batch out of the list. -/
theorem InvT_clear {ts : List Nat} :
    ∀ (qs : List Nat) (s : BigSet) (l : List Nat), InvT s l (qs ++ ts) →
      ∃ l2, InvT (clear qs s) l2 ts ∧ payloads (clear qs s).mem l2 = payloads s.mem l ∧
        (∀ x, x ∈ l2 ↔ x ∈ l ∧ x ∉ qs) ∧ l2.length + qs.length = l.length ∧
        (clear qs s).nextAddr = s.nextAddr ∧ (clear qs s).itemPool = s.itemPool ∧
        (clear qs s).mapItem = s.mapItem ∧ (clear qs s).delQueue = s.delQueue ∧
        (clear qs s).discardThreshold = s.discardThreshold ∧
        (clear qs s).clearing = s.clearing := by
  intro qs
  induction qs with
  | nil =>
    intro s l hI
    exact ⟨l, hI, rfl, by simp, by simp, rfl, rfl, rfl, rfl, rfl, rfl⟩
  | cons a qs ih =>
    intro s l hI
    obtain ⟨A, B, hl, hI2, hpay⟩ := @InvT_delList s l (qs ++ ts) a hI
    obtain ⟨l2, hI3, hpay3, hmem3, hlen3, h1, h2, h3, h4, h5, h6⟩ := ih (delList a s) (A ++ B) hI2
    have hrest := delList_rest a s
    have hnd : (A ++ a :: B).Nodup := hl ▸ hI.nodup
    have haAB : a ∉ A ++ B := by
      intro h
      have h0 := List.nodup_append.1 hnd
      rcases List.mem_append.1 h with h | h
      · exact h0.2.2 h (List.mem_cons_self _ _)
      · exact (List.nodup_cons.1 h0.2.1).1 h
    refine ⟨l2, hI3, by rw [clear_cons, hpay3, hpay], ?_, ?_, ?_, ?_, ?_, ?_, ?_, ?_⟩
    · intro x
      rw [hmem3 x, hl]
      constructor
      · rintro ⟨hx, hq⟩
        refine ⟨?_, ?_⟩
        · rcases List.mem_append.1 hx with h | h
          · exact List.mem_append_left _ h
          · exact List.mem_append_right _ (List.mem_cons_of_mem _ h)
        · intro h
          rcases List.mem_cons.1 h with h | h
          · exact haAB (h ▸ hx)
          · exact hq h
      · rintro ⟨hx, hq⟩
        have hxa : x ≠ a := fun e => hq (e ▸ List.mem_cons_self _ _)
        refine ⟨?_, fun h => hq (List.mem_cons_of_mem _ h)⟩
        rcases List.mem_append.1 hx with h | h
        · exact List.mem_append_left _ h
        · rcases List.mem_cons.1 h with h | h
          · exact absurd h hxa
          · exact List.mem_append_right _ h
    · rw [hl]
      simp only [List.length_append, List.length_cons] at hlen3 ⊢
      omega
    · rw [clear_cons, h1, hrest.1]
    · rw [clear_cons, h2, hrest.2.1]
    · rw [clear_cons, h3, hrest.2.2.1]
    · rw [clear_cons, h4, hrest.2.2.2.1]
    · rw [clear_cons, h5, hrest.2.2.2.2.1]
    · rw [clear_cons, h6, hrest.2.2.2.2.2]

theorem flatten_dropAt_perm {cl : List (List Nat)} {i : Nat} {qs : List Nat}
    (h : cl[i]? = some qs) : List.Perm cl.flatten (qs ++ (dropAt cl i).flatten) := by
  induction cl generalizing i with
  | nil => simp at h
  | cons q cl ih =>
    cases i with
    | zero =>
      simp at h
      subst h
      simp [dropAt]
    | succ i =>
      rw [List.getElem?_cons_succ] at h
      have := ih h
      simp only [dropAt, List.take_succ_cons, List.drop_succ_cons, List.flatten_cons,
        List.cons_append] at this ⊢
      have h2 : List.Perm (q ++ cl.flatten) (q ++ (qs ++ (List.take i cl ++ List.drop (i + 1) cl).flatten)) :=
        List.Perm.append_left q this
      refine h2.trans ?_
      rw [← List.append_assoc, ← List.append_assoc]
      exact List.Perm.append_right _ List.perm_append_comm

/-- The run of a waiting `clear` goroutine keeps the invariant and the payloads in the
list. -/
theorem clearStep_spec {s : BigSet} {l : List Nat} (hI : Inv s l) (i : Nat) (qs : List Nat)
    (h : s.clearing[i]? = some qs) :
    ∃ l2, Inv (clear qs { s with clearing := dropAt s.clearing i }) l2 ∧
      payloads (clear qs { s with clearing := dropAt s.clearing i }).mem l2 = payloads s.mem l ∧
      (∀ x, x ∈ l2 ↔ x ∈ l ∧ x ∉ qs) ∧ l2.length + qs.length = l.length ∧
      (clear qs { s with clearing := dropAt s.clearing i }).mapItem = s.mapItem ∧
      (clear qs { s with clearing := dropAt s.clearing i }).delQueue = s.delQueue ∧
      (clear qs { s with clearing := dropAt s.clearing i }).discardThreshold
        = s.discardThreshold ∧
      (clear qs { s with clearing := dropAt s.clearing i }).clearing = dropAt s.clearing i := by
  have hperm : List.Perm (qs ++ tombs { s with clearing := dropAt s.clearing i }) (tombs s) := by
    simp only [tombs]
    have h1 := flatten_dropAt_perm h
    have h2 : List.Perm (s.delQueue ++ s.clearing.flatten)
        (s.delQueue ++ (qs ++ (dropAt s.clearing i).flatten)) := List.Perm.append_left _ h1
    refine List.Perm.trans ?_ h2.symm
    rw [← List.append_assoc, ← List.append_assoc]
    exact List.Perm.append_right _ List.perm_append_comm
  have hI0 : InvT { s with clearing := dropAt s.clearing i } l
      (qs ++ tombs { s with clearing := dropAt s.clearing i }) :=
    InvT_frame (InvT_perm hI hperm) (Nat.le_refl _) (fun _ _ => rfl) rfl rfl hI.pool_nodup
      (fun x hx => ⟨hI.pool_bound x hx, hI.pool_fresh x hx⟩) rfl rfl rfl
  obtain ⟨l2, hI2, hpay, hmem, hlen, _, _, h3, h4, h5, h6⟩ := InvT_clear qs _ l hI0
  exact ⟨l2, Inv_of_InvT hI2 h4 h6, hpay, hmem, hlen, h3, h4, h5, h6⟩

theorem mem_payloads {m : Mem} {l : List Nat} {c : Nat} :
    c ∈ payloads m l ↔ ∃ a ∈ l, (m a).c = some c := by
  simp [payloads, List.mem_filterMap]

/-- Under the invariant a key is in the index exactly when it is the payload of an item of
the list. -/
theorem judge_none_iff_payloads {s : BigSet} {l ts : List Nat} (hI : InvT s l ts) (c : Nat) :
    judge s.mapItem c = none ↔ c ∉ payloads s.mem l := by
  constructor
  · intro hj hc
    obtain ⟨a, ha, hac⟩ := mem_payloads.1 hc
    have := hI.map_complete a ha c hac
    exact (judge_none_iff _ _).1 hj (List.mem_map_of_mem Prod.fst this)
  · intro hc
    cases hj : judge s.mapItem c with
    | none => rfl
    | some a =>
      have := hI.map_sound c a (judge_some_mem hj)
      exact absurd (mem_payloads.2 ⟨a, this.1, this.2⟩) hc

theorem payloads_write_none {m : Mem} {a c : Nat} :
    ∀ (l : List Nat), (∀ x ∈ l, (m x).c = some c → x = a) → (m a).c = some c →
      payloads (m.write a { m a with c := none }) l
        = (payloads m l).filter (fun x => x != c) := by
  intro l
  induction l with
  | nil => intro _ _; rfl
  | cons x l ih =>
    intro h hac
    have ih2 := ih (fun y hy => h y (List.mem_cons_of_mem _ hy)) hac
    unfold payloads at ih2 ⊢
    by_cases hx : x = a
    · subst hx
      simp only [List.filterMap_cons, Mem.write_same, hac, ih2]
      simp
    · rw [List.filterMap_cons, List.filterMap_cons, Mem.write_other _ _ _ _ hx, ih2]
      cases hxc : (m x).c with
      | none => rfl
      | some k =>
        have hkc : k ≠ c := by
          intro e
          subst e
          exact hx (h x (List.mem_cons_self _ _) hxc)
        simp [hkc]

/-- One step keeps the invariant and changes the payloads in the list as the specification
says for the value it returns; `Put` returns `ERROR_NODE_EXISTED` exactly for a payload in
the list and `Delete` returns `ERROR_NODE_DELETED` exactly for a payload not in the list. -/
theorem step_spec {s : BigSet} {l : List Nat} (hI : Inv s l) (o : Op) :
    ∃ r s2 l2, step o s = some (r, s2) ∧ Inv s2 l2 ∧
      payloads s2.mem l2 = specLiveStep (payloads s.mem l) (o, r) ∧
      s2.discardThreshold = s.discardThreshold ∧
      (∀ c, o = Op.Put c →
        (r = some BigSetError.ERROR_NODE_EXISTED ↔ c ∈ payloads s.mem l) ∧
        (r = none ↔ c ∉ payloads s.mem l)) ∧
      (∀ c, o = Op.Delete c →
        (r = some BigSetError.ERROR_NODE_DELETED ↔ c ∉ payloads s.mem l) ∧
        (r = none ↔ c ∈ payloads s.mem l)) := by
  cases o with
  | Put c =>
    by_cases hj : judge s.mapItem c = none
    · obtain ⟨a, s2, hput, hI2, hal, hac, hframe, _, _, _, hthr, _⟩ := Put_fresh hI c hj
      have hc := (judge_none_iff_payloads hI c).1 hj
      refine ⟨none, s2, l ++ [a], hput, hI2, ?_, hthr, ?_, ?_⟩
      · rw [payloads_append, payloads_congr (m := s.mem) (fun b hb => hframe b (fun e => hal (e ▸ hb)))]
        simp only [specLiveStep]
        have h1 : (payloads s.mem l).filter (fun x => x != c) = payloads s.mem l := by
          rw [List.filter_eq_self]
          intro x hx
          have : x ≠ c := fun e => hc (e ▸ hx)
          simpa using this
        rw [h1]
        simp [payloads, hac]
      · intro c2 h2
        cases h2
        simp [hc]
      · intro c2 h2
        cases h2
    · obtain ⟨s2, hput, hI2, _, _, _, _, _, hthr, hframe, _⟩ := Put_existing hI c hj
      have hc : c ∈ payloads s.mem l := by
        by_contra h
        exact hj ((judge_none_iff_payloads hI c).2 h)
      refine ⟨some BigSetError.ERROR_NODE_EXISTED, s2, l, hput, hI2, ?_, hthr, ?_, ?_⟩
      · rw [payloads_congr (m := s.mem) (fun b hb => by rw [hframe b hb])]
        rfl
      · intro c2 h2
        cases h2
        simp [hc]
      · intro c2 h2
        cases h2
  | Delete c =>
    cases hj : judge s.mapItem c with
    | none =>
      have hc := (judge_none_iff_payloads hI c).1 hj
      refine ⟨some BigSetError.ERROR_NODE_DELETED, s, l, ?_, hI, rfl, rfl, ?_, ?_⟩
      · simp [step, Delete_absent c hj]
      · intro c2 h2
        cases h2
      · intro c2 h2
        cases h2
        simp [hc]
    | some a =>
      obtain ⟨s2, hdel, hI2, _, hmem, _, _, _, hthr, hal, hac, _⟩ := Delete_present hI c a hj
      have hc : c ∈ payloads s.mem l := mem_payloads.2 ⟨a, hal, hac⟩
      refine ⟨none, s2, l, ?_, hI2, ?_, hthr, ?_, ?_⟩
      · simp [step, hdel]
      · rw [hmem]
        simp only [specLiveStep]
        refine payloads_write_none l (fun x hx hxc => ?_) hac
        have h1 := hI.map_complete x hx c hxc
        have h2 := judge_some_mem hj
        have := List.inj_on_of_nodup_map hI.keys_nodup h1 h2 rfl
        simpa using this
      · intro c2 h2
        cases h2
      · intro c2 h2
        cases h2
        simp [hc]
  | clearStep i =>
    cases hq : s.clearing[i]? with
    | none =>
      refine ⟨none, s, l, ?_, hI, rfl, rfl, ?_, ?_⟩
      · simp [step, hq]
      · intro c2 h2
        cases h2
      · intro c2 h2
        cases h2
    | some qs =>
      obtain ⟨l2, hI2, hpay, _, _, _, _, hthr, _⟩ := clearStep_spec hI i qs hq
      refine ⟨none, _, l2, ?_, hI2, ?_, hthr, ?_, ?_⟩
      · simp only [step, hq]
      · rw [hpay]; rfl
      · intro c2 h2
        cases h2
      · intro c2 h2
        cases h2

/-- A run of steps from a state with the invariant never fails, keeps the invariant, and
the payloads in the list follow the history as the specification says. -/
theorem run_spec : ∀ (ops : List Op) (s : BigSet) (l : List Nat), Inv s l →
    ∃ h s2 l2, run ops s = some (h, s2) ∧ Inv s2 l2 ∧
      payloads s2.mem l2 = h.foldl specLiveStep (payloads s.mem l) ∧
      h.map Prod.fst = ops ∧ s2.discardThreshold = s.discardThreshold := by
  intro ops
  induction ops with
  | nil => intro s l hI; exact ⟨[], s, l, rfl, hI, rfl, rfl, rfl⟩
  | cons o ops ih =>
    intro s l hI
    obtain ⟨r, s1, l1, hstep, hI1, hpay1, hthr1, _, _⟩ := step_spec hI o
    obtain ⟨h, s2, l2, hrun, hI2, hpay2, hops, hthr2⟩ := ih s1 l1 hI1
    refine ⟨(o, r) :: h, s2, l2, ?_, hI2, ?_, ?_, ?_⟩
    · simp [run, hstep, hrun]
    · rw [hpay2, hpay1]; rfl
    · simp [hops]
    · rw [hthr2, hthr1]

theorem NewBigSet_some {t : Int} (ht : 0 ≤ t) : ∃ s, NewBigSet t = some s ∧ s.discardThreshold = t := by
  unfold NewBigSet
  rw [if_neg (not_lt.2 ht)]
  exact ⟨_, rfl, rfl⟩

/-- Every sequence of steps on a set made with a non-negative threshold runs to the end;
the state it reaches has the invariant, and the payloads in its list are the live keys of
the history. -/
theorem reach_spec {t : Int} (ht : 0 ≤ t) (ops : List Op) :
    ∃ h s l, reach t ops = some (h, s) ∧ Inv s l ∧ payloads s.mem l = specLive h ∧
      h.map Prod.fst = ops ∧ s.discardThreshold = t := by
  obtain ⟨s0, hs0, hthr0⟩ := NewBigSet_some ht
  obtain ⟨h, s, l, hrun, hI, hpay, hops, hthr⟩ := run_spec ops s0 [] (Inv_NewBigSet hs0)
  refine ⟨h, s, l, ?_, hI, ?_, hops, by rw [hthr, hthr0]⟩
  · simp [reach, hs0, hrun]
  · rw [hpay]; rfl

theorem length_le_of_nodup_bound {l : List Nat} {n : Nat} (hnd : l.Nodup)
    (hb : ∀ a ∈ l, a < n) : l.length ≤ n := by
  have hsub : l ⊆ List.range n := fun a ha => List.mem_range.2 (hb a ha)
  have := (List.subperm_of_subset hnd hsub).length_le
  simpa using this

theorem listFrom_seg {m : Mem} : ∀ (l : List Nat) (p : Option Nat) (fuel : Nat),
    Seg m p l none → l.length ≤ fuel → listFrom m fuel (headOr l none) = l := by
  intro l
  induction l with
  | nil =>
    intro p fuel _ _
    cases fuel <;> rfl
  | cons a l ih =>
    intro p fuel hs hlen
    cases fuel with
    | zero => simp at hlen
    | succ fuel =>
      simp only [headOr, listFrom]
      rw [hs.2.1, ih (some a) fuel hs.2.2 (by simpa using hlen)]

/-- Under the invariant the items reachable from `head` are those of the list. -/
theorem nodes_eq {s : BigSet} {l ts : List Nat} (hI : InvT s l ts) : nodes s = l := by
  unfold nodes
  rw [hI.head_eq]
  exact listFrom_seg l none _ hI.seg (length_le_of_nodup_bound hI.nodup hI.bound)

theorem payloads_cons_none {m : Mem} {a : Nat} (l : List Nat) (h : (m a).c = none) :
    payloads m (a :: l) = payloads m l := by
  simp [payloads, h]

theorem payloads_cons_some {m : Mem} {a c : Nat} (l : List Nat) (h : (m a).c = some c) :
    payloads m (a :: l) = c :: payloads m l := by
  simp [payloads, h]

/-- A scan with a visitor that calls nothing on the set and returns no error: from the item
`a`, with `R` the items after it up to the captured tail `e`, the visitor is called with
the payloads of these items, in order, and the scan returns. -/
theorem scanLoop_pure {σ : Type} (f : σ → Nat → σ) (s : BigSet) (e : Nat) :
    ∀ (R : List Nat) (a : Nat) (p : Option Nat) (fuel : Nat) (st : σ) (calls : List Nat),
      lastOr R (some a) = some e → (a :: R).Nodup → Seg s.mem p (a :: R) none →
      R.length ≤ fuel →
      scanLoop (fun st c => Visit.ret (f st c) false) (some e) fuel (some a) st s calls
        = ScanResult.returned ((payloads s.mem (a :: R)).foldl f st) s
            (calls ++ payloads s.mem (a :: R)) := by
  intro R
  induction R with
  | nil =>
    intro a p fuel st calls hlast _ _ _
    have hae : a = e := by simpa [lastOr] using hlast
    subst hae
    unfold scanLoop
    simp only [if_true, scanEnd]
    cases hc : (s.mem a).c with
    | none => simp [payloads, hc]
    | some c => simp [payloads, hc, Visit.exec]
  | cons b R ih =>
    intro a p fuel st calls hlast hnd hseg hlen
    obtain ⟨z, hz, hmem⟩ := lastOr_cons_mem b R (some a)
    have hze : z = e := by
      have : lastOr (b :: R) (some a) = some e := hlast
      rw [hz] at this
      exact Option.some.inj this
    have hae : a ≠ e := by
      intro h
      rw [← hze] at h
      exact (List.nodup_cons.1 hnd).1 (h ▸ hmem)
    have hlast2 : lastOr R (some b) = some e := by simpa [lastOr] using hlast
    cases fuel with
    | zero => simp at hlen
    | succ fuel =>
      have hnext : (s.mem a).Next = some b := hseg.2.1
      have ih2 := fun st calls => ih b (some a) fuel st calls hlast2 (List.nodup_cons.1 hnd).2
        hseg.2.2 (by simpa using hlen)
      unfold scanLoop
      have hne : (some a = some e) = False := by simp [hae]
      simp only [hne, if_false]
      cases hc : (s.mem a).c with
      | none =>
        simp only [hnext]
        rw [ih2, payloads_cons_none _ hc]
      | some c =>
        simp only [Visit.exec, hnext]
        rw [ih2, payloads_cons_some _ hc]
        simp

/-- A `Scan` of a set with the invariant, with a visitor that calls nothing on the set and
returns no error, returns after calling the visitor with the payloads in the list, in list
order; the set is unchanged. -/
theorem Scan_pure {σ : Type} (f : σ → Nat → σ) (st : σ) {s : BigSet} {l ts : List Nat}
    (hI : InvT s l ts) :
    Scan (fun st c => Visit.ret (f st c) false) st s
      = ScanResult.returned ((payloads s.mem l).foldl f st) s (payloads s.mem l) := by
  unfold Scan
  rw [hI.head_eq, hI.tail_eq]
  cases l with
  | nil =>
    unfold scanLoop
    simp [headOr, lastOr, scanEnd, payloads]
  | cons a R =>
    obtain ⟨e, he, _⟩ := lastOr_cons_mem a R none
    rw [he]
    have hlen := length_le_of_nodup_bound hI.nodup hI.bound
    have := scanLoop_pure f s e R a none s.nextAddr st [] (by simpa [lastOr] using he)
      hI.nodup hI.seg (by simp at hlen; omega)
    simpa [headOr] using this
theorem Fades_refl (m : Mem) (l : List Nat) : Fades m m l := fun _ _ => Or.inl rfl

theorem Fades_trans {m m1 m2 : Mem} {l l1 : List Nat} (h1 : Fades m m1 l)
    (h2 : Fades m1 m2 l1) (hsub : ∀ a ∈ l, a ∈ l1) : Fades m m2 l := by
  intro a ha
  rcases h2 a (hsub a ha) with h | h
  · rw [h]; exact h1 a ha
  · exact Or.inr h

/-- One call of a visitor on a set with the invariant never fails; it keeps the invariant,
may link new items after the list, and keeps or sets to nil the payload of every item of
the list. -/
theorem exec_spec {σ : Type} (v : Visit σ) : ∀ (s : BigSet) (l : List Nat), Inv s l →
    ∃ st err s2 X, v.exec s = some (st, err, s2) ∧ Inv s2 (l ++ X) ∧
      Fades s.mem s2.mem l := by
  induction v with
  | ret st err =>
    intro s l hI
    exact ⟨st, err, s, [], rfl, by simpa using hI, Fades_refl _ _⟩
  | put c k ih =>
    intro s l hI
    by_cases hj : judge s.mapItem c = none
    · obtain ⟨a, s1, hput, hI1, hal, _, hframe, _⟩ := Put_fresh hI c hj
      obtain ⟨st, err, s2, X, hex, hI2, hf⟩ := ih none s1 (l ++ [a]) hI1
      refine ⟨st, err, s2, a :: X, ?_, by simpa using hI2, ?_⟩
      · simp [Visit.exec, hput, hex]
      · refine @Fades_trans _ _ _ l (l ++ [a]) ?_ hf (fun b hb => List.mem_append_left _ hb)
        intro b hb
        exact Or.inl (hframe b (fun e => hal (e ▸ hb)))
    · obtain ⟨s1, hput, hI1, _, _, _, _, _, _, hframe, _⟩ := Put_existing hI c hj
      obtain ⟨st, err, s2, X, hex, hI2, hf⟩ :=
        ih (some BigSetError.ERROR_NODE_EXISTED) s1 l hI1
      refine ⟨st, err, s2, X, ?_, hI2, ?_⟩
      · simp [Visit.exec, hput, hex]
      · refine @Fades_trans _ _ _ l l ?_ hf (fun b hb => hb)
        intro b hb
        exact Or.inl (by rw [hframe b hb])
  | delete c k ih =>
    intro s l hI
    cases hj : judge s.mapItem c with
    | none =>
      obtain ⟨st, err, s2, X, hex, hI2, hf⟩ := ih (some BigSetError.ERROR_NODE_DELETED) s l hI
      refine ⟨st, err, s2, X, ?_, hI2, hf⟩
      simp [Visit.exec, Delete_absent c hj, hex]
    | some a =>
      obtain ⟨s1, hdel, hI1, _, hmem, _⟩ := Delete_present hI c a hj
      obtain ⟨st, err, s2, X, hex, hI2, hf⟩ := ih none s1 l hI1
      refine ⟨st, err, s2, X, ?_, hI2, ?_⟩
      · simp [Visit.exec, hdel, hex]
      · refine @Fades_trans _ _ _ l l ?_ hf (fun b hb => hb)
        intro b _
        rw [hmem]
        by_cases hb : b = a
        · subst hb; exact Or.inr (by simp)
        · exact Or.inl (by rw [Mem.write_other _ _ _ _ hb])

theorem Fades_some {m m2 : Mem} {l : List Nat} {a c : Nat} (h : Fades m m2 l) (ha : a ∈ l)
    (hc : (m2 a).c = some c) : (m a).c = some c := by
  rcases h a ha with h1 | h1
  · rw [← h1]; exact hc
  · rw [h1] at hc; cases hc

theorem payloads_tail_sublist (m : Mem) (a : Nat) (l : List Nat) :
    (payloads m l).Sublist (payloads m (a :: l)) := by
  cases hc : (m a).c with
  | none => rw [payloads_cons_none _ hc]
  | some c => rw [payloads_cons_some _ hc]; exact List.sublist_cons_self _ _

/-- A scan with any visitor, on a set that had the invariant with memory `m0` when the scan
began: from the item `a`, with `R` the items after it up to the captured tail `e`, the scan
returns, and the payloads passed to the visitor are, in order, among the payloads these
items had when the scan began. -/
theorem scanLoop_spec {σ : Type} (handlers : σ → Nat → Visit σ) (m0 : Mem) (e : Nat) :
    ∀ (R : List Nat) (a : Nat) (D : List Nat) (fuel : Nat) (st : σ) (s : BigSet)
      (X : List Nat) (calls : List Nat),
      lastOr R (some a) = some e → Inv s (D ++ a :: R ++ X) →
      Fades m0 s.mem (D ++ a :: R) → R.length ≤ fuel →
      ∃ st2 s2 calls2 l2,
        scanLoop handlers (some e) fuel (some a) st s calls
          = ScanResult.returned st2 s2 (calls ++ calls2) ∧
        calls2.Sublist (payloads m0 (a :: R)) ∧ Inv s2 l2 := by
  intro R
  induction R with
  | nil =>
    intro a D fuel st s X calls hlast hI hf _
    have hae : a = e := by simpa [lastOr] using hlast
    subst hae
    unfold scanLoop
    simp only [if_true, scanEnd]
    cases hc : (s.mem a).c with
    | none => exact ⟨st, s, [], _, by simp, List.nil_sublist _, hI⟩
    | some c =>
      obtain ⟨st1, err, s1, X1, hex, hI1, _⟩ := exec_spec (handlers st c) s _ hI
      have h0 := Fades_some hf (by simp) hc
      refine ⟨st1, s1, [c], _, by simp [hex], ?_, hI1⟩
      rw [payloads_cons_some _ h0]
      simp [payloads]
  | cons b R ih =>
    intro a D fuel st s X calls hlast hI hf hlen
    have hnd : (D ++ a :: (b :: R) ++ X).Nodup := hI.nodup
    have hnd2 : (a :: (b :: R)).Nodup := by
      have h1 := (List.nodup_append.1 hnd).1
      exact (List.nodup_append.1 h1).2.1
    obtain ⟨z, hz, hmem⟩ := lastOr_cons_mem b R (some a)
    have hze : z = e := by
      have : lastOr (b :: R) (some a) = some e := hlast
      rw [hz] at this
      exact Option.some.inj this
    have hae : a ≠ e := by
      intro h
      rw [← hze] at h
      exact (List.nodup_cons.1 hnd2).1 (h ▸ hmem)
    have hlast2 : lastOr R (some b) = some e := by simpa [lastOr] using hlast
    have hnextOf : ∀ (s1 : BigSet) (X1 : List Nat), Inv s1 (D ++ a :: (b :: R) ++ X1) →
        (s1.mem a).Next = some b := by
      intro s1 X1 h1
      have hs : Seg s1.mem none (D ++ a :: (b :: R ++ X1)) none := by
        have := h1.seg
        simpa using this
      exact (Seg_prev_of_split hs).2
    have hshift : ∀ (s1 : BigSet) (X1 : List Nat), Inv s1 (D ++ a :: (b :: R) ++ X1) →
        Inv s1 ((D ++ [a]) ++ b :: R ++ X1) := by
      intro s1 X1 h1
      simpa using h1
    have hshiftF : ∀ (m1 : Mem), Fades m0 m1 (D ++ a :: (b :: R)) →
        Fades m0 m1 ((D ++ [a]) ++ b :: R) := by
      intro m1 h1 x hx
      exact h1 x (by simpa using hx)
    cases fuel with
    | zero => simp at hlen
    | succ fuel =>
      have hlen2 : R.length ≤ fuel := by simpa using hlen
      unfold scanLoop
      have hne : (some a = some e) = False := by simp [hae]
      simp only [hne, if_false]
      cases hc : (s.mem a).c with
      | none =>
        simp only [hnextOf s X hI]
        obtain ⟨st2, s2, calls2, l2, hres, hsub, hI2⟩ :=
          ih b (D ++ [a]) fuel st s X calls hlast2 (hshift s X hI) (hshiftF _ hf) hlen2
        exact ⟨st2, s2, calls2, l2, hres, hsub.trans (payloads_tail_sublist _ _ _), hI2⟩
      | some c =>
        obtain ⟨st1, err, s1, X1, hex, hI1, hf1⟩ := exec_spec (handlers st c) s _ hI
        have h0 := Fades_some hf (by simp) hc
        simp only [hex]
        cases err with
        | true =>
          refine ⟨st1, s1, [c], _, by simp, ?_, hI1⟩
          rw [payloads_cons_some _ h0]
          simp
        | false =>
          have hI1b : Inv s1 (D ++ a :: (b :: R) ++ (X ++ X1)) := by simpa using hI1
          have hf2 : Fades m0 s1.mem (D ++ a :: (b :: R)) :=
            Fades_trans hf hf1 (fun x hx => List.mem_append_left _ hx)
          simp only [hnextOf s1 _ hI1b]
          obtain ⟨st2, s2, calls2, l2, hres, hsub, hI2⟩ :=
            ih b (D ++ [a]) fuel st1 s1 (X ++ X1) (calls ++ [c]) hlast2 (hshift s1 _ hI1b)
              (hshiftF _ hf2) hlen2
          refine ⟨st2, s2, c :: calls2, l2, by simpa using hres, ?_, hI2⟩
          rw [payloads_cons_some _ h0]
          exact List.Sublist.cons₂ _ hsub

/-- A `Scan` of a set with the invariant returns, whatever the visitor does; the payloads
passed to the visitor are, in list order and each item at most once, among the payloads in
the list when the scan began; and the set has the invariant afterwards. -/
theorem Scan_spec {σ : Type} (handlers : σ → Nat → Visit σ) (st : σ) {s : BigSet}
    {l : List Nat} (hI : Inv s l) :
    ∃ st2 s2 calls l2, Scan handlers st s = ScanResult.returned st2 s2 calls ∧
      calls.Sublist (payloads s.mem l) ∧ Inv s2 l2 := by
  unfold Scan
  rw [hI.head_eq, hI.tail_eq]
  cases l with
  | nil =>
    unfold scanLoop
    exact ⟨st, s, [], [], by simp [headOr, lastOr, scanEnd], List.nil_sublist _, hI⟩
  | cons a R =>
    obtain ⟨e, he, _⟩ := lastOr_cons_mem a R none
    rw [he]
    have hlen := length_le_of_nodup_bound hI.nodup hI.bound
    obtain ⟨st2, s2, calls2, l2, hres, hsub, hI2⟩ :=
      scanLoop_spec handlers s.mem e R a [] s.nextAddr st s [] [] (by simpa [lastOr] using he)
        (by simpa using hI) (Fades_refl _ _) (by simp at hlen; omega)
    exact ⟨st2, s2, calls2, l2, by simpa [headOr] using hres, hsub, hI2⟩

theorem specLiveStep_nodup {l : List Nat} (e : Op × Option BigSetError) (h : l.Nodup) :
    (specLiveStep l e).Nodup := by
  rcases e with ⟨o, r⟩
  cases o with
  | Put c =>
    cases r with
    | none =>
      simp only [specLiveStep]
      refine List.Nodup.append (h.filter _) (List.nodup_singleton c) ?_
      intro x hx hy
      simp at hy
      subst hy
      simp at hx
    | some r => exact h
  | Delete c =>
    cases r with
    | none => exact h.filter _
    | some r => exact h
  | clearStep i => cases r <;> exact h

theorem foldl_specLiveStep_nodup (h : List (Op × Option BigSetError)) :
    ∀ l : List Nat, l.Nodup → (h.foldl specLiveStep l).Nodup := by
  induction h with
  | nil => intro l hl; exact hl
  | cons e h ih => intro l hl; exact ih _ (specLiveStep_nodup e hl)

theorem specLive_nodup (h : List (Op × Option BigSetError)) : (specLive h).Nodup :=
  foldl_specLiveStep_nodup h [] List.nodup_nil

theorem specLiveStep_not_mem {l : List Nat} {k : Nat} (e : Op × Option BigSetError)
    (hk : k ∉ l) (he : e.1 ≠ Op.Put k) : k ∉ specLiveStep l e := by
  rcases e with ⟨o, r⟩
  cases o with
  | Put c =>
    cases r with
    | none =>
      have hck : k ≠ c := fun e => he (by rw [e])
      simp [specLiveStep, hk, hck]
    | some r => exact hk
  | Delete c =>
    cases r with
    | none => simp [specLiveStep, hk]
    | some r => exact hk
  | clearStep i => cases r <;> exact hk

theorem foldl_specLiveStep_not_mem {k : Nat} (h : List (Op × Option BigSetError)) :
    ∀ l : List Nat, k ∉ l → (∀ e ∈ h, e.1 ≠ Op.Put k) → k ∉ h.foldl specLiveStep l := by
  induction h with
  | nil => intro l hl _; exact hl
  | cons e h ih =>
    intro l hl hall
    exact ih _ (specLiveStep_not_mem e hl (hall e (List.mem_cons_self _ _)))
      (fun x hx => hall x (List.mem_cons_of_mem _ hx))

theorem specLive_append (h : List (Op × Option BigSetError)) (e : Op × Option BigSetError) :
    specLive (h ++ [e]) = specLiveStep (specLive h) e := by
  simp [specLive, List.foldl_append]

theorem scanKeys_eq {s : BigSet} {l ts : List Nat} (hI : InvT s l ts) :
    scanKeys s = some (payloads s.mem l) := by
  unfold scanKeys
  rw [Scan_pure (fun (st : Unit) (_ : Nat) => st) () hI]
  rfl
theorem mem_specLiveStep_iff (l : List Nat) (e : Op × Option BigSetError) (c : Nat) :
    c ∈ specLiveStep l e ↔ e = (Op.Put c, none) ∨ (c ∈ l ∧ e ≠ (Op.Delete c, none)) := by
  rcases e with ⟨o, r⟩
  cases o with
  | Put k =>
    cases r with
    | none =>
      simp only [specLiveStep, List.mem_append, List.mem_filter, List.mem_singleton]
      constructor
      · rintro (⟨h, _⟩ | h)
        · exact Or.inr ⟨h, by simp⟩
        · exact Or.inl (by rw [h])
      · rintro (h | ⟨h, _⟩)
        · right
          cases h
          rfl
        · by_cases hck : c = k
          · exact Or.inr hck
          · exact Or.inl ⟨h, by simpa using hck⟩
    | some r => simp [specLiveStep]
  | Delete k =>
    cases r with
    | none =>
      simp only [specLiveStep, List.mem_filter]
      constructor
      · rintro ⟨h, hk⟩
        have hck : c ≠ k := by simpa using hk
        refine Or.inr ⟨h, ?_⟩
        intro e
        cases e
        exact hck rfl
      · rintro (h | ⟨h, hne⟩)
        · cases h
        · refine ⟨h, ?_⟩
          have hck : c ≠ k := by
            intro e
            subst e
            exact hne rfl
          simpa using hck
    | some r => simp [specLiveStep]
  | clearStep i => cases r <;> simp [specLiveStep]

/-- The definition `specLive` read back in the words of the specification: a key is live
exactly when the history holds a successful `Put` of it with no successful `Delete` of it
after that. -/
theorem mem_specLive_iff (h : List (Op × Option BigSetError)) (c : Nat) :
    c ∈ specLive h ↔
      ∃ h1 h2, h = h1 ++ (Op.Put c, none) :: h2 ∧ (Op.Delete c, none) ∉ h2 := by
  induction h using List.reverseRecOn with
  | nil => simp [specLive]
  | append_singleton l e ih =>
    rw [specLive_append, mem_specLiveStep_iff, ih]
    constructor
    · rintro (he | ⟨⟨h1, h2, hl, hno⟩, hne⟩)
      · exact ⟨l, [], by rw [he], by simp⟩
      · refine ⟨h1, h2 ++ [e], by rw [hl]; simp, ?_⟩
        intro hmem
        rcases List.mem_append.1 hmem with hm | hm
        · exact hno hm
        · simp at hm
          exact hne hm.symm
    · rintro ⟨h1, h2, hl, hno⟩
      rcases List.eq_nil_or_concat h2 with h2nil | ⟨h2a, e2, h2eq⟩
      · subst h2nil
        left
        have := List.append_inj_right' hl (by simp)
        simpa using this
      · subst h2eq
        right
        have hl2 : l ++ [e] = (h1 ++ (Op.Put c, none) :: h2a) ++ [e2] := by
          rw [hl]; simp
        have h3 := List.append_inj_left' hl2 (by simp)
        have h4 := List.append_inj_right' hl2 (by simp)
        have he : e = e2 := by simpa using h4
        subst he
        refine ⟨⟨h1, h2a, h3, fun hm => hno (by simp [hm])⟩, ?_⟩
        intro hd
        exact hno (by simp [hd])

/-! ## The claims about BigSet -/

/-- C1: after any sequence of `Put` and `Delete` calls on a set made by `NewBigSet t`, with
the `clear` goroutines run at any points in between (or not yet), a `Scan` whose visitor
only looks and never returns an error returns, and the payloads it passed to the visitor
are exactly the live keys of the history, each once, in the order of their latest
successful `Put`; a key is live when the history holds a successful `Put` of it with no
successful `Delete` of it after that.  The set is left as it was.  On the set just made
the visitor is not called at all. -/
theorem C1_scan_visits_live_keys_in_put_order {σ : Type} (t : Int) (ht : 0 ≤ t)
    (ops : List Op) (f : σ → Nat → σ) (st : σ) :
    ∃ h s, reach t ops = some (h, s) ∧ h.map Prod.fst = ops ∧
      Scan (fun st c => Visit.ret (f st c) false) st s
        = ScanResult.returned ((specLive h).foldl f st) s (specLive h) ∧
      (specLive h).Nodup ∧
      (∀ c, c ∈ specLive h ↔
        ∃ h1 h2, h = h1 ++ (Op.Put c, none) :: h2 ∧ (Op.Delete c, none) ∉ h2) ∧
      (ops = [] → Scan (fun st c => Visit.ret (f st c) false) st s
        = ScanResult.returned st s []) := by
  obtain ⟨h, s, l, hreach, hI, hpay, hops, _⟩ := reach_spec ht ops
  have hscan := Scan_pure f st hI
  rw [hpay] at hscan
  refine ⟨h, s, hreach, hops, hscan, specLive_nodup h, mem_specLive_iff h, ?_⟩
  intro he
  subst he
  have hh : h = [] := by simpa using hops
  subst hh
  simpa [specLive] using hscan

/-- C1, at a concrete input: threshold 2 and twelve steps, among them failed calls, a
compaction and a key put again after its deletion; the scan passes 8, 6, 9, 7. -/
theorem C1_witness :
    (0 : Int) ≤ 2 ∧
    (∃ h s, reach 2 [Op.Put 5, Op.Put 6, Op.Put 7, Op.Put 5, Op.Delete 6, Op.Put 8, Op.Put 6,
        Op.Delete 5, Op.Put 9, Op.Delete 7, Op.clearStep 0, Op.Put 7] = some (h, s) ∧
      h.map Prod.fst = [Op.Put 5, Op.Put 6, Op.Put 7, Op.Put 5, Op.Delete 6, Op.Put 8,
        Op.Put 6, Op.Delete 5, Op.Put 9, Op.Delete 7, Op.clearStep 0, Op.Put 7] ∧
      Scan (fun (n : Nat) (_ : Nat) => Visit.ret (n + 1) false) 0 s
        = ScanResult.returned ((specLive h).foldl (fun n _ => n + 1) 0) s (specLive h) ∧
      (specLive h).Nodup ∧
      (∀ c, c ∈ specLive h ↔
        ∃ h1 h2, h = h1 ++ (Op.Put c, none) :: h2 ∧ (Op.Delete c, none) ∉ h2) ∧
      ([Op.Put 5, Op.Put 6, Op.Put 7, Op.Put 5, Op.Delete 6, Op.Put 8, Op.Put 6,
        Op.Delete 5, Op.Put 9, Op.Delete 7, Op.clearStep 0, Op.Put 7] = [] →
        Scan (fun (n : Nat) (_ : Nat) => Visit.ret (n + 1) false) 0 s
          = ScanResult.returned 0 s [])) ∧
    (reach 2 [Op.Put 5, Op.Put 6, Op.Put 7, Op.Put 5, Op.Delete 6, Op.Put 8, Op.Put 6,
        Op.Delete 5, Op.Put 9, Op.Delete 7, Op.clearStep 0, Op.Put 7]).map
      (fun r => (specLive r.1, scanKeys r.2)) = some ([8, 6, 9, 7], some [8, 6, 9, 7]) :=
  ⟨by decide, C1_scan_visits_live_keys_in_put_order 2 (by decide) _ (fun n _ => n + 1) 0,
    by decide!⟩
/-- C2: in every state reached by `Put` and `Delete` calls (and compaction steps), `Put k`
returns `ERROR_NODE_EXISTED` exactly when `k` is live, and otherwise returns nil and makes
`k` the last key a scan visits; `Delete k` returns `ERROR_NODE_DELETED` exactly when `k`
is not live, and otherwise returns nil, after which a scan visits the other live keys and
not `k`.  On `NewBigSet 100` the calls `Put 5`, `Put 5`, `Delete 5`, `Delete 5` return nil,
`ERROR_NODE_EXISTED`, nil, `ERROR_NODE_DELETED`, and a scan then visits nothing. -/
theorem C2_put_delete_errors_iff_live (t : Int) (ht : 0 ≤ t) (ops : List Op) (k : Nat) :
    (∃ h s, reach t ops = some (h, s) ∧ h.map Prod.fst = ops ∧
      (∃ r s2, Put k s = some (r, s2) ∧
        (r = some BigSetError.ERROR_NODE_EXISTED ↔ k ∈ specLive h) ∧
        (k ∉ specLive h → r = none ∧ scanKeys s2 = some (specLive h ++ [k]))) ∧
      ((Delete k s).1 = some BigSetError.ERROR_NODE_DELETED ↔ k ∉ specLive h) ∧
      (k ∈ specLive h → (Delete k s).1 = none ∧
        scanKeys (Delete k s).2 = some ((specLive h).filter (fun x => x != k)) ∧
        k ∉ (specLive h).filter (fun x => x != k))) ∧
    (reach 100 [Op.Put 5, Op.Put 5, Op.Delete 5, Op.Delete 5]).map
      (fun r => (r.1.map Prod.snd, scanKeys r.2))
      = some ([none, some BigSetError.ERROR_NODE_EXISTED, none,
          some BigSetError.ERROR_NODE_DELETED], some []) := by
  refine ⟨?_, by decide!⟩
  obtain ⟨h, s, l, hreach, hI, hpay, hops, _⟩ := reach_spec ht ops
  refine ⟨h, s, hreach, hops, ?_, ?_, ?_⟩
  · obtain ⟨r, s2, l2, hstep, hI2, hpay2, _, hput, _⟩ := step_spec hI (Op.Put k)
    have hp := hput k rfl
    rw [hpay] at hp hpay2
    refine ⟨r, s2, hstep, hp.1, ?_⟩
    intro hk
    have hr := hp.2.2 hk
    subst hr
    refine ⟨rfl, ?_⟩
    rw [scanKeys_eq hI2, hpay2]
    simp only [specLiveStep]
    have h1 : (specLive h).filter (fun x => x != k) = specLive h := by
      rw [List.filter_eq_self]
      intro x hx
      have : x ≠ k := fun e => hk (e ▸ hx)
      simpa using this
    rw [h1]
  · obtain ⟨r, s2, l2, hstep, _, _, _, _, hdel⟩ := step_spec hI (Op.Delete k)
    have hd := hdel k rfl
    rw [hpay] at hd
    have : Delete k s = (r, s2) := by simpa [step] using hstep
    rw [this]
    exact hd.1
  · intro hk
    obtain ⟨r, s2, l2, hstep, hI2, hpay2, _, _, hdel⟩ := step_spec hI (Op.Delete k)
    have hd := hdel k rfl
    rw [hpay] at hd hpay2
    have hD : Delete k s = (r, s2) := by simpa [step] using hstep
    have hr := hd.2.2 hk
    subst hr
    rw [hD]
    refine ⟨rfl, ?_, by simp⟩
    rw [scanKeys_eq hI2, hpay2]
    rfl

/-- C2, at a concrete input: after `Put 5`, `Put 6` on `NewBigSet 100`, for the key 5. -/
theorem C2_witness :
    (0 : Int) ≤ 100 ∧
    ((∃ h s, reach 100 [Op.Put 5, Op.Put 6] = some (h, s) ∧
      h.map Prod.fst = [Op.Put 5, Op.Put 6] ∧
      (∃ r s2, Put 5 s = some (r, s2) ∧
        (r = some BigSetError.ERROR_NODE_EXISTED ↔ 5 ∈ specLive h) ∧
        (5 ∉ specLive h → r = none ∧ scanKeys s2 = some (specLive h ++ [5]))) ∧
      ((Delete 5 s).1 = some BigSetError.ERROR_NODE_DELETED ↔ 5 ∉ specLive h) ∧
      (5 ∈ specLive h → (Delete 5 s).1 = none ∧
        scanKeys (Delete 5 s).2 = some ((specLive h).filter (fun x => x != 5)) ∧
        5 ∉ (specLive h).filter (fun x => x != 5))) ∧
    (reach 100 [Op.Put 5, Op.Put 5, Op.Delete 5, Op.Delete 5]).map
      (fun r => (r.1.map Prod.snd, scanKeys r.2))
      = some ([none, some BigSetError.ERROR_NODE_EXISTED, none,
          some BigSetError.ERROR_NODE_DELETED], some [])) :=
  ⟨by decide, C2_put_delete_errors_iff_live 100 (by decide) [Op.Put 5, Op.Put 6] 5⟩
/-- C3: in every state reached by `Put` and `Delete` calls (and compaction steps), a
`Put k` that returns `ERROR_NODE_EXISTED` leaves `ValidSize`, `TotalSize`, the index (so
`k` maps to the same item), `head`, `tail`, the items reachable from `head` and their
contents, the pending batch and the batches handed to `clear` as they were, and a scan
visits the same keys as before; a `Delete k` that returns `ERROR_NODE_DELETED` leaves the
whole state as it was.  Both failures do occur: the first for a live key, the second for a
key that is not live. -/
theorem C3_failed_call_changes_nothing (t : Int) (ht : 0 ≤ t) (ops : List Op) (k : Nat) :
    ∃ h s, reach t ops = some (h, s) ∧ h.map Prod.fst = ops ∧
      (∀ s2, Put k s = some (some BigSetError.ERROR_NODE_EXISTED, s2) →
        ValidSize s2 = ValidSize s ∧ TotalSize s2 = TotalSize s ∧
        s2.mapItem = s.mapItem ∧ judge s2.mapItem k = judge s.mapItem k ∧
        s2.head = s.head ∧ s2.tail = s.tail ∧ nodes s2 = nodes s ∧
        (∀ a ∈ nodes s, s2.mem a = s.mem a) ∧
        s2.delQueue = s.delQueue ∧ s2.clearing = s.clearing ∧
        scanKeys s2 = scanKeys s) ∧
      (∀ s2, Delete k s = (some BigSetError.ERROR_NODE_DELETED, s2) → s2 = s) ∧
      (k ∈ specLive h → ∃ s2, Put k s = some (some BigSetError.ERROR_NODE_EXISTED, s2)) ∧
      (k ∉ specLive h → ∃ s2, Delete k s = (some BigSetError.ERROR_NODE_DELETED, s2)) := by
  obtain ⟨h, s, l, hreach, hI, hpay, hops, _⟩ := reach_spec ht ops
  refine ⟨h, s, hreach, hops, ?_, ?_, ?_, ?_⟩
  · intro s2 hput
    by_cases hj : judge s.mapItem k = none
    · obtain ⟨a, s3, hput3, _⟩ := Put_fresh hI k hj
      rw [hput3] at hput
      cases hput
    · obtain ⟨s3, hput3, hI3, hmap, hhead, htail, hdq, hcl, _, hframe, _⟩ :=
        Put_existing hI k hj
      rw [hput3] at hput
      have hs : s3 = s2 := by
        have := Option.some.inj hput
        exact (Prod.mk.inj this).2
      subst hs
      have hn : nodes s3 = nodes s := by rw [nodes_eq hI3, nodes_eq hI]
      refine ⟨by simp [ValidSize, hmap], by simp [TotalSize, hmap, hdq], hmap, by rw [hmap],
        hhead, htail, hn, ?_, hdq, hcl, ?_⟩
      · intro a ha
        rw [nodes_eq hI] at ha
        exact hframe a ha
      · rw [scanKeys_eq hI3, scanKeys_eq hI]
        exact congrArg some (payloads_congr (fun b hb => by rw [hframe b hb]))
  · intro s2 hdel
    cases hj : judge s.mapItem k with
    | none =>
      rw [Delete_absent k hj] at hdel
      exact ((Prod.mk.inj hdel).2).symm
    | some a =>
      obtain ⟨s3, hdel3, _⟩ := Delete_present hI k a hj
      rw [hdel3] at hdel
      cases hdel
  · intro hk
    have hj : judge s.mapItem k ≠ none := by
      intro hj
      exact (judge_none_iff_payloads hI k).1 hj (hpay ▸ hk)
    obtain ⟨s3, hput3, _⟩ := Put_existing hI k hj
    exact ⟨s3, hput3⟩
  · intro hk
    have hj : judge s.mapItem k = none :=
      (judge_none_iff_payloads hI k).2 (by rw [hpay]; exact hk)
    exact ⟨s, Delete_absent k hj⟩

/-- C3, at a concrete input: after `Put 5`, `Put 6` on `NewBigSet 100`, for the key 5. -/
theorem C3_witness :
    (0 : Int) ≤ 100 ∧
    ∃ h s, reach 100 [Op.Put 5, Op.Put 6] = some (h, s) ∧
      h.map Prod.fst = [Op.Put 5, Op.Put 6] ∧
      (∀ s2, Put 5 s = some (some BigSetError.ERROR_NODE_EXISTED, s2) →
        ValidSize s2 = ValidSize s ∧ TotalSize s2 = TotalSize s ∧
        s2.mapItem = s.mapItem ∧ judge s2.mapItem 5 = judge s.mapItem 5 ∧
        s2.head = s.head ∧ s2.tail = s.tail ∧ nodes s2 = nodes s ∧
        (∀ a ∈ nodes s, s2.mem a = s.mem a) ∧
        s2.delQueue = s.delQueue ∧ s2.clearing = s.clearing ∧
        scanKeys s2 = scanKeys s) ∧
      (∀ s2, Delete 5 s = (some BigSetError.ERROR_NODE_DELETED, s2) → s2 = s) ∧
      (5 ∈ specLive h → ∃ s2, Put 5 s = some (some BigSetError.ERROR_NODE_EXISTED, s2)) ∧
      (5 ∉ specLive h → ∃ s2, Delete 5 s = (some BigSetError.ERROR_NODE_DELETED, s2)) :=
  ⟨by decide, C3_failed_call_changes_nothing 100 (by decide) [Op.Put 5, Op.Put 6] 5⟩

/-- C4: in every state reached by `Put` and `Delete` calls (and compaction steps), once
`Delete k` has returned nil, a `Scan` made after any further steps that do not put `k`
again returns without passing `k` to its visitor, whatever the visitor does and whether
the `clear` goroutine holding the item has run among those steps or not. -/
theorem C4_deleted_key_is_not_scanned {σ : Type} (t : Int) (ht : 0 ≤ t) (ops ops2 : List Op)
    (k : Nat) (hno : Op.Put k ∉ ops2) (handlers : σ → Nat → Visit σ) (st : σ) :
    ∃ h s, reach t ops = some (h, s) ∧ h.map Prod.fst = ops ∧
      ((Delete k s).1 = none ↔ k ∈ specLive h) ∧
      ((Delete k s).1 = none →
        ∃ h2 s2 st3 s3 calls, run ops2 (Delete k s).2 = some (h2, s2) ∧
          h2.map Prod.fst = ops2 ∧
          Scan handlers st s2 = ScanResult.returned st3 s3 calls ∧ k ∉ calls) := by
  obtain ⟨h, s, l, hreach, hI, hpay, hops, _⟩ := reach_spec ht ops
  obtain ⟨r, sd, ld, hstep, hId, hpayd, _, _, hdel⟩ := step_spec hI (Op.Delete k)
  have hd := hdel k rfl
  rw [hpay] at hd hpayd
  have hD : Delete k s = (r, sd) := by simpa [step] using hstep
  refine ⟨h, s, hreach, hops, by rw [hD]; exact hd.2, ?_⟩
  rw [hD]
  intro hr
  have hr2 : r = none := hr
  subst hr2
  obtain ⟨h2, s2, l2, hrun, hI2, hpay2, hops2, _⟩ := run_spec ops2 sd ld hId
  obtain ⟨st3, s3, calls, l3, hscan, hsub, _⟩ := Scan_spec handlers st hI2
  refine ⟨h2, s2, st3, s3, calls, hrun, hops2, hscan, ?_⟩
  intro hk
  have hk2 := hsub.subset hk
  rw [hpay2, hpayd] at hk2
  refine foldl_specLiveStep_not_mem h2 _ (by simp [specLiveStep]) ?_ hk2
  intro e he hput
  apply hno
  rw [← hops2, ← hput]
  exact List.mem_map_of_mem Prod.fst he
/-- C4, at a concrete input: threshold 1, `Put 5`, `Put 6`, then `Delete 5`, then the
`clear` goroutine and `Put 7`; the visitor itself puts 5 again while it is called.  The
scan passes 6 both while the item of 5 is still linked with a nil payload (items 0 and 1
reachable) and after it has been unlinked (item 1 only). -/
theorem C4_witness :
    Op.Put 5 ∉ [Op.clearStep 0, Op.Put 7] ∧ (0 : Int) ≤ 1 ∧
    (∃ h s, reach 1 [Op.Put 5, Op.Put 6] = some (h, s) ∧
      h.map Prod.fst = [Op.Put 5, Op.Put 6] ∧
      ((Delete 5 s).1 = none ↔ 5 ∈ specLive h) ∧
      ((Delete 5 s).1 = none →
        ∃ h2 s2 st3 s3 calls, run [Op.clearStep 0, Op.Put 7] (Delete 5 s).2 = some (h2, s2) ∧
          h2.map Prod.fst = [Op.clearStep 0, Op.Put 7] ∧
          Scan (fun (u : Unit) (_ : Nat) => Visit.put 5 (fun _ => Visit.ret u false)) () s2
            = ScanResult.returned st3 s3 calls ∧ 5 ∉ calls)) ∧
    (reach 1 [Op.Put 5, Op.Put 6, Op.Delete 5]).map
      (fun r => (r.1.map Prod.snd, nodes r.2, scanKeys r.2))
      = some ([none, none, none], [0, 1], some [6]) ∧
    (reach 1 [Op.Put 5, Op.Put 6, Op.Delete 5, Op.clearStep 0]).map
      (fun r => (r.1.map Prod.snd, nodes r.2, scanKeys r.2))
      = some ([none, none, none, none], [1], some [6]) :=
  ⟨by decide, by decide,
    C4_deleted_key_is_not_scanned 1 (by decide) [Op.Put 5, Op.Put 6]
      [Op.clearStep 0, Op.Put 7] 5 (by decide)
      (fun (u : Unit) (_ : Nat) => Visit.put 5 (fun _ => Visit.ret u false)) (),
    by decide!, by decide!⟩

theorem length_filter_isSome_add (m : Mem) (l : List Nat) :
    l.length = (l.filter (fun a => (m a).c.isSome)).length
      + (l.filter (fun a => (m a).c.isNone)).length := by
  induction l with
  | nil => rfl
  | cons a l ih =>
    cases hc : (m a).c with
    | none => simp [List.filter_cons, hc]; omega
    | some c => simp [List.filter_cons, hc]; omega

/-- Under the invariant the index has as many entries as the list has items with a non-nil
payload. -/
theorem length_mapItem_eq {s : BigSet} {l ts : List Nat} (hI : InvT s l ts) :
    s.mapItem.length = (l.filter (fun a => (s.mem a).c.isSome)).length := by
  have hnd : (s.mapItem.map Prod.snd).Nodup := by
    refine List.Nodup.map_on ?_ (List.Nodup.of_map _ hI.keys_nodup)
    intro x hx y hy hxy
    rcases x with ⟨c1, a1⟩
    rcases y with ⟨c2, a2⟩
    simp only at hxy
    subst hxy
    have h1 := (hI.map_sound c1 a1 hx).2
    have h2 := (hI.map_sound c2 a1 hy).2
    rw [h1] at h2
    cases h2
    rfl
  have hnd2 : (l.filter (fun a => (s.mem a).c.isSome)).Nodup := hI.nodup.filter _
  have hperm : List.Perm (s.mapItem.map Prod.snd) (l.filter (fun a => (s.mem a).c.isSome)) := by
    rw [List.perm_ext_iff_of_nodup hnd hnd2]
    intro a
    rw [List.mem_filter, List.mem_map]
    constructor
    · rintro ⟨⟨c, a2⟩, hca, rfl⟩
      have := hI.map_sound c a2 hca
      exact ⟨this.1, by simp [this.2]⟩
    · rintro ⟨ha, hsome⟩
      obtain ⟨c, hc⟩ := Option.isSome_iff_exists.1 hsome
      exact ⟨(c, a), hI.map_complete a ha c hc, rfl⟩
  have := hperm.length_eq
  simpa using this

/-- Under the invariant the items waiting to be unlinked are as many as the nil-payload
items of the list. -/
theorem length_tombs_eq {s : BigSet} {l ts : List Nat} (hI : InvT s l ts) :
    ts.length = (l.filter (fun a => (s.mem a).c.isNone)).length := by
  have hnd2 : (l.filter (fun a => (s.mem a).c.isNone)).Nodup := hI.nodup.filter _
  have hperm : List.Perm ts (l.filter (fun a => (s.mem a).c.isNone)) := by
    rw [List.perm_ext_iff_of_nodup hI.tomb_nodup hnd2]
    intro a
    rw [List.mem_filter]
    constructor
    · intro ha
      have := hI.tomb_sound a ha
      exact ⟨this.1, by simp [this.2]⟩
    · rintro ⟨ha, hnone⟩
      exact hI.tomb_complete a ha (by simpa using hnone)
  exact hperm.length_eq

/-- C5: in every state reached by `Put` and `Delete` calls (and compaction steps),
`ValidSize` is the number of items reachable from `head` with a non-nil payload; and when
no batch handed to `clear` is still waiting to be unlinked, `TotalSize` is `ValidSize`
plus the number of nil-payload items reachable from `head`, which is the number of all
items reachable from `head`. -/
theorem C5_total_size_accounting (t : Int) (ht : 0 ≤ t) (ops : List Op) :
    ∃ h s, reach t ops = some (h, s) ∧ h.map Prod.fst = ops ∧
      ValidSize s = ((nodes s).filter (fun a => (s.mem a).c.isSome)).length ∧
      (s.clearing = [] →
        TotalSize s = ValidSize s + ((nodes s).filter (fun a => (s.mem a).c.isNone)).length ∧
        TotalSize s = (nodes s).length) := by
  obtain ⟨h, s, l, hreach, hI, _, hops, _⟩ := reach_spec ht ops
  have hv : ValidSize s = ((nodes s).filter (fun a => (s.mem a).c.isSome)).length := by
    rw [nodes_eq hI]
    exact length_mapItem_eq hI
  refine ⟨h, s, hreach, hops, hv, ?_⟩
  intro hcl
  have ht : s.delQueue.length = ((nodes s).filter (fun a => (s.mem a).c.isNone)).length := by
    rw [nodes_eq hI]
    have := length_tombs_eq hI
    simpa [tombs, hcl] using this
  have hsum := length_filter_isSome_add s.mem (nodes s)
  refine ⟨?_, ?_⟩
  · simp only [TotalSize]
    rw [ht]
    rfl
  · simp only [TotalSize]
    rw [ht, hsum]
    have : sizeMap s.mapItem = ValidSize s := rfl
    rw [this, hv]

/-- C5, at a concrete input: threshold 2; after `Put 5`, `Put 6`, `Put 7`, `Delete 6` the
sizes are 3 and 2 with three items reachable, one of them with a nil payload; after a
second delete and the run of the `clear` goroutine they are 1 and 1 with one item. -/
theorem C5_witness :
    (0 : Int) ≤ 2 ∧
    (∃ h s, reach 2 [Op.Put 5, Op.Put 6, Op.Put 7, Op.Delete 6] = some (h, s) ∧
      h.map Prod.fst = [Op.Put 5, Op.Put 6, Op.Put 7, Op.Delete 6] ∧
      ValidSize s = ((nodes s).filter (fun a => (s.mem a).c.isSome)).length ∧
      (s.clearing = [] →
        TotalSize s = ValidSize s + ((nodes s).filter (fun a => (s.mem a).c.isNone)).length ∧
        TotalSize s = (nodes s).length)) ∧
    (reach 2 [Op.Put 5, Op.Put 6, Op.Put 7, Op.Delete 6]).map
      (fun r => (TotalSize r.2, ValidSize r.2, nodes r.2, r.2.clearing))
      = some (3, 2, [0, 1, 2], []) ∧
    (reach 2 [Op.Put 5, Op.Put 6, Op.Put 7, Op.Delete 6, Op.Delete 5, Op.clearStep 0]).map
      (fun r => (TotalSize r.2, ValidSize r.2, nodes r.2, r.2.clearing))
      = some (1, 1, [2], []) :=
  ⟨by decide, C5_total_size_accounting 2 (by decide) _, by decide!, by decide!⟩
/-- C6: in every state reached by `Put` and `Delete` calls (and compaction steps), a `Scan`
returns whatever its visitor does while it is called, `Put` and `Delete` calls on the
scanned set included; the payloads it passes to the visitor are, in order and each at most
once, among the keys that were live when `Scan` was called, so a key `x` that was not live
then is never passed to the visitor of this scan, even when the visitor puts it; a scan
made afterwards visits `x` exactly when `x` is in the index then.  On the set just made
the visitor is not called at all. -/
theorem C6_scan_snapshot_bound {σ : Type} (t : Int) (ht : 0 ≤ t) (ops : List Op)
    (handlers : σ → Nat → Visit σ) (st : σ) (x : Nat) :
    ∃ h s, reach t ops = some (h, s) ∧ h.map Prod.fst = ops ∧
      ∃ st2 s2 calls, Scan handlers st s = ScanResult.returned st2 s2 calls ∧
        calls.Sublist (specLive h) ∧ (x ∉ specLive h → x ∉ calls) ∧
        (ops = [] → calls = []) ∧
        ∃ calls2, scanKeys s2 = some calls2 ∧ (x ∈ calls2 ↔ judge s2.mapItem x ≠ none) := by
  obtain ⟨h, s, l, hreach, hI, hpay, hops, _⟩ := reach_spec ht ops
  obtain ⟨st2, s2, calls, l2, hscan, hsub, hI2⟩ := Scan_spec handlers st hI
  rw [hpay] at hsub
  refine ⟨h, s, hreach, hops, st2, s2, calls, hscan, hsub, fun hx hc => hx (hsub.subset hc),
    ?_, payloads s2.mem l2, scanKeys_eq hI2, ?_⟩
  · intro he
    subst he
    have hh : h = [] := by simpa using hops
    subst hh
    simpa [specLive] using hsub
  · have := judge_none_iff_payloads hI2 x
    constructor
    · intro hx hj
      exact this.1 hj hx
    · intro hj
      by_contra hx
      exact hj (this.2 hx)

/-- C6, at a concrete input: on the set holding 5 and 6 a visitor that puts 9 each time it
is called is called with 5 and 6 only, and the next scan visits 5, 6, 9; on the empty set
it is not called, and the next scan visits nothing. -/
theorem C6_witness :
    (0 : Int) ≤ 2 ∧
    (∃ h s, reach 2 [Op.Put 5, Op.Put 6] = some (h, s) ∧
      h.map Prod.fst = [Op.Put 5, Op.Put 6] ∧
      ∃ st2 s2 calls,
        Scan (fun (u : Unit) (_ : Nat) => Visit.put 9 (fun _ => Visit.ret u false)) () s
          = ScanResult.returned st2 s2 calls ∧
        calls.Sublist (specLive h) ∧ (9 ∉ specLive h → 9 ∉ calls) ∧
        ([Op.Put 5, Op.Put 6] = [] → calls = []) ∧
        ∃ calls2, scanKeys s2 = some calls2 ∧ (9 ∈ calls2 ↔ judge s2.mapItem 9 ≠ none)) ∧
    (reach 2 [Op.Put 5, Op.Put 6]).map
      (fun r =>
        ((Scan (fun (u : Unit) (_ : Nat) => Visit.put 9 (fun _ => Visit.ret u false)) ()
            r.2).calls?,
          (Scan (fun (u : Unit) (_ : Nat) => Visit.put 9 (fun _ => Visit.ret u false)) ()
            r.2).set?.bind scanKeys))
      = some (some [5, 6], some [5, 6, 9]) ∧
    (reach 2 []).map
      (fun r =>
        ((Scan (fun (u : Unit) (_ : Nat) => Visit.put 9 (fun _ => Visit.ret u false)) ()
            r.2).calls?,
          (Scan (fun (u : Unit) (_ : Nat) => Visit.put 9 (fun _ => Visit.ret u false)) ()
            r.2).set?.bind scanKeys))
      = some (some [], some []) :=
  ⟨by decide,
    C6_scan_snapshot_bound 2 (by decide) [Op.Put 5, Op.Put 6]
      (fun (u : Unit) (_ : Nat) => Visit.put 9 (fun _ => Visit.ret u false)) () 9,
    by decide!, by decide!⟩

/-! ## Proofs for queue.go -/

@[simp] theorem ChanMem.write_at (m : ChanMem) (c : Nat) (b : List Msg) :
    (m.write c b) c = b := by
  simp [ChanMem.write]

theorem ChanMem.write_off (m : ChanMem) (c d : Nat) (b : List Msg) (h : d ≠ c) :
    (m.write c b) d = m d := by
  simp [ChanMem.write, h]

theorem wrap32_wrap32_add (x y : Int) : wrap32 (wrap32 x + y) = wrap32 (x + y) := by
  unfold wrap32
  omega

theorem wrap32_of_range {x : Int} (h1 : -2147483648 ≤ x) (h2 : x < 2147483648) :
    wrap32 x = x := by
  unfold wrap32
  omega

theorem Chans.start_ok : Chans.start.ok := by
  constructor <;> simp [Chans.start]

theorem NewQueue_some {sizeQueue sizeGC : Int} (h1 : 0 ≤ sizeQueue) (h2 : 0 ≤ sizeGC)
    {w : Chans} (hw : w.ok) :
    ∃ q, NewQueue sizeQueue sizeGC w = some q ∧ QInv q [] [] [] ∧ q.size = sizeGC ∧
      q.garbage = [] ∧ q.gcRunning = 0 ∧ q.gcTasks = [] ∧ q.chanMem = w.chanMem ∧
      q.chanPool = w.chanPool := by
  unfold NewQueue
  have : ¬ (sizeQueue < 0 ∨ sizeGC < 0) := by omega
  rw [if_neg this]
  refine ⟨_, rfl, ?_, rfl, rfl, rfl, rfl, rfl, rfl⟩
  constructor
  · rfl
  · rfl
  · rfl
  · rfl
  · exact List.nodup_nil
  · intro c hc; cases hc
  · exact hw.pool_nodup
  · exact hw.pool_lt
  · intro c _ hc; cases hc
  · exact hw.pool_len
  · simp [wrap32]
  · exact List.nodup_nil
  · intro i hi; cases hi
  · intro i c hic; simp at hic
  · exact hw.cap

/-- The effect of `updateChan` on a channel that holds at most two elements: the call
returns, only the buffer of this channel changes, and it does not grow beyond one element
unless it held two. -/
theorem updateChan_spec (message : Msg) (cc : Nat) (q : Queue)
    (h : (q.chanMem cc).length ≤ 2) :
    ∃ ok b, q.updateChan message cc = some (ok, { q with chanMem := q.chanMem.write cc b }) ∧
      b.length ≤ max 1 (q.chanMem cc).length := by
  unfold Queue.updateChan
  rcases hb : q.chanMem cc with _ | ⟨m, rest⟩
  · exact ⟨true, [message], by simp [send, chanCap], by simp⟩
  · rw [hb] at h
    cases m with
    | flag f => exact ⟨false, rest, rfl, by simp⟩
    | val v =>
      have hlen : rest.length < chanCap := by simp [chanCap] at h ⊢; omega
      exact ⟨true, rest ++ [message], by simp [send, hlen], by simp⟩
theorem judgeGC_frame (indexs : List Nat) (q : Queue) :
    (q.judgeGC indexs).chanMem = q.chanMem ∧ (q.judgeGC indexs).nextChan = q.nextChan ∧
    (q.judgeGC indexs).chanPool = q.chanPool ∧ (q.judgeGC indexs).used = q.used ∧
    (q.judgeGC indexs).qchan = q.qchan ∧ (q.judgeGC indexs).size = q.size ∧
    (q.judgeGC indexs).valid = q.valid ∧ (q.judgeGC indexs).validCount = q.validCount := by
  unfold Queue.judgeGC
  simp only
  split <;> simp

/-- The loop of `Scan` on a queue whose channels hold at most two elements each: it
returns, and changes only channel buffers (none grows beyond one element unless it held
two), the garbage list, and the gc goroutine bookkeeping. -/
theorem scanFrom_frame (message : Msg) (handler : Nat → Queue → Bool) :
    ∀ (rcs : List Nat) (i : Nat) (indexs : List Nat) (calls : Nat) (q : Queue),
      (∀ c, (q.chanMem c).length ≤ 2) →
      ∃ q2 k, Queue.scanFrom message handler rcs i indexs calls q = some (q2, k) ∧
        q2.nextChan = q.nextChan ∧ q2.chanPool = q.chanPool ∧ q2.used = q.used ∧
        q2.qchan = q.qchan ∧ q2.size = q.size ∧ q2.valid = q.valid ∧
        q2.validCount = q.validCount ∧
        (∀ c, (q2.chanMem c).length ≤ max 1 (q.chanMem c).length) := by
  intro rcs
  induction rcs with
  | nil =>
    intro i indexs calls q _
    have hf := judgeGC_frame indexs q
    refine ⟨_, _, rfl, hf.2.1, hf.2.2.1, hf.2.2.2.1, hf.2.2.2.2.1, hf.2.2.2.2.2.1,
      hf.2.2.2.2.2.2.1, hf.2.2.2.2.2.2.2, ?_⟩
    intro c
    rw [hf.1]
    exact le_max_right _ _
  | cons rc rest ih =>
    intro i indexs calls q hlen
    obtain ⟨ok, b, hup, hb⟩ := updateChan_spec message rc q (hlen rc)
    have hlen1 : ∀ c, (({ q with chanMem := q.chanMem.write rc b } : Queue).chanMem c).length
        ≤ max 1 (q.chanMem c).length := by
      intro c
      by_cases hc : c = rc
      · subst hc; simpa using hb
      · simp only [ChanMem.write_off _ _ _ _ hc]
        exact le_max_right _ _
    have hlen2 : ∀ c, (({ q with chanMem := q.chanMem.write rc b } : Queue).chanMem c).length
        ≤ 2 := by
      intro c
      have h2 := hlen c
      exact le_trans (hlen1 c) (max_le (by norm_num) h2)
    have hmono : ∀ (q2 : Queue),
        (∀ c, (q2.chanMem c).length
          ≤ max 1 (({ q with chanMem := q.chanMem.write rc b } : Queue).chanMem c).length) →
        ∀ c, (q2.chanMem c).length ≤ max 1 (q.chanMem c).length := by
      intro q2 h c
      exact le_trans (h c) (max_le (le_max_left _ _) (hlen1 c))
    unfold Queue.scanFrom
    rw [hup]
    cases ok with
    | false =>
      simp only
      obtain ⟨q2, k, hres, h1, h2, h3, h4, h5, h6, h7, h8⟩ :=
        ih (i + 1) (indexs ++ [i]) calls _ hlen2
      exact ⟨q2, k, hres, h1, h2, h3, h4, h5, h6, h7, hmono q2 h8⟩
    | true =>
      simp only
      by_cases hh : handler calls { q with chanMem := q.chanMem.write rc b } = true
      · rw [if_pos hh]
        have hf := judgeGC_frame indexs { q with chanMem := q.chanMem.write rc b }
        refine ⟨_, _, rfl, hf.2.1, hf.2.2.1, hf.2.2.2.1, hf.2.2.2.2.1, hf.2.2.2.2.2.1,
          hf.2.2.2.2.2.2.1, hf.2.2.2.2.2.2.2, ?_⟩
        intro c
        rw [hf.1]
        exact hlen1 c
      · rw [if_neg hh]
        obtain ⟨q2, k, hres, h1, h2, h3, h4, h5, h6, h7, h8⟩ :=
          ih (i + 1) indexs (calls + 1) _ hlen2
        exact ⟨q2, k, hres, h1, h2, h3, h4, h5, h6, h7, hmono q2 h8⟩

/-- A `Scan` keeps the invariant of a queue on which only `GetNode`, `DiscardNode`, `Scan`
and receipts have run. -/
theorem Scan_QInv {q : Queue} {nc : List (Option Nat)} {hs : List Nat} {gone : List Nat}
    (hI : QInv q nc hs gone) (message : Msg) (handler : Nat → Queue → Bool) :
    ∃ q2 k, q.Scan message handler = some (q2, k) ∧ QInv q2 nc hs gone := by
  unfold Queue.Scan
  have hv : q.invalid = false := by simp [Queue.invalid, hI.valid]
  rw [hv]
  simp only [Bool.false_eq_true, if_false]
  obtain ⟨q2, k, hres, h1, h2, h3, h4, _, h6, h7, h8⟩ :=
    scanFrom_frame message handler q.qchan 0 [] 0 { q with used := wrap32 (q.used + 1) }
      hI.all_len
  have hres2 : Queue.scanFrom message handler
      ({ q with used := wrap32 (q.used + 1) } : Queue).qchan 0 [] 0
      { q with used := wrap32 (q.used + 1) } = some (q2, k) := hres
  rw [hres2]
  refine ⟨_, k, rfl, ?_⟩
  constructor
  · exact h6.trans hI.valid
  · show wrap32 (q2.used - 1) = 0
    rw [h3]
    show wrap32 (wrap32 (q.used + 1) - 1) = 0
    rw [hI.used]
    decide
  · exact hI.nc_eq
  · exact h4.trans hI.qchan_eq
  · exact hI.hs_nodup
  · intro c hc
    show c < q2.nextChan
    rw [h1]
    exact hI.hs_lt c hc
  · show q2.chanPool.Nodup
    rw [h2]
    exact hI.pool_nodup
  · intro c hc
    show c < q2.nextChan
    rw [h1]
    exact hI.pool_lt c (h2 ▸ hc)
  · intro c hc
    exact hI.pool_new c (h2 ▸ hc)
  · intro c hc
    exact le_trans (h8 c) (max_le (le_refl _) (hI.pool_len c (h2 ▸ hc)))
  · exact h7.trans hI.count
  · exact hI.gone_nodup
  · exact hI.gone_lt
  · intro i c hic hi
    exact le_trans (h8 c) (max_le (le_refl _) (hI.live_len i c hic hi))
  · intro c
    exact le_trans (h8 c) (max_le (by norm_num) (hI.all_len c))

theorem getElem?_inj_of_nodup {l : List Nat} (hnd : l.Nodup) {i j c : Nat}
    (hi : l[i]? = some c) (hj : l[j]? = some c) : i = j := by
  have hlt : i < l.length := by
    rcases Nat.lt_or_ge i l.length with h | h
    · exact h
    · rw [List.getElem?_eq_none h] at hi; cases hi
  exact List.getElem?_inj hlt hnd (hi.trans hj.symm)

theorem getElem?_append_singleton {l : List Nat} {c : Nat} {i d : Nat}
    (h : (l ++ [c])[i]? = some d) : l[i]? = some d ∨ (i = l.length ∧ d = c) := by
  rcases Nat.lt_or_ge i l.length with hlt | hge
  · rw [List.getElem?_append_left hlt] at h
    exact Or.inl h
  · rw [List.getElem?_append_right hge] at h
    rcases Nat.eq_zero_or_pos (i - l.length) with h0 | hpos
    · rw [h0] at h
      have : c = d := by simpa using h
      exact Or.inr ⟨by omega, this.symm⟩
    · have : i - l.length = (i - l.length - 1) + 1 := by omega
      rw [this] at h
      simp at h

/-- A `GetNode` on a queue with the invariant returns a channel not obtained before, the
first of the pool when there is one and a new empty channel otherwise, and appends it to
the array. -/
theorem GetNode_QInv {q : Queue} {nc : List (Option Nat)} {hs : List Nat} {gone : List Nat}
    (hI : QInv q nc hs gone) :
    ∃ c, q.GetNode.1 = some c ∧ c ∉ hs ∧
      QInv q.GetNode.2 (nc ++ [q.GetNode.1]) (hs ++ [c]) gone ∧
      (∀ d, d ≠ c → q.GetNode.2.chanMem d = q.chanMem d) ∧
      ((c ∈ q.chanPool ∧ q.GetNode.2.chanMem c = q.chanMem c) ∨ q.GetNode.2.chanMem c = []) ∧
      (∀ d ∈ q.GetNode.2.chanPool, d ∈ q.chanPool ∧ d ≠ c) ∧
      q.GetNode.2.size = q.size ∧
      q.GetNode.2.garbage = q.garbage ∧ q.GetNode.2.gcRunning = q.gcRunning ∧
      q.GetNode.2.gcTasks = q.gcTasks := by
  have hv : q.invalid = false := by simp [Queue.invalid, hI.valid]
  have hgone : ∀ (c : Nat) (i d : Nat), (hs ++ [c])[i]? = some d → i ∉ gone →
      hs[i]? = some d ∨ d = c := by
    intro c i d h _
    rcases getElem?_append_singleton h with h1 | h1
    · exact Or.inl h1
    · exact Or.inr h1.2
  cases hp : q.chanPool with
  | cons c rest =>
    have hg : q.GetNode = (some c, { q with
        chanPool := rest, qchan := q.qchan ++ [c],
        validCount := wrap32 (q.validCount + 1) }) := by
      unfold Queue.GetNode
      simp [hv, hI.used, chanGet, hp]
    have hcp : c ∈ q.chanPool := by rw [hp]; exact List.mem_cons_self _ _
    have hnd := hI.pool_nodup
    rw [hp] at hnd
    have hrest : ∀ d ∈ rest, d ∈ q.chanPool ∧ d ≠ c := by
      intro d hd
      refine ⟨by rw [hp]; exact List.mem_cons_of_mem _ hd, ?_⟩
      intro e
      exact (List.nodup_cons.1 hnd).1 (e ▸ hd)
    rw [hg]
    refine ⟨c, rfl, hI.pool_new c hcp, ?_, fun _ _ => rfl,
      Or.inl ⟨List.mem_cons_self _ _, rfl⟩,
      fun d hd => ⟨List.mem_cons_of_mem _ hd, (hrest d hd).2⟩, rfl, rfl, rfl, rfl⟩
    constructor
    · exact hI.valid
    · exact hI.used
    · simp [hI.nc_eq]
    · simp [hI.qchan_eq]
    · exact List.nodup_append.2 ⟨hI.hs_nodup, List.nodup_singleton _, by
        intro a ha hb
        have : a = c := by simpa using hb
        exact hI.pool_new c hcp (this ▸ ha)⟩
    · intro d hd
      rcases List.mem_append.1 hd with h | h
      · exact hI.hs_lt d h
      · have : d = c := by simpa using h
        rw [this]
        exact hI.pool_lt c hcp
    · exact (List.nodup_cons.1 hnd).2
    · intro d hd
      exact hI.pool_lt d (hrest d hd).1
    · intro d hd hmem
      rcases List.mem_append.1 hmem with h | h
      · exact hI.pool_new d (hrest d hd).1 h
      · have : d = c := by simpa using h
        exact (hrest d hd).2 this
    · intro d hd
      exact hI.pool_len d (hrest d hd).1
    · show wrap32 (q.validCount + 1) = _
      rw [hI.count, wrap32_wrap32_add]
      congr 1
      simp only [List.length_append, List.length_singleton]
      push_cast
      ring
    · exact hI.gone_nodup
    · intro i hi
      have := hI.gone_lt i hi
      simp only [List.length_append, List.length_singleton]
      omega
    · intro i d hid hi
      rcases hgone c i d hid hi with h | h
      · exact hI.live_len i d h hi
      · rw [h]
        exact hI.pool_len c hcp
    · exact hI.all_len
  | nil =>
    have hg : q.GetNode = (some q.nextChan, { q with
        nextChan := q.nextChan + 1, chanMem := q.chanMem.write q.nextChan [],
        qchan := q.qchan ++ [q.nextChan], validCount := wrap32 (q.validCount + 1) }) := by
      unfold Queue.GetNode
      simp [hv, hI.used, chanGet, hp]
    have hnew : q.nextChan ∉ hs := fun h => Nat.lt_irrefl _ (hI.hs_lt _ h)
    rw [hg]
    refine ⟨q.nextChan, rfl, hnew, ?_, ?_, Or.inr (by simp), ?_, rfl, rfl, rfl, rfl⟩
    · constructor
      · exact hI.valid
      · exact hI.used
      · simp [hI.nc_eq]
      · simp [hI.qchan_eq]
      · exact List.nodup_append.2 ⟨hI.hs_nodup, List.nodup_singleton _, by
          intro a ha hb
          have : a = q.nextChan := by simpa using hb
          exact hnew (this ▸ ha)⟩
      · intro d hd
        show d < q.nextChan + 1
        rcases List.mem_append.1 hd with h | h
        · exact Nat.lt_succ_of_lt (hI.hs_lt d h)
        · have : d = q.nextChan := by simpa using h
          omega
      · show q.chanPool.Nodup
        exact hI.pool_nodup
      · intro d hd
        show d < q.nextChan + 1
        exact Nat.lt_succ_of_lt (hI.pool_lt d hd)
      · intro d hd
        rw [hp] at hd
        cases hd
      · intro d hd
        rw [hp] at hd
        cases hd
      · show wrap32 (q.validCount + 1) = _
        rw [hI.count, wrap32_wrap32_add]
        congr 1
        simp only [List.length_append, List.length_singleton]
        push_cast
        ring
      · exact hI.gone_nodup
      · intro i hi
        have := hI.gone_lt i hi
        simp only [List.length_append, List.length_singleton]
        omega
      · intro i d hid hi
        show ((q.chanMem.write q.nextChan []) d).length ≤ 1
        by_cases h : d = q.nextChan
        · subst h; simp
        · rw [ChanMem.write_off _ _ _ _ h]
          rcases hgone q.nextChan i d hid hi with h1 | h1
          · exact hI.live_len i d h1 hi
          · exact absurd h1 h
      · intro d
        show ((q.chanMem.write q.nextChan []) d).length ≤ 2
        by_cases h : d = q.nextChan
        · subst h; simp
        · rw [ChanMem.write_off _ _ _ _ h]; exact hI.all_len d
    · intro d hd
      exact ChanMem.write_off _ _ _ _ hd
    · intro d hd
      have hd2 : d ∈ q.chanPool := hd
      rw [hp] at hd2
      cases hd2

/-- A `DiscardNode` of a slot that has not been discarded before, on a queue with the
invariant, returns after appending the marker to the channel of the slot. -/
theorem DiscardNode_QInv {q : Queue} {nc : List (Option Nat)} {hs : List Nat}
    {gone : List Nat} (hI : QInv q nc hs gone) {i : Nat} (hi : i < hs.length)
    (hg : i ∉ gone) :
    ∃ c q2, hs[i]? = some c ∧ nc[i]? = some (some c) ∧
      q.DiscardNode (some c) = some q2 ∧ QInv q2 nc hs (i :: gone) ∧
      q2.chanMem = q.chanMem.write c (q.chanMem c ++ [Msg.flag flagNode.destroyNode]) ∧
      q2.chanPool = q.chanPool ∧
      q2.size = q.size ∧ q2.garbage = q.garbage ∧ q2.gcRunning = q.gcRunning ∧
      q2.gcTasks = q.gcTasks := by
  have hv : q.invalid = false := by simp [Queue.invalid, hI.valid]
  obtain ⟨c, hic⟩ : ∃ c, hs[i]? = some c := ⟨hs[i], List.getElem?_eq_getElem hi⟩
  have hcm : c ∈ hs := List.getElem?_mem hic
  have hlen : (q.chanMem c).length < chanCap := by
    have := hI.live_len i c hic hg
    simp only [chanCap]; omega
  have hnc : nc[i]? = some (some c) := by
    rw [hI.nc_eq, List.getElem?_map, hic]
    rfl
  have hd : q.DiscardNode (some c) = some { q with
      chanMem := q.chanMem.write c (q.chanMem c ++ [Msg.flag flagNode.destroyNode]),
      validCount := wrap32 (q.validCount - 1) } := by
    unfold Queue.DiscardNode
    simp only [hv, Bool.false_eq_true, if_false, send, if_pos hlen]
  refine ⟨c, _, hic, hnc, hd, ?_, rfl, rfl, rfl, rfl, rfl, rfl⟩
  have hoff : ∀ d, d ≠ c →
      (q.chanMem.write c (q.chanMem c ++ [Msg.flag flagNode.destroyNode])) d = q.chanMem d :=
    fun d hd => ChanMem.write_off _ _ _ _ hd
  constructor
  · exact hI.valid
  · exact hI.used
  · exact hI.nc_eq
  · exact hI.qchan_eq
  · exact hI.hs_nodup
  · exact hI.hs_lt
  · exact hI.pool_nodup
  · exact hI.pool_lt
  · exact hI.pool_new
  · intro d hd
    have hne : d ≠ c := fun e => hI.pool_new d hd (e ▸ hcm)
    show ((q.chanMem.write _ _) d).length ≤ 1
    rw [hoff d hne]
    exact hI.pool_len d hd
  · show wrap32 (q.validCount - 1) = _
    rw [hI.count, sub_eq_add_neg, wrap32_wrap32_add]
    congr 1
    simp only [List.length_cons]
    push_cast
    ring
  · exact List.nodup_cons.2 ⟨hg, hI.gone_nodup⟩
  · intro j hj
    rcases List.mem_cons.1 hj with h | h
    · rw [h]; exact hi
    · exact hI.gone_lt j h
  · intro j d hjd hj
    have hji : j ≠ i := fun e => hj (by rw [e]; exact List.mem_cons_self _ _)
    have hne : d ≠ c := by
      intro e
      exact hji (getElem?_inj_of_nodup hI.hs_nodup hjd (e ▸ hic))
    show ((q.chanMem.write _ _) d).length ≤ 1
    rw [hoff d hne]
    exact hI.live_len j d hjd (fun h => hj (List.mem_cons_of_mem _ h))
  · intro d
    show ((q.chanMem.write _ _) d).length ≤ 2
    by_cases h : d = c
    · rw [h, ChanMem.write_at]
      have := hI.live_len i c hic hg
      simp only [List.length_append, List.length_singleton]; omega
    · rw [hoff d h]; exact hI.all_len d

/-- The receipt of an element by a slot owner keeps the invariant. -/
theorem Recv_QInv {q : Queue} {nc : List (Option Nat)} {hs : List Nat} {gone : List Nat}
    (hI : QInv q nc hs gone) (c : Nat) :
    QInv { q with chanMem := q.chanMem.write c (q.chanMem c).tail } nc hs gone := by
  have htail : ∀ d, ((q.chanMem.write c (q.chanMem c).tail) d).length
      ≤ (q.chanMem d).length := by
    intro d
    by_cases h : d = c
    · subst h; simp
    · rw [ChanMem.write_off _ _ _ _ h]
  constructor
  · exact hI.valid
  · exact hI.used
  · exact hI.nc_eq
  · exact hI.qchan_eq
  · exact hI.hs_nodup
  · exact hI.hs_lt
  · exact hI.pool_nodup
  · exact hI.pool_lt
  · exact hI.pool_new
  · exact fun d hd => le_trans (htail d) (hI.pool_len d hd)
  · exact hI.count
  · exact hI.gone_nodup
  · exact hI.gone_lt
  · exact fun i d hid hi => le_trans (htail d) (hI.live_len i d hid hi)
  · exact fun d => le_trans (htail d) (hI.all_len d)

/-- Every admissible sequence of steps runs to the end from a queue with the invariant,
every `GetNode` among them returns a slot, and the invariant holds at the end for the
slots obtained and discarded. -/
theorem qrun_admissible (scans : Bool) :
    ∀ (ops : List QOp) (q : Queue) (nc : List (Option Nat)) (hs : List Nat)
      (gone : List Nat),
      QInv q nc hs gone → admissible scans ops hs.length gone = true →
      ∃ rs q2 nc2 hs2, qrun ops q nc = some (rs, q2, nc2) ∧
        QInv q2 nc2 hs2 (discarded ops gone) ∧
        hs2.length = hs.length + countGet ops ∧
        (discarded ops gone).length = gone.length + countDiscard ops := by
  intro ops
  induction ops with
  | nil =>
    intro q nc hs gone hI _
    exact ⟨[], q, nc, hs, rfl, by simpa [discarded] using hI, by simp [countGet],
      by simp [discarded, countDiscard]⟩
  | cons o os ih =>
    intro q nc hs gone hI hadm
    cases o with
    | GetNode =>
      obtain ⟨c, hc, _, hI1, _⟩ := GetNode_QInv hI
      have hadm2 : admissible scans os (hs ++ [c]).length gone = true := by
        simpa [admissible] using hadm
      obtain ⟨rs, q2, nc2, hs2, hrun, hI2, hl, hlen⟩ := ih _ _ _ _ hI1 hadm2
      refine ⟨QRes.slot q.GetNode.1 :: rs, q2, nc2, hs2, by simp [qrun, qstep, hrun], ?_,
        ?_, ?_⟩
      · simpa [discarded] using hI2
      · rw [hl]; simp [countGet]; omega
      · simpa [discarded, countDiscard] using hlen
    | DiscardNode i =>
      have hadm2 : i < hs.length ∧ i ∉ gone ∧
          admissible scans os hs.length (i :: gone) = true := by
        simpa [admissible, and_assoc] using hadm
      obtain ⟨c, q1, _, hnc, hd, hI1, _⟩ := DiscardNode_QInv hI hadm2.1 hadm2.2.1
      obtain ⟨rs, q2, nc2, hs2, hrun, hI2, hl, hlen⟩ := ih _ _ _ _ hI1 hadm2.2.2
      refine ⟨QRes.unit :: rs, q2, nc2, hs2, by simp [qrun, qstep, hnc, hd, hrun], ?_, ?_,
        ?_⟩
      · simpa [discarded] using hI2
      · simpa [countGet] using hl
      · simp only [discarded, countDiscard]
        rw [hlen]
        simp; omega
    | Scan message handler =>
      have hadm2 : admissible scans os hs.length gone = true := by
        have : scans = true ∧ admissible scans os hs.length gone = true := by
          simpa [admissible] using hadm
        exact this.2
      obtain ⟨q1, k, hs1, hI1⟩ := Scan_QInv hI message handler
      obtain ⟨rs, q2, nc2, hs2, hrun, hI2, hl, hlen⟩ := ih _ _ _ _ hI1 hadm2
      refine ⟨QRes.calls k :: rs, q2, nc2, hs2, by simp [qrun, qstep, hs1, hrun], ?_, ?_,
        ?_⟩
      · simpa [discarded] using hI2
      · simpa [countGet] using hl
      · simpa [discarded, countDiscard] using hlen
    | Recv i =>
      have hadm2 : i < hs.length ∧ admissible scans os hs.length gone = true := by
        have : (scans = true ∧ i < hs.length) ∧ admissible scans os hs.length gone = true := by
          simpa [admissible] using hadm
        exact ⟨this.1.2, this.2⟩
      obtain ⟨c, hic⟩ : ∃ c, hs[i]? = some c := ⟨_, List.getElem?_eq_getElem hadm2.1⟩
      have hnc : nc[i]? = some (some c) := by
        rw [hI.nc_eq, List.getElem?_map, hic]
        rfl
      have hI1 := Recv_QInv hI c
      obtain ⟨rs, q2, nc2, hs2, hrun, hI2, hl, hlen⟩ := ih _ _ _ _ hI1 hadm2.2
      refine ⟨QRes.unit :: rs, q2, nc2, hs2, by simp [qrun, qstep, hnc, hrun], ?_, ?_, ?_⟩
      · simpa [discarded] using hI2
      · simpa [countGet] using hl
      · simpa [discarded, countDiscard] using hlen
    | GC => simp [admissible] at hadm
    | gcStep i => simp [admissible] at hadm
    | Destory => simp [admissible] at hadm
    | gcLock i => simp [admissible] at hadm
    | gcStoreUsed => simp [admissible] at hadm
    | gcStoreRunning => simp [admissible] at hadm
    | ScanAcross message handler => simp [admissible] at hadm

/-- Every admissible sequence of steps on a queue made with non-negative sizes runs to the
end, whatever queues have done before; the invariant holds at the end, with as many slots
obtained as there were `GetNode` calls and as many discarded as there were `DiscardNode`
calls. -/
theorem qreach_admissible {sizeQueue sizeGC : Int} (h1 : 0 ≤ sizeQueue) (h2 : 0 ≤ sizeGC)
    {w : Chans} (hw : w.ok)
    (scans : Bool) (ops : List QOp) (hadm : admissible scans ops 0 [] = true) :
    ∃ rs q nc hs, qreachIn w sizeQueue sizeGC ops = some (rs, q, nc) ∧
      QInv q nc hs (discarded ops []) ∧ hs.length = countGet ops ∧
      (discarded ops []).length = countDiscard ops := by
  obtain ⟨q0, hq0, hI0, _⟩ := NewQueue_some h1 h2 hw
  obtain ⟨rs, q, nc, hs, hrun, hI, hl, hlen⟩ :=
    qrun_admissible scans ops q0 [] [] [] hI0 hadm
  refine ⟨rs, q, nc, hs, by simp [qreachIn, hq0, hrun], hI, by simpa using hl,
    by simpa using hlen⟩

theorem admissible_replicate_GetNode (scans : Bool) (k : Nat) :
    ∀ (n : Nat) (gone : List Nat),
      admissible scans (List.replicate k QOp.GetNode) n gone = true := by
  induction k with
  | zero => intro n gone; rfl
  | succ k ih => intro n gone; simpa [List.replicate_succ, admissible] using ih (n + 1) gone

theorem countGet_replicate_GetNode (k : Nat) :
    countGet (List.replicate k QOp.GetNode) = k := by
  induction k with
  | zero => rfl
  | succ k ih => simp [List.replicate_succ, countGet, ih]

theorem countDiscard_replicate_GetNode (k : Nat) :
    countDiscard (List.replicate k QOp.GetNode) = 0 := by
  induction k with
  | zero => rfl
  | succ k ih => simp [List.replicate_succ, countDiscard, ih]

theorem nc_all_slots {nc : List (Option Nat)} {hs : List Nat} (h : nc = hs.map some) :
    nc.length = hs.length ∧ ∀ c ∈ nc, c ≠ none := by
  subst h
  refine ⟨by simp, ?_⟩
  intro c hc
  simp at hc
  obtain ⟨a, _, rfl⟩ := hc
  simp

theorem Seg_next_prev {m : Mem} :
    ∀ (l : List Nat) (p : Option Nat), Seg m p l none →
      ∀ a ∈ l, ∀ b, (m a).Next = some b → b ∈ l ∧ (m b).Prev = some a := by
  intro l
  induction l with
  | nil => intro p _ a ha; cases ha
  | cons x rest ih =>
    intro p hs a ha b hb
    obtain ⟨_, h2, h3⟩ := hs
    rcases List.mem_cons.1 ha with h | h
    · subst h
      rw [h2] at hb
      cases rest with
      | nil => simp [headOr] at hb
      | cons y r =>
        have hy : y = b := by simpa [headOr] using hb
        subst hy
        exact ⟨by simp, h3.1⟩
    · obtain ⟨hmem, hprev⟩ := ih (some x) h3 a h b hb
      exact ⟨List.mem_cons_of_mem _ hmem, hprev⟩

theorem Seg_last_next {m : Mem} :
    ∀ (l : List Nat) (p d n : Option Nat), l ≠ [] → Seg m p l n →
      ∀ a, lastOr l d = some a → (m a).Next = n := by
  intro l
  induction l with
  | nil => intro p d n h; exact absurd rfl h
  | cons x rest ih =>
    intro p d n _ hs a ha
    obtain ⟨_, h2, h3⟩ := hs
    cases rest with
    | nil =>
      have hx : x = a := by simpa [lastOr] using ha
      subst hx
      simpa [headOr] using h2
    | cons y r =>
      exact ih (some x) (some x) n (List.cons_ne_nil _ _) h3 a (by simpa [lastOr] using ha)

theorem lastOr_none_iff {l : List Nat} : lastOr l none = none ↔ l = [] := by
  cases l with
  | nil => simp [lastOr]
  | cons y l =>
    obtain ⟨z, hz, _⟩ := lastOr_cons_mem y l none
    simp [hz]

theorem mem_tombs {s : BigSet} {a : Nat} :
    a ∈ tombs s ↔ a ∈ s.delQueue ∨ ∃ b ∈ s.clearing, a ∈ b := by
  simp [tombs, List.mem_flatten]

/-- C18 (amended): for a threshold `t ≥ 1`, after every sequence of `Put` and `Delete`
calls (and compaction steps) the pending batch `delQueue` holds fewer than `t` items.  A
`Delete` of a live key succeeds; when it brings the batch to `t` items it hands the whole
batch, with the item of the key last, to `clear` and leaves `delQueue` empty, and when
`clear` runs on that batch right after it, `TotalSize` equals `ValidSize` and no item of
the batch is reachable from `head` (all of them were before); otherwise the item is added
to the pending batch.  Whenever `clear` runs on a batch handed to it, no item of the batch
is reachable from `head` afterwards, `delQueue` is unchanged, and `TotalSize` is
`ValidSize` plus the length of `delQueue`. -/
theorem C18_pending_batch_bound (t : Int) (ht : 1 ≤ t) (ops : List Op) :
    ∃ h s, reach t ops = some (h, s) ∧ h.map Prod.fst = ops ∧
      (s.delQueue.length : Int) < t ∧
      (∀ k, k ∈ specLive h → ∃ a s2, judge s.mapItem k = some a ∧ Delete k s = (none, s2) ∧
        if (s.delQueue.length : Int) + 1 = t then
          s2.delQueue = [] ∧ s2.clearing = s.clearing ++ [s.delQueue ++ [a]] ∧
          ∃ s3, step (Op.clearStep s.clearing.length) s2 = some (none, s3) ∧
            s3.delQueue = [] ∧ s3.clearing = s.clearing ∧
            TotalSize s3 = ValidSize s3 ∧
            ∀ x ∈ s.delQueue ++ [a], x ∈ nodes s2 ∧ x ∉ nodes s3
        else s2.delQueue = s.delQueue ++ [a] ∧ s2.clearing = s.clearing) ∧
      (∀ i qs, s.clearing[i]? = some qs →
        ∃ s3, step (Op.clearStep i) s = some (none, s3) ∧ s3.delQueue = s.delQueue ∧
          TotalSize s3 = ValidSize s3 + s.delQueue.length ∧
          ∀ x ∈ qs, x ∈ nodes s ∧ x ∉ nodes s3) := by
  obtain ⟨h, s, l, hreach, hI, hpay, hops, hthr⟩ := reach_spec (le_trans (by decide) ht) ops
  have hpend : (s.delQueue.length : Int) < t := by
    have := hI.pending
    rw [hthr, max_eq_left ht] at this
    exact this
  refine ⟨h, s, hreach, hops, hpend, ?_, ?_⟩
  · intro k hk
    rw [← hpay] at hk
    cases hj : judge s.mapItem k with
    | none => exact absurd hk ((judge_none_iff_payloads hI k).1 hj)
    | some a =>
      obtain ⟨s2, hdel, hI2, _, _, _, _, _, _, _, _, hif⟩ := Delete_present hI k a hj
      refine ⟨a, s2, rfl, hdel, ?_⟩
      have hlen : ((s.delQueue ++ [a]).length : Int) = (s.delQueue.length : Int) + 1 := by
        simp
      by_cases hfull : (s.delQueue.length : Int) + 1 = t
      · rw [if_pos hfull]
        rw [if_pos (by rw [hlen, hthr, hfull])] at hif
        obtain ⟨hdq, hcl⟩ := hif
        have hget : s2.clearing[s.clearing.length]? = some (s.delQueue ++ [a]) := by
          rw [hcl]; simp
        obtain ⟨l3, hI3, _, hmem, _, _, hdq3, _, hcl3⟩ :=
          clearStep_spec hI2 s.clearing.length (s.delQueue ++ [a]) hget
        refine ⟨hdq, hcl, clear (s.delQueue ++ [a])
          { s2 with clearing := dropAt s2.clearing s.clearing.length },
          by simp only [step, hget], by rw [hdq3, hdq], ?_, ?_, ?_⟩
        · rw [hcl3, hcl]
          simp [dropAt]
        · unfold TotalSize ValidSize
          rw [hdq3, hdq]
          rfl
        · intro x hx
          rw [nodes_eq hI2, nodes_eq hI3, hmem]
          refine ⟨hI2.tomb_sound x ?_ |>.1, fun hh => hh.2 hx⟩
          rw [mem_tombs]
          exact Or.inr ⟨_, by rw [hcl]; simp, hx⟩
      · rw [if_neg hfull]
        rw [if_neg (by rw [hlen, hthr]; omega)] at hif
        exact hif
  · intro i qs hget
    obtain ⟨l3, hI3, _, hmem, _, _, hdq3, _, _⟩ := clearStep_spec hI i qs hget
    refine ⟨clear qs { s with clearing := dropAt s.clearing i }, by simp only [step, hget],
      hdq3, ?_, ?_⟩
    · unfold TotalSize ValidSize
      rw [hdq3]
    · intro x hx
      rw [nodes_eq hI, nodes_eq hI3, hmem]
      refine ⟨hI.tomb_sound x ?_ |>.1, fun hh => hh.2 hx⟩
      rw [mem_tombs]
      exact Or.inr ⟨qs, List.getElem?_mem hget, hx⟩

/-- C18, at a concrete input: threshold 2 and three keys; the first `Delete` leaves one item
pending, the second hands both items to `clear`, and after `clear` only the item of the
third key is reachable. -/
theorem C18_witness :
    (1 : Int) ≤ 2 ∧
    (∃ h s, reach 2 [Op.Put 5, Op.Put 6, Op.Put 7, Op.Delete 5] = some (h, s) ∧
      h.map Prod.fst = [Op.Put 5, Op.Put 6, Op.Put 7, Op.Delete 5] ∧
      (s.delQueue.length : Int) < 2 ∧
      (∀ k, k ∈ specLive h → ∃ a s2, judge s.mapItem k = some a ∧ Delete k s = (none, s2) ∧
        if (s.delQueue.length : Int) + 1 = 2 then
          s2.delQueue = [] ∧ s2.clearing = s.clearing ++ [s.delQueue ++ [a]] ∧
          ∃ s3, step (Op.clearStep s.clearing.length) s2 = some (none, s3) ∧
            s3.delQueue = [] ∧ s3.clearing = s.clearing ∧
            TotalSize s3 = ValidSize s3 ∧
            ∀ x ∈ s.delQueue ++ [a], x ∈ nodes s2 ∧ x ∉ nodes s3
        else s2.delQueue = s.delQueue ++ [a] ∧ s2.clearing = s.clearing) ∧
      (∀ i qs, s.clearing[i]? = some qs →
        ∃ s3, step (Op.clearStep i) s = some (none, s3) ∧ s3.delQueue = s.delQueue ∧
          TotalSize s3 = ValidSize s3 + s.delQueue.length ∧
          ∀ x ∈ qs, x ∈ nodes s ∧ x ∉ nodes s3)) ∧
    (reach 2 [Op.Put 5, Op.Put 6, Op.Put 7, Op.Delete 5]).map
      (fun r => (r.2.delQueue, r.2.clearing, nodes r.2)) = some ([0], [], [0, 1, 2]) ∧
    (reach 2 [Op.Put 5, Op.Put 6, Op.Put 7, Op.Delete 5, Op.Delete 6]).map
      (fun r => (r.2.delQueue, r.2.clearing, nodes r.2)) = some ([], [[0, 1]], [0, 1, 2]) ∧
    (reach 2 [Op.Put 5, Op.Put 6, Op.Put 7, Op.Delete 5, Op.Delete 6, Op.clearStep 0]).map
      (fun r => (r.2.delQueue, r.2.clearing, nodes r.2, TotalSize r.2, ValidSize r.2))
      = some ([], [], [2], 1, 1) :=
  ⟨by decide, C18_pending_batch_bound 2 (by decide) _, by decide!, by decide!, by decide!⟩

/-- C18 as stated fails when a `Delete` succeeds between the hand-over of a batch and its
compaction: with threshold 2 and three keys, the second `Delete` hands the items 0 and 1
to `clear`, the third `Delete` leaves the item 2 pending, and once `clear` has run on the
batch `TotalSize` is 1 and `ValidSize` is 0. -/
theorem C18_counterexample_delete_before_clear :
    (reach 2 [Op.Put 5, Op.Put 6, Op.Put 7, Op.Delete 5, Op.Delete 6, Op.Delete 7]).map
      (fun r => (r.1.map Prod.snd, r.2.delQueue, r.2.clearing, nodes r.2))
      = some ([none, none, none, none, none, none], [2], [[0, 1]], [0, 1, 2]) ∧
    (reach 2 [Op.Put 5, Op.Put 6, Op.Put 7, Op.Delete 5, Op.Delete 6, Op.Delete 7,
        Op.clearStep 0]).map
      (fun r => (r.2.delQueue, r.2.clearing, nodes r.2, TotalSize r.2, ValidSize r.2))
      = some ([2], [], [2], 1, 0) := by
  refine ⟨by decide!, by decide!⟩

/-- C19: every state reached from the empty set by `Put`, `Delete` and `clear` steps has a
well-formed doubly linked list: the items reachable from `head` are distinct, `head` is the
first and `tail` the last of them, `head` is nil exactly when `tail` is, `head.Prev` and
`tail.Next` are nil, and `n.Next.Prev` is `n` for every reachable `n` with a successor,
which is reachable too.  Every reachable item is live (non-nil payload, which the index
maps to this item) or tombstoned (nil payload, no key of the index mapped to it, and the
item in the pending batch or in a batch handed to `clear` that has not run); and every item
of the index is reachable and holds its key as payload. -/
theorem C19_structural_invariant (t : Int) (ht : 0 ≤ t) (ops : List Op) :
    ∃ h s, reach t ops = some (h, s) ∧ h.map Prod.fst = ops ∧
      (nodes s).Nodup ∧ s.head = (nodes s).head? ∧ s.tail = (nodes s).getLast? ∧
      (s.head = none ↔ s.tail = none) ∧
      (∀ a, s.head = some a → (s.mem a).Prev = none) ∧
      (∀ a, s.tail = some a → (s.mem a).Next = none) ∧
      (∀ a ∈ nodes s, ∀ b, (s.mem a).Next = some b →
        b ∈ nodes s ∧ (s.mem b).Prev = some a) ∧
      (∀ a ∈ nodes s,
        (∃ c, (s.mem a).c = some c ∧ judge s.mapItem c = some a) ∨
        ((s.mem a).c = none ∧ (∀ c, judge s.mapItem c ≠ some a) ∧
          (a ∈ s.delQueue ∨ ∃ b ∈ s.clearing, a ∈ b))) ∧
      (∀ c a, judge s.mapItem c = some a → a ∈ nodes s ∧ (s.mem a).c = some c) := by
  obtain ⟨h, s, l, hreach, hI, _, hops, _⟩ := reach_spec ht ops
  have hn := nodes_eq hI
  refine ⟨h, s, hreach, hops, ?_, ?_, ?_, ?_, ?_, ?_, ?_, ?_, ?_⟩
  · rw [hn]; exact hI.nodup
  · rw [hn, hI.head_eq, headOr_eq_head?]
  · rw [hn, hI.tail_eq, lastOr_eq_getLast?]
  · rw [hI.head_eq, hI.tail_eq, headOr_none_iff, lastOr_none_iff]
  · intro a ha
    rw [hI.head_eq] at ha
    cases l with
    | nil => simp [headOr] at ha
    | cons x rest =>
      have hx : x = a := by simpa [headOr] using ha
      subst hx
      exact hI.seg.1
  · intro a ha
    rw [hI.tail_eq] at ha
    have hne : l ≠ [] := by
      intro e
      subst e
      simp [lastOr] at ha
    exact Seg_last_next l none none none hne hI.seg a ha
  · rw [hn]
    exact Seg_next_prev l none hI.seg
  · rw [hn]
    intro a ha
    cases hc : (s.mem a).c with
    | some c =>
      exact Or.inl ⟨c, rfl, judge_of_mem hI.keys_nodup (hI.map_complete a ha c hc)⟩
    | none =>
      refine Or.inr ⟨rfl, ?_, mem_tombs.1 (hI.tomb_complete a ha hc)⟩
      intro c hj
      have := (hI.map_sound c a (judge_some_mem hj)).2
      rw [hc] at this
      cases this
  · intro c a hj
    rw [hn]
    exact hI.map_sound c a (judge_some_mem hj)

/-- C19, at a concrete input: threshold 2; after three puts, two deletes (the second hands
the batch to `clear`), a third delete and a put, the items 0 to 3 are reachable, the items
0 and 1 wait in the batch handed to `clear` and the item 2 in the pending batch. -/
theorem C19_witness :
    (0 : Int) ≤ 2 ∧
    (∃ h s, reach 2 [Op.Put 5, Op.Put 6, Op.Put 7, Op.Delete 5, Op.Delete 6, Op.Delete 7,
        Op.Put 8] = some (h, s) ∧
      h.map Prod.fst = [Op.Put 5, Op.Put 6, Op.Put 7, Op.Delete 5, Op.Delete 6, Op.Delete 7,
        Op.Put 8] ∧
      (nodes s).Nodup ∧ s.head = (nodes s).head? ∧ s.tail = (nodes s).getLast? ∧
      (s.head = none ↔ s.tail = none) ∧
      (∀ a, s.head = some a → (s.mem a).Prev = none) ∧
      (∀ a, s.tail = some a → (s.mem a).Next = none) ∧
      (∀ a ∈ nodes s, ∀ b, (s.mem a).Next = some b →
        b ∈ nodes s ∧ (s.mem b).Prev = some a) ∧
      (∀ a ∈ nodes s,
        (∃ c, (s.mem a).c = some c ∧ judge s.mapItem c = some a) ∨
        ((s.mem a).c = none ∧ (∀ c, judge s.mapItem c ≠ some a) ∧
          (a ∈ s.delQueue ∨ ∃ b ∈ s.clearing, a ∈ b))) ∧
      (∀ c a, judge s.mapItem c = some a → a ∈ nodes s ∧ (s.mem a).c = some c)) ∧
    (reach 2 [Op.Put 5, Op.Put 6, Op.Put 7, Op.Delete 5, Op.Delete 6, Op.Delete 7,
        Op.Put 8]).map
      (fun r => (nodes r.2, r.2.head, r.2.tail))
      = some ([0, 1, 2, 3], some 0, some 3) ∧
    (reach 2 [Op.Put 5, Op.Put 6, Op.Put 7, Op.Delete 5, Op.Delete 6, Op.Delete 7,
        Op.Put 8]).map
      (fun r => (r.2.mapItem, r.2.delQueue, r.2.clearing))
      = some ([(8, 3)], [2], [[0, 1]]) :=
  ⟨by decide, C19_structural_invariant 2 (by decide) _, by decide!, by decide!⟩

/-! ## The loop of `Queue.Scan`, slot by slot -/

theorem delivered_length_le (message : Msg) (b : List Msg) (n : Nat) (hn : 1 ≤ n)
    (h : b.length ≤ n) : (delivered message b).length ≤ n := by
  cases b with
  | nil => simpa [delivered] using hn
  | cons x rest =>
    cases x with
    | flag f => simp only [delivered]; simp only [List.length_cons] at h; omega
    | val v => simpa [delivered] using h

theorem updateChan_eq (message : Msg) (cc : Nat) (q : Queue)
    (h : (q.chanMem cc).length ≤ 2) :
    q.updateChan message cc = some (!headFlag (q.chanMem cc),
      { q with chanMem := q.chanMem.write cc (delivered message (q.chanMem cc)) }) := by
  unfold Queue.updateChan
  cases hb : q.chanMem cc with
  | nil => simp [send, chanCap, headFlag, delivered]
  | cons x rest =>
    rw [hb] at h
    have hr : rest.length < 2 := by simp only [List.length_cons] at h; omega
    cases x with
    | flag f => simp [headFlag, delivered]
    | val v => simp [send, chanCap, hr, headFlag, delivered]

theorem markedAt_congr {m1 m2 : ChanMem} :
    ∀ (rcs : List Nat) (i : Nat), (∀ c ∈ rcs, m1 c = m2 c) →
      markedAt m1 rcs i = markedAt m2 rcs i := by
  intro rcs
  induction rcs with
  | nil => intro i _; rfl
  | cons c rest ih =>
    intro i h
    simp only [markedAt]
    rw [h c (by simp), ih (i + 1) (fun d hd => h d (List.mem_cons_of_mem _ hd))]

theorem unmarked_congr {m1 m2 : ChanMem} (rcs : List Nat) (h : ∀ c ∈ rcs, m1 c = m2 c) :
    unmarked m1 rcs = unmarked m2 rcs := by
  unfold unmarked
  apply List.filter_congr
  intro c hc
  rw [h c hc]

theorem deliverAll_nil (message : Msg) (mem : ChanMem) : deliverAll message [] mem = mem := by
  funext d
  simp [deliverAll]

theorem deliverAll_cons (message : Msg) (c : Nat) (rest : List Nat) (mem : ChanMem)
    (hc : c ∉ rest) :
    deliverAll message rest (mem.write c (delivered message (mem c)))
      = deliverAll message (c :: rest) mem := by
  funext d
  simp only [deliverAll, ChanMem.write, List.mem_cons]
  by_cases hd : d = c
  · subst hd
    simp [hc]
  · simp [hd]

/-- The loop of `Scan` over the slots `P ++ R`, when the handler returns false at each of
its calls for a slot of `P`: it comes to the slots `R` with `updateChan` run once on each
channel of `P`, the positions of the marked slots of `P` recorded, and one handler call
counted for each other slot of `P`. -/
theorem scanFrom_upto (message : Msg) (handler : Nat → Queue → Bool) (R : List Nat) :
    ∀ (P : List Nat) (i : Nat) (indexs : List Nat) (calls : Nat) (q : Queue),
      P.Nodup → (∀ c, (q.chanMem c).length ≤ 2) →
      (∀ j q1, calls ≤ j → j < calls + (unmarked q.chanMem P).length → handler j q1 = false) →
      Queue.scanFrom message handler (P ++ R) i indexs calls q
        = Queue.scanFrom message handler R (i + P.length) (indexs ++ markedAt q.chanMem P i)
            (calls + (unmarked q.chanMem P).length)
            { q with chanMem := deliverAll message P q.chanMem } := by
  intro P
  induction P with
  | nil =>
    intro i indexs calls q _ _ _
    simp [markedAt, unmarked, deliverAll_nil]
  | cons c rest ih =>
    intro i indexs calls q hnd hlen hh
    have hc : c ∉ rest := (List.nodup_cons.1 hnd).1
    have hrest : ∀ d ∈ rest, (q.chanMem.write c (delivered message (q.chanMem c))) d
        = q.chanMem d := by
      intro d hd
      exact ChanMem.write_off _ _ _ _ (fun e => hc (e ▸ hd))
    have hlen1 : ∀ d, ((q.chanMem.write c (delivered message (q.chanMem c))) d).length ≤ 2 := by
      intro d
      by_cases hd : d = c
      · subst hd
        rw [ChanMem.write_at]
        exact delivered_length_le _ _ 2 (by decide) (hlen d)
      · rw [ChanMem.write_off _ _ _ _ hd]
        exact hlen d
    have hm := markedAt_congr rest (i + 1) hrest
    have hu := unmarked_congr rest hrest
    have hd := deliverAll_cons message c rest q.chanMem hc
    rw [List.cons_append, Queue.scanFrom, updateChan_eq message c q (hlen c)]
    cases hf : headFlag (q.chanMem c) with
    | true =>
      have hmc : markedAt q.chanMem (c :: rest) i = i :: markedAt q.chanMem rest (i + 1) := by
        simp [markedAt, hf]
      have huc : unmarked q.chanMem (c :: rest) = unmarked q.chanMem rest := by
        simp [unmarked, hf]
      simp only [Bool.not_true]
      rw [ih (i + 1) (indexs ++ [i]) calls _ (List.nodup_cons.1 hnd).2 hlen1]
      · dsimp only
        rw [hm, hu, hd, hmc, huc, List.length_cons, List.append_assoc, List.singleton_append,
          Nat.add_assoc, Nat.add_comm 1 rest.length]
      · intro j q1 h1 h2
        apply hh j q1 h1
        rw [huc]
        rw [hu] at h2
        exact h2
    | false =>
      have hmc : markedAt q.chanMem (c :: rest) i = markedAt q.chanMem rest (i + 1) := by
        simp [markedAt, hf]
      have huc : (unmarked q.chanMem (c :: rest)).length
          = (unmarked q.chanMem rest).length + 1 := by
        simp [unmarked, hf]
      simp only [Bool.not_false]
      have hcall : handler calls
          { q with chanMem := q.chanMem.write c (delivered message (q.chanMem c)) } = false := by
        apply hh calls _ (le_refl _)
        omega
      rw [hcall]
      simp only [Bool.false_eq_true, if_false]
      rw [ih (i + 1) indexs (calls + 1) _ (List.nodup_cons.1 hnd).2 hlen1]
      · dsimp only
        rw [hm, hu, hd, hmc, huc, List.length_cons,
          Nat.add_assoc, Nat.add_comm 1 rest.length, Nat.add_assoc,
          Nat.add_comm 1 (unmarked q.chanMem rest).length]
      · intro j q1 h1 h2
        apply hh j q1 (by omega)
        rw [huc]
        rw [hu] at h2
        omega
/-- The loop of `Scan` when the handler never returns true within it. -/
theorem scanFrom_run (message : Msg) (handler : Nat → Queue → Bool)
    (P : List Nat) (i : Nat) (indexs : List Nat) (calls : Nat) (q : Queue)
    (hnd : P.Nodup) (hlen : ∀ c, (q.chanMem c).length ≤ 2)
    (hh : ∀ j q1, calls ≤ j → j < calls + (unmarked q.chanMem P).length →
      handler j q1 = false) :
    Queue.scanFrom message handler P i indexs calls q
      = some (Queue.judgeGC (indexs ++ markedAt q.chanMem P i)
            { q with chanMem := deliverAll message P q.chanMem },
          calls + (unmarked q.chanMem P).length) := by
  have h := scanFrom_upto message handler [] P i indexs calls q hnd hlen hh
  rw [List.append_nil] at h
  rw [h, Queue.scanFrom]

/-- The loop of `Scan`, whatever the handler returns: it returns, and each channel is left
as it was or, for a slot of `rcs`, as `updateChan` leaves it. -/
theorem scanFrom_touch (message : Msg) (handler : Nat → Queue → Bool) :
    ∀ (rcs : List Nat) (i : Nat) (indexs : List Nat) (calls : Nat) (q : Queue),
      rcs.Nodup → (∀ c, (q.chanMem c).length ≤ 2) →
      ∃ q2 k, Queue.scanFrom message handler rcs i indexs calls q = some (q2, k) ∧
        ∀ d, q2.chanMem d = q.chanMem d ∨
          (d ∈ rcs ∧ q2.chanMem d = delivered message (q.chanMem d)) := by
  intro rcs
  induction rcs with
  | nil =>
    intro i indexs calls q _ _
    exact ⟨_, _, rfl, fun d => Or.inl (by rw [(judgeGC_frame indexs q).1])⟩
  | cons c rest ih =>
    intro i indexs calls q hnd hlen
    have hc : c ∉ rest := (List.nodup_cons.1 hnd).1
    have hlen1 : ∀ d, ((q.chanMem.write c (delivered message (q.chanMem c))) d).length ≤ 2 := by
      intro d
      by_cases hd : d = c
      · subst hd
        rw [ChanMem.write_at]
        exact delivered_length_le _ _ 2 (by decide) (hlen d)
      · rw [ChanMem.write_off _ _ _ _ hd]
        exact hlen d
    have key : ∀ (q2 : Queue),
        (∀ d, q2.chanMem d = (q.chanMem.write c (delivered message (q.chanMem c))) d ∨
          (d ∈ rest ∧ q2.chanMem d
            = delivered message ((q.chanMem.write c (delivered message (q.chanMem c))) d))) →
        ∀ d, q2.chanMem d = q.chanMem d ∨
          (d ∈ c :: rest ∧ q2.chanMem d = delivered message (q.chanMem d)) := by
      intro q2 h d
      by_cases hd : d = c
      · subst hd
        rcases h d with h1 | h1
        · rw [ChanMem.write_at] at h1
          exact Or.inr ⟨by simp, h1⟩
        · exact absurd h1.1 hc
      · rcases h d with h1 | h1
        · rw [ChanMem.write_off _ _ _ _ hd] at h1
          exact Or.inl h1
        · rw [ChanMem.write_off _ _ _ _ hd] at h1
          exact Or.inr ⟨List.mem_cons_of_mem _ h1.1, h1.2⟩
    rw [Queue.scanFrom, updateChan_eq message c q (hlen c)]
    cases hf : headFlag (q.chanMem c) with
    | true =>
      simp only [Bool.not_true]
      obtain ⟨q2, k, hs, hm⟩ := ih (i + 1) (indexs ++ [i]) calls
        { q with chanMem := q.chanMem.write c (delivered message (q.chanMem c)) }
        (List.nodup_cons.1 hnd).2 hlen1
      exact ⟨q2, k, hs, key q2 hm⟩
    | false =>
      simp only [Bool.not_false]
      cases hcall : handler calls
          { q with chanMem := q.chanMem.write c (delivered message (q.chanMem c)) } with
      | true =>
        simp only [if_true]
        refine ⟨_, _, rfl, key _ (fun d => Or.inl ?_)⟩
        rw [(judgeGC_frame indexs _).1]
      | false =>
        simp only [Bool.false_eq_true, if_false]
        obtain ⟨q2, k, hs, hm⟩ := ih (i + 1) indexs (calls + 1)
          { q with chanMem := q.chanMem.write c (delivered message (q.chanMem c)) }
          (List.nodup_cons.1 hnd).2 hlen1
        exact ⟨q2, k, hs, key q2 hm⟩
/-- A scan of a valid queue whose array holds distinct channels, none with more than two
elements: it returns; each channel is left as it was or, for a slot of the array, as
`updateChan` leaves it; and `updateChan` has run on every slot of the array when the
handler never returns true. -/
theorem Scan_delivers (message : Msg) (handler : Nat → Queue → Bool) (q : Queue)
    (hv : q.invalid = false) (hnd : q.qchan.Nodup) (hlen : ∀ c, (q.chanMem c).length ≤ 2) :
    ∃ q2 calls, q.Scan message handler = some (q2, calls) ∧
      (∀ d, q2.chanMem d = q.chanMem d ∨
        (d ∈ q.qchan ∧ q2.chanMem d = delivered message (q.chanMem d))) ∧
      ((∀ j q1, handler j q1 = false) →
        ∀ d, d ∈ q.qchan → q2.chanMem d = delivered message (q.chanMem d)) := by
  obtain ⟨q2, k, hs, hm⟩ := scanFrom_touch message handler q.qchan 0 [] 0
    { q with used := wrap32 (q.used + 1) } hnd hlen
  refine ⟨{ q2 with used := wrap32 (q2.used - 1) }, k, ?_, hm, ?_⟩
  · unfold Queue.Scan
    simp only [hv, Bool.false_eq_true, if_false]
    rw [hs]
  · intro hh d hd
    have hr := scanFrom_run message handler q.qchan 0 [] 0
      { q with used := wrap32 (q.used + 1) } hnd hlen (fun j q1 _ _ => hh j q1)
    rw [hs] at hr
    have hq2 := congrArg Prod.fst (Option.some.inj hr)
    dsimp only at hq2
    show q2.chanMem d = _
    rw [hq2, (judgeGC_frame _ _).1]
    simp [deliverAll, hd]


/-! ## What `gc` and `Destory` keep -/

theorem gcLocked_keeps {g : List Nat} {q q1 : Queue} (h : Queue.gcLocked g q = some q1) :
    q1 = { q with qchan := q1.qchan } := by
  unfold Queue.gcLocked at h
  dsimp only at h
  split at h
  · cases h
  · split at h
    · cases h
    · cases h; rfl

theorem gc_keeps {g : List Nat} {q q1 : Queue} (h : Queue.gc g q = some q1) :
    q1.used = 0 ∧ q1.valid = q.valid := by
  unfold Queue.gc at h
  cases hl : Queue.gcLocked g q with
  | none => rw [hl] at h; cases h
  | some q2 =>
    rw [hl] at h
    cases h
    have := gcLocked_keeps hl
    exact ⟨rfl, by show q2.valid = q.valid; rw [this]⟩

theorem runTasks_keeps :
    ∀ (ts : List (List Nat)) (q q1 : Queue), runTasks ts q = some q1 →
      q1.valid = q.valid := by
  intro ts
  induction ts with
  | nil => intro q q1 h; rw [runTasks] at h; cases h; rfl
  | cons g rest ih =>
    intro q q1 h
    rw [runTasks] at h
    cases hg : Queue.gc g q with
    | none => rw [hg] at h; cases h
    | some q2 =>
      rw [hg] at h
      exact (ih q2 q1 h).trans (gc_keeps hg).2

theorem foldl_putChan_keeps :
    ∀ (cs : List Nat) (q : Queue),
      (cs.foldl (fun acc c => putChan c acc) q).valid = q.valid ∧
      (cs.foldl (fun acc c => putChan c acc) q).used = q.used := by
  intro cs
  induction cs with
  | nil => intro q; exact ⟨rfl, rfl⟩
  | cons c rest ih =>
    intro q
    rw [List.foldl_cons]
    obtain ⟨e1, e2⟩ := ih (putChan c q)
    exact ⟨e1, e2⟩

theorem Destory_keeps {q q1 : Queue} (h : q.Destory = some q1) : q1.valid = 1 := by
  unfold Queue.Destory at h
  by_cases hv : q.invalid = true
  · rw [if_pos hv] at h
    cases h
    simpa [Queue.invalid] using hv
  · rw [if_neg hv] at h
    cases hr : runTasks q.gcTasks
        (Queue.finishStores { q with valid := 1, gcTasks := [] }) with
    | none => rw [hr] at h; cases h
    | some q2 =>
      rw [hr] at h
      cases h
      have e1 := runTasks_keeps _ _ _ hr
      exact (foldl_putChan_keeps q2.qchan q2).1.trans e1

theorem gcLoop_length (last : Int) :
    ∀ (g : List Nat) (i : Nat) (qchan qc : List Nat),
      gcLoop last g i qchan = some qc → qc.length = qchan.length := by
  intro g
  induction g with
  | nil => intro i qchan qc h; rw [gcLoop] at h; cases h; rfl
  | cons pos rest ih =>
    intro i qchan qc h
    rw [gcLoop] at h
    split at h
    · cases h
    · split at h
      · cases h
      · split at h
        · rw [ih _ _ _ h, List.length_set]
        · cases h


/-! ## The invariant of a queue under all steps -/

/-- The loop of `gc` copies elements of the array: what it leaves at the positions below
`K`, the bound of the final slice expression, are distinct channels when the array held
distinct channels, and all of them were in the array. -/
theorem gcLoop_inj (last : Int) (K : Nat) :
    ∀ (g : List Nat) (i : Nat) (L R : List Nat), gcLoop last g i L = some R →
      last = (K : Int) + (i : Int) + (g.length : Int) →
      (∀ a b c, (a < K ∨ (K < a ∧ (a : Int) ≤ last - (i : Int))) →
        (b < K ∨ (K < b ∧ (b : Int) ≤ last - (i : Int))) →
        L[a]? = some c → L[b]? = some c → a = b) →
      (∀ a b c, a < K → b < K → R[a]? = some c → R[b]? = some c → a = b) ∧
      (∀ c ∈ R, c ∈ L) := by
  intro g
  induction g with
  | nil =>
    intro i L R h hl hinj
    rw [gcLoop] at h
    cases h
    exact ⟨fun a b c ha hb => hinj a b c (Or.inl ha) (Or.inl hb), fun c hc => hc⟩
  | cons pos rest ih =>
    intro i L R h hl hinj
    rw [gcLoop] at h
    simp only [List.length_cons] at hl
    split at h
    · cases h
    · split at h
      · cases h
      · rename_i x hx
        split at h
        · rename_i hpos
          have hs : (last - (i : Int)).toNat = K + rest.length + 1 := by omega
          rw [hs] at hx
          have hsI : K < K + rest.length + 1 ∧
              ((K + rest.length + 1 : Nat) : Int) ≤ last - (i : Int) := by
            constructor
            · omega
            · push_cast; omega
          obtain ⟨h1, h2⟩ := ih (i + 1) (L.set pos x) R h (by push_cast; omega) (by
            intro a b c ha hb hac hbc
            have ha1 : a < K ∨ (K < a ∧ (a : Int) ≤ last - (i : Int)) := by
              rcases ha with ha | ha
              · exact Or.inl ha
              · exact Or.inr ⟨ha.1, by have := ha.2; push_cast at this; omega⟩
            have hb1 : b < K ∨ (K < b ∧ (b : Int) ≤ last - (i : Int)) := by
              rcases hb with hb | hb
              · exact Or.inl hb
              · exact Or.inr ⟨hb.1, by have := hb.2; push_cast at this; omega⟩
            have hane : a ≠ K + rest.length + 1 := by
              rcases ha with ha | ha
              · omega
              · have := ha.2; push_cast at this; omega
            have hbne : b ≠ K + rest.length + 1 := by
              rcases hb with hb | hb
              · omega
              · have := hb.2; push_cast at this; omega
            rw [List.getElem?_set] at hac hbc
            by_cases hpa : pos = a
            · by_cases hpb : pos = b
              · exact hpa.symm.trans hpb
              · rw [if_pos hpa] at hac
                rw [if_neg hpb] at hbc
                have hcx : c = x := by
                  split at hac <;> exact (Option.some.inj hac).symm
                exact absurd (hinj b _ c hb1 (Or.inr hsI) hbc (hcx ▸ hx)) hbne
            · by_cases hpb : pos = b
              · rw [if_neg hpa] at hac
                rw [if_pos hpb] at hbc
                have hcx : c = x := by
                  split at hbc <;> exact (Option.some.inj hbc).symm
                exact absurd (hinj a _ c ha1 (Or.inr hsI) hac (hcx ▸ hx)) hane
              · rw [if_neg hpa] at hac
                rw [if_neg hpb] at hbc
                exact hinj a b c ha1 hb1 hac hbc)
          refine ⟨h1, ?_⟩
          intro c hc
          rcases List.mem_or_eq_of_mem_set (h2 c hc) with h3 | h3
          · exact h3
          · exact h3 ▸ List.getElem?_mem hx
        · cases h

/-- The part of `gc` under `qlock` changes the array only; what it leaves are distinct
channels when the array held distinct channels, all of them from the array. -/
theorem gcLocked_spec {g : List Nat} {q q1 : Queue} (h : Queue.gcLocked g q = some q1)
    (hnd : q.qchan.Nodup) :
    q1.qchan.Nodup ∧ (∀ c ∈ q1.qchan, c ∈ q.qchan) ∧ q1 = { q with qchan := q1.qchan } := by
  refine ⟨?_, ?_, gcLocked_keeps h⟩
  all_goals
    unfold Queue.gcLocked at h
    dsimp only at h
    split at h
    · cases h
    · rename_i R hloop
      split at h
      · cases h
      · rename_i hb
        cases h
        obtain ⟨h1, h2⟩ := gcLoop_inj ((q.qchan.length : Int) - 1)
          ((q.qchan.length : Int) - 1 - (g.length : Int)).toNat g 0 q.qchan R hloop
          (by push_cast; omega)
          (fun a b c _ _ hac hbc => getElem?_inj_of_nodup hnd hac hbc)
        first
        | (show (R.take _).Nodup
           rw [List.nodup_iff_getElem?_ne_getElem?]
           intro a b hab hbl hne
           rw [List.length_take] at hbl
           have hbK : b < ((q.qchan.length : Int) - 1 - (g.length : Int)).toNat :=
             lt_of_lt_of_le hbl (min_le_left _ _)
           have hbR : b < R.length := lt_of_lt_of_le hbl (min_le_right _ _)
           rw [List.getElem?_take, List.getElem?_take, if_pos hbK,
             if_pos (lt_trans hab hbK)] at hne
           have hbc : R[b]? = some R[b] := List.getElem?_eq_getElem hbR
           exact absurd (h1 a b _ (lt_trans hab hbK) hbK (hne.trans hbc) hbc)
             (Nat.ne_of_lt hab))
        | (intro c hc
           exact h2 c (List.mem_of_mem_take hc))

theorem gc_spec {g : List Nat} {q q1 : Queue} (h : Queue.gc g q = some q1)
    (hnd : q.qchan.Nodup) :
    q1.qchan.Nodup ∧ (∀ c ∈ q1.qchan, c ∈ q.qchan) ∧ q1.chanMem = q.chanMem ∧
      q1.nextChan = q.nextChan ∧ q1.chanPool = q.chanPool ∧ q1.valid = q.valid := by
  unfold Queue.gc at h
  cases hl : Queue.gcLocked g q with
  | none => rw [hl] at h; cases h
  | some q2 =>
    rw [hl] at h
    cases h
    obtain ⟨h1, h2, h3⟩ := gcLocked_spec hl hnd
    refine ⟨h1, h2, ?_, ?_, ?_, ?_⟩
    · show q2.chanMem = _; rw [h3]
    · show q2.nextChan = _; rw [h3]
    · show q2.chanPool = _; rw [h3]
    · show q2.valid = _; rw [h3]

theorem runTasks_spec :
    ∀ (ts : List (List Nat)) (q q1 : Queue), runTasks ts q = some q1 → q.qchan.Nodup →
      q1.qchan.Nodup ∧ (∀ c ∈ q1.qchan, c ∈ q.qchan) ∧ q1.chanMem = q.chanMem ∧
        q1.nextChan = q.nextChan ∧ q1.chanPool = q.chanPool ∧ q1.valid = q.valid := by
  intro ts
  induction ts with
  | nil =>
    intro q q1 h hnd
    rw [runTasks] at h
    cases h
    exact ⟨hnd, fun c hc => hc, rfl, rfl, rfl, rfl⟩
  | cons g rest ih =>
    intro q q1 h hnd
    rw [runTasks] at h
    cases hg : Queue.gc g q with
    | none => rw [hg] at h; cases h
    | some q2 =>
      rw [hg] at h
      obtain ⟨a1, a2, a3, a4, a5, a6⟩ := gc_spec hg hnd
      obtain ⟨b1, b2, b3, b4, b5, b6⟩ := ih q2 q1 h a1
      exact ⟨b1, fun c hc => a2 c (b2 c hc), b3.trans a3, b4.trans a4, b5.trans a5,
        b6.trans a6⟩

/-- The loop of `Destory` over the array: every channel of the array is put into the
pool, with one element less when it held one. -/
theorem foldl_putChan_spec :
    ∀ (cs : List Nat) (q : Queue),
      (cs.foldl (fun acc c => putChan c acc) q).valid = q.valid ∧
      (cs.foldl (fun acc c => putChan c acc) q).nextChan = q.nextChan ∧
      (cs.foldl (fun acc c => putChan c acc) q).qchan = q.qchan ∧
      (cs.foldl (fun acc c => putChan c acc) q).chanPool = cs.reverse ++ q.chanPool ∧
      (∀ c, ((cs.foldl (fun acc c => putChan c acc) q).chanMem c).length
        ≤ (q.chanMem c).length) ∧
      (∀ c ∈ cs, ((cs.foldl (fun acc c => putChan c acc) q).chanMem c).length
        ≤ (q.chanMem c).length - 1) := by
  intro cs
  induction cs with
  | nil =>
    intro q
    exact ⟨rfl, rfl, rfl, rfl, fun c => le_refl _, fun c hc => by cases hc⟩
  | cons d rest ih =>
    intro q
    rw [List.foldl_cons]
    obtain ⟨e1, e2, e3, e4, e5, e6⟩ := ih (putChan d q)
    have hput : ∀ c, ((putChan d q).chanMem c).length ≤ (q.chanMem c).length := by
      intro c
      show ((q.chanMem.write d (q.chanMem d).tail) c).length ≤ _
      by_cases hc : c = d
      · subst hc
        rw [ChanMem.write_at]
        simp
      · rw [ChanMem.write_off _ _ _ _ hc]
    refine ⟨e1, e2, e3, ?_, fun c => le_trans (e5 c) (hput c), ?_⟩
    · rw [e4]
      show rest.reverse ++ (d :: q.chanPool) = _
      simp
    · intro c hc
      by_cases hcd : c = d
      · subst hcd
        refine le_trans (e5 c) ?_
        show ((q.chanMem.write c (q.chanMem c).tail) c).length ≤ _
        rw [ChanMem.write_at]
        simp
      · have hcr : c ∈ rest := by
          rcases List.mem_cons.1 hc with h | h
          · exact absurd h hcd
          · exact h
        have := e6 c hcr
        have := hput c
        omega

/-- The invariant goes over to a state in which no channel has grown beyond one element,
the array holds distinct channels of the array before, and the pool is the same. -/
theorem QWf_of_le {q q1 : Queue} {nc : List (Option Nat)} {gone : List Nat}
    (hW : QWf q nc gone)
    (hmem : ∀ c, (q1.chanMem c).length ≤ max 1 (q.chanMem c).length)
    (hnd : q1.qchan.Nodup) (hsub : ∀ c ∈ q1.qchan, c ∈ q.qchan)
    (hnext : q1.nextChan = q.nextChan) (hpool : q1.chanPool = q.chanPool)
    (hvalid : q1.valid = q.valid) : QWf q1 nc gone := by
  have hone : ∀ c, (q.chanMem c).length ≤ 1 → (q1.chanMem c).length ≤ 1 := by
    intro c h
    exact le_trans (hmem c) (max_le (le_refl _) h)
  constructor
  · intro c
    exact le_trans (hmem c) (max_le (by norm_num) (hW.cap c))
  · exact hnd
  · intro c hc
    exact hW.qchan_handed c (hsub c hc)
  · intro c hc
    rw [hnext]
    exact hW.handed_lt c hc
  · exact hW.gone_handed
  · intro c hc hg
    exact hone c (hW.live_len c hc hg)
  · rw [hpool]; exact hW.pool_nodup
  · rw [hpool, hnext]; exact hW.pool_lt
  · intro c hc
    rw [hpool] at hc
    exact hone c (hW.pool_len c hc)
  · intro hv c hc
    rw [hpool] at hc
    exact hW.pool_new (by simpa [Queue.invalid, hvalid] using hv) c hc

/-- A `Scan` on a queue whose channels hold at most two elements each returns, and leaves
the array, the pool and `valid` as they were; no channel grows beyond one element. -/
theorem Scan_frame (message : Msg) (handler : Nat → Queue → Bool) (q : Queue)
    (hlen : ∀ c, (q.chanMem c).length ≤ 2) :
    ∃ q2 k, q.Scan message handler = some (q2, k) ∧
      q2.nextChan = q.nextChan ∧ q2.chanPool = q.chanPool ∧ q2.qchan = q.qchan ∧
      q2.valid = q.valid ∧
      (∀ c, (q2.chanMem c).length ≤ max 1 (q.chanMem c).length) := by
  unfold Queue.Scan
  by_cases hv : q.invalid = true
  · rw [if_pos hv]
    exact ⟨q, 0, rfl, rfl, rfl, rfl, rfl, fun c => le_max_right _ _⟩
  · rw [if_neg hv]
    obtain ⟨q2, k, hs, h1, h2, _, h4, _, h6, _, h8⟩ :=
      scanFrom_frame message handler q.qchan 0 [] 0
        { q with used := wrap32 (q.used + 1) } hlen
    dsimp only
    rw [hs]
    exact ⟨_, k, rfl, h1, h2, h4, h6, h8⟩

/-- A `Scan` with the store of `used` by a gc goroutine inside it is a `Scan` from a state
that has the same channels, array, pool and garbage. -/
theorem ScanAcross_eq (message : Msg) (handler : Nat → Queue → Bool) (q : Queue) :
    ∃ q1 : Queue, q.ScanAcross message handler = q1.Scan message handler ∧
      q1.chanMem = q.chanMem ∧ q1.qchan = q.qchan ∧ q1.valid = q.valid ∧
      q1.nextChan = q.nextChan ∧ q1.chanPool = q.chanPool ∧ q1.garbage = q.garbage ∧
      q1.size = q.size ∧ q1.gcRunning = q.gcRunning ∧ q1.gcTasks = q.gcTasks := by
  by_cases hv : q.invalid = true
  · refine ⟨q, ?_, rfl, rfl, rfl, rfl, rfl, rfl, rfl, rfl, rfl⟩
    unfold Queue.ScanAcross Queue.Scan
    rw [if_pos hv, if_pos hv]
  · by_cases h0 : q.atStoreUsed = 0
    · refine ⟨q, ?_, rfl, rfl, rfl, rfl, rfl, rfl, rfl, rfl, rfl⟩
      unfold Queue.ScanAcross
      rw [if_neg hv, if_pos h0]
    · refine ⟨{ q with
          used := -1
          atStoreUsed := q.atStoreUsed - 1
          atStoreRunning := q.atStoreRunning + 1 }, ?_, rfl, rfl, rfl, rfl, rfl, rfl, rfl,
        rfl, rfl⟩
      have hv2 : ({ q with
          used := -1
          atStoreUsed := q.atStoreUsed - 1
          atStoreRunning := q.atStoreRunning + 1 } : Queue).invalid = q.invalid := rfl
      unfold Queue.ScanAcross Queue.Scan
      rw [if_neg hv, if_neg h0, hv2, if_neg hv]
      have hw : wrap32 ((-1 : Int) + 1) = 0 := by decide
      simp only [Queue.storeUsed, hw]

theorem QWf_append_none {q : Queue} {nc : List (Option Nat)} {gone : List Nat}
    (hW : QWf q nc gone) : QWf q (nc ++ [none]) gone := by
  have hiff : ∀ c : Nat, some c ∈ nc ++ [none] ↔ some c ∈ nc := by
    intro c; simp
  constructor
  · exact hW.cap
  · exact hW.qchan_nodup
  · intro c hc; exact (hiff c).2 (hW.qchan_handed c hc)
  · intro c hc; exact hW.handed_lt c ((hiff c).1 hc)
  · intro c hc; exact (hiff c).2 (hW.gone_handed c hc)
  · intro c hc hg; exact hW.live_len c ((hiff c).1 hc) hg
  · exact hW.pool_nodup
  · exact hW.pool_lt
  · exact hW.pool_len
  · intro hv c hc h; exact hW.pool_new hv c hc ((hiff c).1 h)

/-- The method `GetNode` keeps the invariant. -/
theorem GetNode_QWf {q : Queue} {nc : List (Option Nat)} {gone : List Nat}
    (hW : QWf q nc gone) : QWf q.GetNode.2 (nc ++ [q.GetNode.1]) gone := by
  unfold Queue.GetNode
  by_cases hv : q.invalid = true
  · rw [if_pos hv]; exact QWf_append_none hW
  · rw [if_neg hv]
    by_cases hu : q.used ≠ 0
    · rw [if_pos hu]; exact QWf_append_none hW
    · rw [if_neg hu]
      have hvf : q.invalid = false := by simpa using hv
      have hmem : ∀ c d : Nat, some d ∈ nc ++ [some c] ↔ some d ∈ nc ∨ d = c := by
        intro c d; simp
      have hpn := hW.pool_nodup
      have hpl := hW.pool_lt
      have hpe := hW.pool_len
      have hpw := hW.pool_new hvf
      unfold chanGet
      cases hp : q.chanPool with
      | nil =>
        dsimp only
        constructor
        · intro d
          show ((q.chanMem.write q.nextChan []) d).length ≤ 2
          by_cases hd : d = q.nextChan
          · subst hd; rw [ChanMem.write_at]; simp
          · rw [ChanMem.write_off _ _ _ _ hd]; exact hW.cap d
        · show (q.qchan ++ [q.nextChan]).Nodup
          rw [List.nodup_append]
          refine ⟨hW.qchan_nodup, List.nodup_singleton _, ?_⟩
          intro a ha hb
          have hbn : a = q.nextChan := by simpa using hb
          have := hW.handed_lt a (hW.qchan_handed a ha)
          omega
        · intro d hd
          have hd2 : d ∈ q.qchan ++ [q.nextChan] := hd
          rw [hmem]
          rcases List.mem_append.1 hd2 with h | h
          · exact Or.inl (hW.qchan_handed d h)
          · exact Or.inr (by simpa using h)
        · intro d hd
          show d < q.nextChan + 1
          rcases (hmem _ d).1 hd with h | h
          · exact Nat.lt_succ_of_lt (hW.handed_lt d h)
          · omega
        · intro d hd
          exact (hmem _ d).2 (Or.inl (hW.gone_handed d hd))
        · intro d hd hg
          show ((q.chanMem.write q.nextChan []) d).length ≤ 1
          by_cases hdn : d = q.nextChan
          · subst hdn; rw [ChanMem.write_at]; simp
          · rw [ChanMem.write_off _ _ _ _ hdn]
            rcases (hmem _ d).1 hd with h | h
            · exact hW.live_len d h hg
            · exact absurd h hdn
        · exact List.nodup_nil
        · intro d hd; cases hd
        · intro d hd; cases hd
        · intro _ d hd; cases hd
      | cons c rest =>
        dsimp only
        rw [hp] at hpn hpl hpe hpw
        have hcr : c ∉ rest := (List.nodup_cons.1 hpn).1
        constructor
        · exact hW.cap
        · show (q.qchan ++ [c]).Nodup
          rw [List.nodup_append]
          refine ⟨hW.qchan_nodup, List.nodup_singleton _, ?_⟩
          intro a ha hb
          have hbn : a = c := by simpa using hb
          exact hpw c (List.mem_cons_self _ _) (hbn ▸ hW.qchan_handed a ha)
        · intro d hd
          have hd2 : d ∈ q.qchan ++ [c] := hd
          rw [hmem]
          rcases List.mem_append.1 hd2 with h | h
          · exact Or.inl (hW.qchan_handed d h)
          · exact Or.inr (by simpa using h)
        · intro d hd
          show d < q.nextChan
          rcases (hmem _ d).1 hd with h | h
          · exact hW.handed_lt d h
          · exact h ▸ hpl c (List.mem_cons_self _ _)
        · intro d hd
          exact (hmem _ d).2 (Or.inl (hW.gone_handed d hd))
        · intro d hd hg
          show (q.chanMem d).length ≤ 1
          rcases (hmem _ d).1 hd with h | h
          · exact hW.live_len d h hg
          · exact h ▸ hpe c (List.mem_cons_self _ _)
        · exact (List.nodup_cons.1 hpn).2
        · intro d hd
          exact hpl d (List.mem_cons_of_mem _ hd)
        · intro d hd
          exact hpe d (List.mem_cons_of_mem _ hd)
        · intro _ d hd h
          have hd2 : d ∈ rest := hd
          rcases (hmem _ d).1 h with h | h
          · exact hpw d (List.mem_cons_of_mem _ hd2) h
          · exact hcr (h ▸ hd2)

/-- The method `DiscardNode` keeps the invariant, with the channel added to those
discarded. -/
theorem DiscardNode_QWf {q q1 : Queue} {nc : List (Option Nat)} {gone : List Nat}
    {schan : Option Nat} (hW : QWf q nc gone) (hnc : schan ∈ nc)
    (h : q.DiscardNode schan = some q1) :
    ∃ gone1, QWf q1 nc gone1 ∧ ∀ c ∈ gone1, c ∈ gone ∨ schan = some c := by
  unfold Queue.DiscardNode at h
  by_cases hv : q.invalid = true
  · rw [if_pos hv] at h
    cases h
    exact ⟨gone, hW, fun c hc => Or.inl hc⟩
  · rw [if_neg hv] at h
    have hvf : q.invalid = false := by simpa using hv
    cases schan with
    | none => cases h
    | some c =>
      dsimp only at h
      unfold send at h
      by_cases hl : (q.chanMem c).length < chanCap
      · rw [if_pos hl] at h
        cases h
        have hl2 : (q.chanMem c).length < 2 := hl
        refine ⟨c :: gone, ?_, ?_⟩
        · constructor
          · intro d
            show ((q.chanMem.write c _) d).length ≤ 2
            by_cases hd : d = c
            · subst hd; rw [ChanMem.write_at]; simp; omega
            · rw [ChanMem.write_off _ _ _ _ hd]; exact hW.cap d
          · exact hW.qchan_nodup
          · exact hW.qchan_handed
          · exact hW.handed_lt
          · intro d hd
            rcases List.mem_cons.1 hd with h | h
            · exact h ▸ hnc
            · exact hW.gone_handed d h
          · intro d hd hg
            have hdc : d ≠ c := fun e => hg (e ▸ List.mem_cons_self _ _)
            show ((q.chanMem.write c _) d).length ≤ 1
            rw [ChanMem.write_off _ _ _ _ hdc]
            exact hW.live_len d hd (fun h => hg (List.mem_cons_of_mem _ h))
          · exact hW.pool_nodup
          · exact hW.pool_lt
          · intro d hd
            have hdc : d ≠ c := fun e => hW.pool_new hvf d hd (e ▸ hnc)
            show ((q.chanMem.write c _) d).length ≤ 1
            rw [ChanMem.write_off _ _ _ _ hdc]
            exact hW.pool_len d hd
          · intro _ d hd
            exact hW.pool_new hvf d hd
        · intro d hd
          rcases List.mem_cons.1 hd with h | h
          · exact Or.inr (by rw [h])
          · exact Or.inl h
      · rw [if_neg hl] at h
        cases h

/-- The method `Destory` keeps the invariant: the channels of the array go into the pool,
each with at most one element. -/
theorem Destory_QWf {q q1 : Queue} {nc : List (Option Nat)} {gone : List Nat}
    (hW : QWf q nc gone) (h : q.Destory = some q1) : QWf q1 nc gone := by
  unfold Queue.Destory at h
  by_cases hv : q.invalid = true
  · rw [if_pos hv] at h
    cases h
    exact hW
  · rw [if_neg hv] at h
    have hvf : q.invalid = false := by simpa using hv
    cases hr : runTasks q.gcTasks
        (Queue.finishStores { q with valid := 1, gcTasks := [] }) with
    | none => rw [hr] at h; cases h
    | some q2 =>
      rw [hr] at h
      cases h
      obtain ⟨a1, a2, a3, a4, a5, a6⟩ := runTasks_spec _ _ _ hr hW.qchan_nodup
      obtain ⟨e1, e2, e3, e4, e5, e6⟩ := foldl_putChan_spec q2.qchan q2
      have a2q : ∀ c ∈ q2.qchan, c ∈ q.qchan := a2
      have a3q : q2.chanMem = q.chanMem := a3
      have a4q : q2.nextChan = q.nextChan := a4
      have a5q : q2.chanPool = q.chanPool := a5
      have a6q : q2.valid = 1 := a6
      have hle : ∀ c, ((q2.qchan.foldl (fun acc c => putChan c acc) q2).chanMem c).length
          ≤ (q.chanMem c).length := by
        intro c
        have := e5 c
        rw [a3q] at this
        exact this
      constructor
      · intro c
        exact le_trans (hle c) (hW.cap c)
      · rw [e3]; exact a1
      · intro c hc
        rw [e3] at hc
        exact hW.qchan_handed c (a2q c hc)
      · intro c hc
        rw [e2, a4q]
        exact hW.handed_lt c hc
      · exact hW.gone_handed
      · intro c hc hg
        exact le_trans (hle c) (hW.live_len c hc hg)
      · rw [e4, a5q, List.nodup_append]
        refine ⟨List.nodup_reverse.2 a1, hW.pool_nodup, ?_⟩
        intro a ha hb
        have ha2 : a ∈ q2.qchan := List.mem_reverse.1 ha
        exact hW.pool_new hvf a hb (hW.qchan_handed a (a2q a ha2))
      · intro c hc
        rw [e4, a5q] at hc
        rw [e2, a4q]
        rcases List.mem_append.1 hc with h | h
        · exact hW.handed_lt c (hW.qchan_handed c (a2q c (List.mem_reverse.1 h)))
        · exact hW.pool_lt c h
      · intro c hc
        rw [e4, a5q] at hc
        rcases List.mem_append.1 hc with h | h
        · have := e6 c (List.mem_reverse.1 h)
          rw [a3q] at this
          have := hW.cap c
          omega
        · exact le_trans (hle c) (hW.pool_len c h)
      · intro hv2
        have : (q2.qchan.foldl (fun acc c => putChan c acc) q2).valid = 1 := e1.trans a6q
        simp [Queue.invalid, this] at hv2

theorem discardedChans_head {o : QOp} {os : List QOp} {nc t : List (Option Nat)} {c : Nat}
    (h : c ∈ discardedChans [o] nc) : c ∈ discardedChans (o :: os) (nc ++ t) := by
  cases o with
  | DiscardNode i =>
    simp only [discardedChans] at h
    split at h
    · rename_i d hd
      have hcd : c = d := by simpa using h
      subst hcd
      have hi : i < nc.length := by
        rcases Nat.lt_or_ge i nc.length with h1 | h1
        · exact h1
        · rw [List.getElem?_eq_none h1] at hd; cases hd
      have : (nc ++ t)[i]? = some (some c) := by
        rw [List.getElem?_append_left hi]; exact hd
      simp only [discardedChans, this]
      exact List.mem_cons_self _ _
    · cases h
  | _ => simp [discardedChans] at h

theorem discardedChans_tail {o : QOp} {os : List QOp} {nc : List (Option Nat)} {c : Nat}
    (h : c ∈ discardedChans os nc) : c ∈ discardedChans (o :: os) nc := by
  cases o with
  | DiscardNode i =>
    simp only [discardedChans]
    split
    · exact List.mem_cons_of_mem _ h
    · exact h
  | _ => simpa [discardedChans] using h

/-- Every step of a caller keeps the invariant; a channel is added to the discarded ones
only by a `DiscardNode` call on it. -/
theorem qstep_QWf {o : QOp} {q q1 : Queue} {nc nc1 : List (Option Nat)} {r : QRes}
    {gone : List Nat} (h : qstep o q nc = some (r, q1, nc1)) (hW : QWf q nc gone) :
    ∃ gone1 t, QWf q1 nc1 gone1 ∧ nc1 = nc ++ t ∧
      ∀ c ∈ gone1, c ∈ gone ∨ c ∈ discardedChans [o] nc := by
  have hsame : ∀ {q2 : Queue}, QWf q2 nc gone →
      ∃ gone1 t, QWf q2 nc gone1 ∧ nc = nc ++ t ∧
        ∀ c ∈ gone1, c ∈ gone ∨ c ∈ discardedChans [o] nc :=
    fun h2 => ⟨gone, [], h2, by simp, fun c hc => Or.inl hc⟩
  cases o with
  | GetNode =>
    simp only [qstep] at h
    cases h
    exact ⟨gone, [q.GetNode.1], GetNode_QWf hW, rfl, fun c hc => Or.inl hc⟩
  | DiscardNode i =>
    simp only [qstep] at h
    split at h
    · rename_i schan hs
      cases hd : q.DiscardNode schan with
      | none => rw [hd] at h; cases h
      | some q2 =>
        rw [hd] at h
        cases h
        obtain ⟨gone1, hW1, hg⟩ := DiscardNode_QWf hW (List.getElem?_mem hs) hd
        refine ⟨gone1, [], hW1, by simp, ?_⟩
        intro c hc
        rcases hg c hc with h1 | h1
        · exact Or.inl h1
        · refine Or.inr ?_
          rw [h1] at hs
          simp [discardedChans, hs]
    · cases h
  | Scan message handler =>
    simp only [qstep] at h
    obtain ⟨q2, k, hs, h1, h2, h3, h4, h5⟩ := Scan_frame message handler q hW.cap
    rw [hs] at h
    cases h
    exact hsame (QWf_of_le hW h5 (h3 ▸ hW.qchan_nodup) (fun c hc => h3 ▸ hc) h1 h2 h4)
  | ScanAcross message handler =>
    simp only [qstep] at h
    obtain ⟨qx, hx, x1, x2, x3, x4, x5, _⟩ := ScanAcross_eq message handler q
    have hWx : QWf qx nc gone :=
      QWf_of_le hW (fun c => by rw [x1]; exact le_max_right _ _) (x2 ▸ hW.qchan_nodup)
        (fun c hc => x2 ▸ hc) x4 x5 x3
    obtain ⟨q2, k, hs, h1, h2, h3, h4, h5⟩ := Scan_frame message handler qx hWx.cap
    rw [hx, hs] at h
    cases h
    exact hsame (QWf_of_le hWx h5 (h3 ▸ hWx.qchan_nodup) (fun c hc => h3 ▸ hc) h1 h2 h4)
  | GC =>
    simp only [qstep] at h
    cases hs : q.GC with
    | none => rw [hs] at h; cases h
    | some p =>
      obtain ⟨b, q2⟩ := p
      rw [hs] at h
      cases h
      unfold Queue.GC at hs
      split at hs
      · cases hs; exact hsame hW
      · split at hs
        · cases hs; exact hsame hW
        · split at hs
          · cases hs
          · rename_i q3 hg
            cases hs
            obtain ⟨a1, a2, a3, a4, a5, a6⟩ := gc_spec hg hW.qchan_nodup
            exact hsame (QWf_of_le hW (fun c => by rw [a3]; exact le_max_right _ _) a1 a2 a4
              a5 a6)
  | gcStep i =>
    simp only [qstep] at h
    split at h
    · cases h; exact hsame hW
    · rename_i g _
      cases hg : Queue.gc g { q with gcTasks := dropAt q.gcTasks i } with
      | none => rw [hg] at h; cases h
      | some q2 =>
        rw [hg] at h
        cases h
        obtain ⟨a1, a2, a3, a4, a5, a6⟩ := gc_spec hg hW.qchan_nodup
        exact hsame (QWf_of_le hW (fun c => by rw [a3]; exact le_max_right _ _) a1 a2 a4
          a5 a6)
  | Recv i =>
    simp only [qstep] at h
    split at h
    · rename_i c _
      cases h
      refine hsame (QWf_of_le hW ?_ hW.qchan_nodup (fun c hc => hc) rfl rfl rfl)
      intro d
      show ((q.chanMem.write c (q.chanMem c).tail) d).length ≤ _
      by_cases hd : d = c
      · subst hd
        rw [ChanMem.write_at]
        exact le_trans (by simp) (le_max_right _ _)
      · rw [ChanMem.write_off _ _ _ _ hd]
        exact le_max_right _ _
    · cases h
  | Destory =>
    simp only [qstep] at h
    cases hd : q.Destory with
    | none => rw [hd] at h; cases h
    | some q2 =>
      rw [hd] at h
      cases h
      exact hsame (Destory_QWf hW hd)
  | gcLock i =>
    simp only [qstep] at h
    split at h
    · cases h; exact hsame hW
    · rename_i g _
      cases hg : Queue.gcLocked g { q with gcTasks := dropAt q.gcTasks i } with
      | none => rw [hg] at h; cases h
      | some q2 =>
        rw [hg] at h
        cases h
        obtain ⟨a1, a2, a3⟩ := gcLocked_spec hg hW.qchan_nodup
        refine hsame (QWf_of_le hW ?_ a1 a2 ?_ ?_ ?_)
        · intro c
          show (q2.chanMem c).length ≤ _
          rw [a3]
          exact le_max_right _ _
        · show q2.nextChan = _; rw [a3]
        · show q2.chanPool = _; rw [a3]
        · show q2.valid = _; rw [a3]
  | gcStoreUsed =>
    simp only [qstep] at h
    split at h
    · cases h; exact hsame hW
    · cases h
      exact hsame (QWf_of_le hW (fun c => le_max_right _ _) hW.qchan_nodup
        (fun c hc => hc) rfl rfl rfl)
  | gcStoreRunning =>
    simp only [qstep] at h
    split at h
    · cases h; exact hsame hW
    · cases h
      exact hsame (QWf_of_le hW (fun c => le_max_right _ _) hW.qchan_nodup
        (fun c hc => hc) rfl rfl rfl)

/-- A run of steps keeps the invariant; the channels discarded at its end are those
discarded before and those on which it called `DiscardNode`. -/
theorem qrun_QWf :
    ∀ (ops : List QOp) (q : Queue) (nc : List (Option Nat)) (rs : List QRes) (q2 : Queue)
      (nc2 : List (Option Nat)) (gone : List Nat),
      qrun ops q nc = some (rs, q2, nc2) → QWf q nc gone →
      ∃ gone2 t, QWf q2 nc2 gone2 ∧ nc2 = nc ++ t ∧
        ∀ c ∈ gone2, c ∈ gone ∨ c ∈ discardedChans ops nc2 := by
  intro ops
  induction ops with
  | nil =>
    intro q nc rs q2 nc2 gone h hW
    rw [qrun] at h
    cases h
    exact ⟨gone, [], hW, by simp, fun c hc => Or.inl hc⟩
  | cons o os ih =>
    intro q nc rs q2 nc2 gone h hW
    rw [qrun] at h
    cases hs : qstep o q nc with
    | none => rw [hs] at h; cases h
    | some p =>
      obtain ⟨r, q1, nc1⟩ := p
      rw [hs] at h
      dsimp only at h
      cases hr : qrun os q1 nc1 with
      | none => rw [hr] at h; cases h
      | some p2 =>
        obtain ⟨rs2, q3, nc3⟩ := p2
        rw [hr] at h
        cases h
        obtain ⟨gone1, t1, hW1, e1, hg1⟩ := qstep_QWf hs hW
        obtain ⟨gone2, t2, hW2, e2, hg2⟩ := ih q1 nc1 rs2 q2 nc2 gone1 hr hW1
        refine ⟨gone2, t1 ++ t2, hW2, by rw [e2, e1, List.append_assoc], ?_⟩
        intro c hc
        rcases hg2 c hc with h1 | h1
        · rcases hg1 c h1 with h2 | h2
          · exact Or.inl h2
          · refine Or.inr ?_
            have : nc2 = nc ++ (t1 ++ t2) := by rw [e2, e1, List.append_assoc]
            rw [this]
            exact discardedChans_head h2
        · exact Or.inr (discardedChans_tail h1)

/-- Every state reached from `NewQueue`, in a shared state that queues can have left,
satisfies the invariant, with the channels on which `DiscardNode` was called as the
discarded ones. -/
theorem qreach_QWf {w : Chans} (hw : w.ok) {sizeQueue sizeGC : Int} {ops : List QOp}
    {rs : List QRes} {q : Queue} {nc : List (Option Nat)}
    (h : qreachIn w sizeQueue sizeGC ops = some (rs, q, nc)) :
    ∃ gone, QWf q nc gone ∧ ∀ c ∈ gone, c ∈ discardedChans ops nc := by
  unfold qreachIn at h
  cases hn : NewQueue sizeQueue sizeGC w with
  | none => rw [hn] at h; cases h
  | some q0 =>
    rw [hn] at h
    dsimp only at h
    have hW0 : QWf q0 [] [] := by
      unfold NewQueue at hn
      split at hn
      · cases hn
      · cases hn
        exact ⟨hw.cap, List.nodup_nil, fun c hc => (List.not_mem_nil _ hc).elim,
          fun c hc => (List.not_mem_nil _ hc).elim, fun c hc => (List.not_mem_nil _ hc).elim,
          fun c hc => (List.not_mem_nil _ hc).elim, hw.pool_nodup, hw.pool_lt,
          hw.pool_len, fun _ c _ hc => (List.not_mem_nil _ hc).elim⟩
    obtain ⟨gone, t, hW, _, hg⟩ := qrun_QWf ops q0 [] rs q nc [] h hW0
    refine ⟨gone, hW, ?_⟩
    intro c hc
    rcases hg c hc with h1 | h1
    · cases h1
    · exact h1

/-- The steps that only collect leave the channels, `valid` and what the caller holds as
they were, and keep the invariant. -/
theorem qrun_collects :
    ∀ (ops : List QOp) (q : Queue) (nc : List (Option Nat)) (rs : List QRes) (q2 : Queue)
      (nc2 : List (Option Nat)) (gone : List Nat),
      qrun ops q nc = some (rs, q2, nc2) → QWf q nc gone →
      (∀ o ∈ ops, QOp.collects o = true) →
      QWf q2 nc2 gone ∧ q2.chanMem = q.chanMem ∧ q2.valid = q.valid ∧ nc2 = nc := by
  intro ops
  induction ops with
  | nil =>
    intro q nc rs q2 nc2 gone h hW _
    rw [qrun] at h
    cases h
    exact ⟨hW, rfl, rfl, rfl⟩
  | cons o os ih =>
    intro q nc rs q2 nc2 gone h hW hc
    rw [qrun] at h
    cases hs : qstep o q nc with
    | none => rw [hs] at h; cases h
    | some p =>
      obtain ⟨r, q1, nc1⟩ := p
      rw [hs] at h
      dsimp only at h
      cases hr : qrun os q1 nc1 with
      | none => rw [hr] at h; cases h
      | some p2 =>
        obtain ⟨rs2, q3, nc3⟩ := p2
        rw [hr] at h
        cases h
        have hstep : QWf q1 nc1 gone ∧ q1.chanMem = q.chanMem ∧ q1.valid = q.valid ∧
            nc1 = nc := by
          have ho := hc o (List.mem_cons_self _ _)
          have hgc : ∀ {g : List Nat} {qa qb : Queue}, Queue.gc g qa = some qb →
              qa.qchan = q.qchan → qa.chanMem = q.chanMem → qa.nextChan = q.nextChan →
              qa.chanPool = q.chanPool → qa.valid = q.valid →
              QWf qb nc gone ∧ qb.chanMem = q.chanMem ∧ qb.valid = q.valid := by
            intro g qa qb hg e1 e2 e3 e4 e5
            obtain ⟨a1, a2, a3, a4, a5, a6⟩ := gc_spec hg (e1 ▸ hW.qchan_nodup)
            exact ⟨QWf_of_le hW (fun c => by rw [a3, e2]; exact le_max_right _ _) a1
              (fun c hc => e1 ▸ a2 c hc) (a4.trans e3) (a5.trans e4) (a6.trans e5),
              a3.trans e2, a6.trans e5⟩
          cases o with
          | GC =>
            simp only [qstep] at hs
            cases hg : q.GC with
            | none => rw [hg] at hs; cases hs
            | some p =>
              obtain ⟨b, qg⟩ := p
              rw [hg] at hs
              cases hs
              unfold Queue.GC at hg
              split at hg
              · cases hg; exact ⟨hW, rfl, rfl, rfl⟩
              · split at hg
                · cases hg; exact ⟨hW, rfl, rfl, rfl⟩
                · split at hg
                  · cases hg
                  · rename_i q4 hg4
                    cases hg
                    obtain ⟨b1, b2, b3⟩ := hgc hg4 rfl rfl rfl rfl rfl
                    exact ⟨b1, b2, b3, rfl⟩
          | gcStep i =>
            simp only [qstep] at hs
            split at hs
            · cases hs; exact ⟨hW, rfl, rfl, rfl⟩
            · rename_i g _
              cases hg : Queue.gc g { q with gcTasks := dropAt q.gcTasks i } with
              | none => rw [hg] at hs; cases hs
              | some qg =>
                rw [hg] at hs
                cases hs
                obtain ⟨b1, b2, b3⟩ := hgc hg rfl rfl rfl rfl rfl
                exact ⟨b1, b2, b3, rfl⟩
          | gcLock i =>
            simp only [qstep] at hs
            split at hs
            · cases hs; exact ⟨hW, rfl, rfl, rfl⟩
            · rename_i g _
              cases hg : Queue.gcLocked g { q with gcTasks := dropAt q.gcTasks i } with
              | none => rw [hg] at hs; cases hs
              | some qg =>
                rw [hg] at hs
                cases hs
                obtain ⟨a1, a2, a3⟩ := gcLocked_spec hg hW.qchan_nodup
                have e1 : qg.chanMem = q.chanMem := by rw [a3]
                have e2 : qg.valid = q.valid := by rw [a3]
                have e3 : qg.nextChan = q.nextChan := by rw [a3]
                have e4 : qg.chanPool = q.chanPool := by rw [a3]
                exact ⟨QWf_of_le hW (fun c => by
                    show (qg.chanMem c).length ≤ _
                    rw [e1]; exact le_max_right _ _) a1 a2 e3 e4 e2, e1, e2, rfl⟩
          | gcStoreUsed =>
            simp only [qstep] at hs
            split at hs
            · cases hs; exact ⟨hW, rfl, rfl, rfl⟩
            · cases hs
              exact ⟨QWf_of_le hW (fun c => le_max_right _ _) hW.qchan_nodup
                (fun c hc => hc) rfl rfl rfl, rfl, rfl, rfl⟩
          | gcStoreRunning =>
            simp only [qstep] at hs
            split at hs
            · cases hs; exact ⟨hW, rfl, rfl, rfl⟩
            · cases hs
              exact ⟨QWf_of_le hW (fun c => le_max_right _ _) hW.qchan_nodup
                (fun c hc => hc) rfl rfl rfl, rfl, rfl, rfl⟩
          | GetNode => simp [QOp.collects] at ho
          | DiscardNode i => simp [QOp.collects] at ho
          | Scan message handler => simp [QOp.collects] at ho
          | Recv i => simp [QOp.collects] at ho
          | Destory => simp [QOp.collects] at ho
          | ScanAcross message handler => simp [QOp.collects] at ho
        obtain ⟨s1, s2, s3, s4⟩ := hstep
        obtain ⟨r1, r2, r3, r4⟩ := ih q1 nc1 rs2 q2 nc2 gone hr s1
          (fun o ho => hc o (List.mem_cons_of_mem _ ho))
        exact ⟨r1, r2.trans s2, r3.trans s3, r4.trans s4⟩

/-! ## The claims about Queue -/

/-- C7 (amended): on a queue made with non-negative sizes and not destroyed, whatever the
queues destroyed before have left in the pool, after any sequence of `GetNode` calls,
`DiscardNode` calls on distinct slots obtained before, scans and receipts by slot owners,
every `GetNode` has returned a slot, there are at most as many discards as slots, and
`ValidCount` is the `int32` value of `n - m`, with `n` the number of `GetNode` calls and
`m` the number of `DiscardNode` calls; it is `n - m` itself when `n - m` is less than
2147483648. -/
theorem C7_valid_count_is_gets_minus_discards (w : Chans) (hw : w.ok)
    (sizeQueue sizeGC : Int) (h1 : 0 ≤ sizeQueue)
    (h2 : 0 ≤ sizeGC) (ops : List QOp) (hadm : admissible true ops 0 [] = true) :
    ∃ rs q nc, qreachIn w sizeQueue sizeGC ops = some (rs, q, nc) ∧
      nc.length = countGet ops ∧ (∀ c ∈ nc, c ≠ none) ∧
      countDiscard ops ≤ countGet ops ∧
      q.ValidCount = wrap32 ((countGet ops : Int) - (countDiscard ops : Int)) ∧
      ((countGet ops : Int) - (countDiscard ops : Int) < 2147483648 →
        q.ValidCount = (countGet ops : Int) - (countDiscard ops : Int)) := by
  obtain ⟨rs, q, nc, hs, hreach, hI, hl, hlen⟩ := qreach_admissible h1 h2 hw true ops hadm
  have hnc := nc_all_slots hI.nc_eq
  rw [hl] at hnc
  have hle : countDiscard ops ≤ countGet ops := by
    rw [← hlen, ← hl]
    exact length_le_of_nodup_bound hI.gone_nodup hI.gone_lt
  have hcount : q.ValidCount = wrap32 ((countGet ops : Int) - (countDiscard ops : Int)) := by
    show q.validCount = _
    rw [hI.count, hlen, hl]
  refine ⟨rs, q, nc, hreach, hnc.1, hnc.2, hle, hcount, ?_⟩
  intro hb
  rw [hcount]
  apply wrap32_of_range
  · have : (countDiscard ops : Int) ≤ (countGet ops : Int) := by exact_mod_cast hle
    omega
  · exact hb

/-- C7, at a concrete input: the calls of `TestQueue` up to its second assertion, ten
`GetNode` calls and the discards of the slots 0 and 1, with a scan and a receipt added;
`ValidCount` is 8. -/
theorem C7_witness :
    Chans.start.ok ∧ (0 : Int) ≤ 10 ∧ (0 : Int) ≤ 1 ∧
    admissible true (List.replicate 10 QOp.GetNode ++ [QOp.DiscardNode 0,
      QOp.Scan (Msg.val 1) (fun _ _ => false), QOp.Recv 3, QOp.DiscardNode 1]) 0 [] = true ∧
    (∃ rs q nc, qreachIn Chans.start 10 1 (List.replicate 10 QOp.GetNode
        ++ [QOp.DiscardNode 0,
        QOp.Scan (Msg.val 1) (fun _ _ => false), QOp.Recv 3, QOp.DiscardNode 1])
        = some (rs, q, nc) ∧
      nc.length = countGet (List.replicate 10 QOp.GetNode ++ [QOp.DiscardNode 0,
        QOp.Scan (Msg.val 1) (fun _ _ => false), QOp.Recv 3, QOp.DiscardNode 1]) ∧
      (∀ c ∈ nc, c ≠ none) ∧
      countDiscard (List.replicate 10 QOp.GetNode ++ [QOp.DiscardNode 0,
        QOp.Scan (Msg.val 1) (fun _ _ => false), QOp.Recv 3, QOp.DiscardNode 1])
        ≤ countGet (List.replicate 10 QOp.GetNode ++ [QOp.DiscardNode 0,
        QOp.Scan (Msg.val 1) (fun _ _ => false), QOp.Recv 3, QOp.DiscardNode 1]) ∧
      q.ValidCount = wrap32 ((countGet (List.replicate 10 QOp.GetNode ++ [QOp.DiscardNode 0,
        QOp.Scan (Msg.val 1) (fun _ _ => false), QOp.Recv 3, QOp.DiscardNode 1]) : Int)
        - (countDiscard (List.replicate 10 QOp.GetNode ++ [QOp.DiscardNode 0,
        QOp.Scan (Msg.val 1) (fun _ _ => false), QOp.Recv 3, QOp.DiscardNode 1]) : Int)) ∧
      ((countGet (List.replicate 10 QOp.GetNode ++ [QOp.DiscardNode 0,
        QOp.Scan (Msg.val 1) (fun _ _ => false), QOp.Recv 3, QOp.DiscardNode 1]) : Int)
        - (countDiscard (List.replicate 10 QOp.GetNode ++ [QOp.DiscardNode 0,
        QOp.Scan (Msg.val 1) (fun _ _ => false), QOp.Recv 3, QOp.DiscardNode 1]) : Int)
          < 2147483648 →
        q.ValidCount = (countGet (List.replicate 10 QOp.GetNode ++ [QOp.DiscardNode 0,
        QOp.Scan (Msg.val 1) (fun _ _ => false), QOp.Recv 3, QOp.DiscardNode 1]) : Int)
        - (countDiscard (List.replicate 10 QOp.GetNode ++ [QOp.DiscardNode 0,
        QOp.Scan (Msg.val 1) (fun _ _ => false), QOp.Recv 3, QOp.DiscardNode 1]) : Int))) ∧
    (qreach 10 1 (List.replicate 10 QOp.GetNode ++ [QOp.DiscardNode 0,
        QOp.Scan (Msg.val 1) (fun _ _ => false), QOp.Recv 3, QOp.DiscardNode 1])).map
      (fun r => r.2.1.ValidCount) = some 8 :=
  ⟨Chans.start_ok, by decide, by decide, by decide,
    C7_valid_count_is_gets_minus_discards Chans.start Chans.start_ok 10 1 (by decide)
      (by decide) _ (by decide),
    by decide!⟩

/-- C7 as stated fails where the `int32` counter wraps: after 2147483648 `GetNode` calls
that each returned a slot and no `DiscardNode` call, `ValidCount` is -2147483648, not
2147483648 - 0. -/
theorem C7_counterexample_int32_wraps :
    ∃ rs q nc, qreach 0 0 (List.replicate 2147483648 QOp.GetNode) = some (rs, q, nc) ∧
      countGet (List.replicate 2147483648 QOp.GetNode) = 2147483648 ∧
      countDiscard (List.replicate 2147483648 QOp.GetNode) = 0 ∧
      nc.length = 2147483648 ∧ (∀ c ∈ nc, c ≠ none) ∧
      q.ValidCount = -2147483648 ∧ q.ValidCount ≠ 2147483648 - 0 := by
  obtain ⟨rs, q, nc, hs, hreach, hI, hl, hlen⟩ :=
    @qreach_admissible 0 0 (le_refl _) (le_refl _) Chans.start Chans.start_ok true
      (List.replicate 2147483648 QOp.GetNode) (admissible_replicate_GetNode true _ 0 [])
  have hg := countGet_replicate_GetNode 2147483648
  have hd := countDiscard_replicate_GetNode 2147483648
  rw [hg] at hl
  rw [hd] at hlen
  have hnc := nc_all_slots hI.nc_eq
  rw [hl] at hnc
  have hv : q.ValidCount = -2147483648 := by
    show q.validCount = _
    rw [hI.count, hlen, hl]
    decide
  refine ⟨rs, q, nc, hreach, hg, hd, hnc.1, hnc.2, hv, ?_⟩
  rw [hv]
  decide
/-- C9, the code at the failing inputs.  With the slots a, b, c obtained, b discarded and
`GC()` called, `GC` returns true and the array is left holding a and b: the live slot c is
gone and the discarded slot b is still there.  With a scan before the `GC()` call the array
is left holding a alone.  With the calls of `TestQueue` (ten slots, the slots 0 and 1
discarded, threshold 1, one scan, which starts the gc goroutine), the array holds seven
slots once the goroutine has run: the live slot 7 is gone. -/
theorem C9_gc_drops_a_live_slot :
    (qreach 3 1 [QOp.GetNode, QOp.GetNode, QOp.GetNode, QOp.DiscardNode 1, QOp.GC]).map
      (fun r => (r.1, r.2.1.qchan))
      = some ([QRes.slot (some 0), QRes.slot (some 1), QRes.slot (some 2), QRes.unit,
          QRes.done true], [0, 1]) ∧
    (qreach 3 1 [QOp.GetNode, QOp.GetNode, QOp.GetNode, QOp.DiscardNode 1,
        QOp.Scan (Msg.val 7) (fun _ _ => false), QOp.GC]).map
      (fun r => (r.1, r.2.1.qchan))
      = some ([QRes.slot (some 0), QRes.slot (some 1), QRes.slot (some 2), QRes.unit,
          QRes.calls 2, QRes.done true], [0]) ∧
    (qreach 10 1 (List.replicate 10 QOp.GetNode ++ [QOp.DiscardNode 0, QOp.DiscardNode 1,
        QOp.Scan (Msg.val 1) (fun _ _ => false)])).map
      (fun r => (r.2.1.qchan, r.2.1.gcTasks))
      = some ([0, 1, 2, 3, 4, 5, 6, 7, 8, 9], [[0, 1]]) ∧
    (qreach 10 1 (List.replicate 10 QOp.GetNode ++ [QOp.DiscardNode 0, QOp.DiscardNode 1,
        QOp.Scan (Msg.val 1) (fun _ _ => false), QOp.gcStep 0])).map
      (fun r => (r.2.1.qchan, r.2.1.gcTasks))
      = some ([9, 8, 2, 3, 4, 5, 6], []) := by
  refine ⟨by decide!, by decide!, by decide!, by decide!⟩

/-- C10, the code at the failing inputs.  `GC()` on a queue with no slots panics: the final
slice expression `q.qchan[:last-len(garbage)]` has the bound -1.  So does the gc goroutine
started by a scan of a queue whose only slot has been discarded. -/
theorem C10_gc_panics :
    (NewQueue 0 0 Chans.start).map (fun q => (q.qchan, q.garbage, q.GC.isSome))
      = some ([], [], false) ∧
    (qreach 0 0 [QOp.GC]).isSome = false ∧
    (qreach 0 0 [QOp.GetNode, QOp.DiscardNode 0, QOp.Scan (Msg.val 7) (fun _ _ => false)]).map
      (fun r => (r.1, r.2.1.qchan, r.2.1.gcTasks))
      = some ([QRes.slot (some 0), QRes.unit, QRes.calls 0], [0], [[0]]) ∧
    (qreach 0 0 [QOp.GetNode, QOp.DiscardNode 0, QOp.Scan (Msg.val 7) (fun _ _ => false),
        QOp.gcStep 0]).isSome = false := by
  refine ⟨by decide!, by decide!, by decide!, by decide!⟩

/-! ## A scan, with or without the store of a gc goroutine inside it -/

/-- A call of `Scan`, with or without the store of `used` by a gc goroutine inside it, is
a `Scan` from a state that has the same channels, array, pool and garbage. -/
theorem scan_either {scan : Msg → (Nat → Queue → Bool) → Queue → Option (Queue × Nat)}
    (hscan : scan = Queue.Scan ∨ scan = Queue.ScanAcross)
    (message : Msg) (handler : Nat → Queue → Bool) (q : Queue) :
    ∃ q1 : Queue, scan message handler q = q1.Scan message handler ∧
      q1.chanMem = q.chanMem ∧ q1.qchan = q.qchan ∧ q1.valid = q.valid ∧
      q1.nextChan = q.nextChan ∧ q1.chanPool = q.chanPool ∧ q1.garbage = q.garbage ∧
      q1.size = q.size ∧ q1.gcRunning = q.gcRunning ∧ q1.gcTasks = q.gcTasks := by
  rcases hscan with h | h
  · subst h
    exact ⟨q, rfl, rfl, rfl, rfl, rfl, rfl, rfl, rfl, rfl, rfl⟩
  · subst h
    exact ScanAcross_eq message handler q

/-- A scan, with or without the store of a gc goroutine inside it, of a queue whose array
holds distinct channels, none with more than two elements: it returns, leaves the array,
the pool and `valid` as they were, and lets no channel grow beyond one element; on a valid
queue each channel is left as it was or, for a slot of the array, as `updateChan` leaves
it, and `updateChan` has run on every slot of the array when the handler never returns
true. -/
theorem scan_slots {scan : Msg → (Nat → Queue → Bool) → Queue → Option (Queue × Nat)}
    (hscan : scan = Queue.Scan ∨ scan = Queue.ScanAcross)
    (message : Msg) (handler : Nat → Queue → Bool) (q : Queue)
    (hnd : q.qchan.Nodup) (hlen : ∀ c, (q.chanMem c).length ≤ 2) :
    ∃ q2 calls, scan message handler q = some (q2, calls) ∧
      q2.qchan = q.qchan ∧ q2.valid = q.valid ∧ q2.nextChan = q.nextChan ∧
      q2.chanPool = q.chanPool ∧
      (∀ c, (q2.chanMem c).length ≤ max 1 (q.chanMem c).length) ∧
      (q.invalid = false →
        (∀ d, q2.chanMem d = q.chanMem d ∨
          (d ∈ q.qchan ∧ q2.chanMem d = delivered message (q.chanMem d))) ∧
        ((∀ j q1, handler j q1 = false) →
          ∀ d, d ∈ q.qchan → q2.chanMem d = delivered message (q.chanMem d))) := by
  obtain ⟨qx, hx, x1, x2, x3, x4, x5, _⟩ := scan_either hscan message handler q
  have hndx : qx.qchan.Nodup := by rw [x2]; exact hnd
  have hlenx : ∀ c, (qx.chanMem c).length ≤ 2 := by rw [x1]; exact hlen
  obtain ⟨q2, calls, hs, f1, f2, f3, f4, f5⟩ := Scan_frame message handler qx hlenx
  refine ⟨q2, calls, hx.trans hs, f3.trans x2, f4.trans x3, f1.trans x4, f2.trans x5, ?_, ?_⟩
  · intro c
    have := f5 c
    rw [x1] at this
    exact this
  · intro hv
    have hvx : qx.invalid = false := by
      unfold Queue.invalid at hv ⊢
      rw [x3]
      exact hv
    obtain ⟨q3, calls3, hs3, ht, hall⟩ := Scan_delivers message handler qx hvx hndx hlenx
    rw [hs] at hs3
    have e : q2 = q3 := congrArg Prod.fst (Option.some.inj hs3)
    subst e
    rw [x1, x2] at ht hall
    exact ⟨ht, hall⟩

/-! ## Further claims about Queue -/

/-- C13 (amended): in every state of a queue reached from `NewQueue` by calls of the
methods, steps of gc goroutines and receipts by slot owners, a channel that the caller has
obtained and on which `DiscardNode` was never called holds at most one element.  A `Scan`,
with or without the store of a gc goroutine inside it, returns, and such a channel holds at
most one element after it.  When the queue is valid and the channel is in the array and is
empty or holds one element that is not a `flagNode`, a `Scan(message, handler)` either
leaves it untouched (the handler stopped the scan before the slot) or leaves it holding
`message` alone, and it leaves it holding `message` alone when the handler never returns
true.  After `Scan(m1)`, with `m1` not a `flagNode` and a handler that never returns
true, the channel holds `m1` alone; after any collections that follow, a `Scan(m2)` whose
handler never returns true leaves it holding `m2` alone when the collections have left the
channel in the array, and holding `m1` when they have not. -/
theorem C13_last_write_wins (w : Chans) (hw : w.ok) (sizeQueue sizeGC : Int)
    (ops : List QOp) (rs : List QRes) (q : Queue) (nc : List (Option Nat))
    (hreach : qreachIn w sizeQueue sizeGC ops = some (rs, q, nc))
    (scan : Msg → (Nat → Queue → Bool) → Queue → Option (Queue × Nat))
    (hscan : scan = Queue.Scan ∨ scan = Queue.ScanAcross)
    (message : Msg) (handler : Nat → Queue → Bool) (v1 : Nat) (m2 : Msg) :
    (∀ c, some c ∈ nc → c ∉ discardedChans ops nc → (q.chanMem c).length ≤ 1) ∧
    ∃ q2 calls qa ka,
      scan message handler q = some (q2, calls) ∧
      scan (Msg.val v1) (fun _ _ => false) q = some (qa, ka) ∧
      (∀ c, some c ∈ nc → c ∉ discardedChans ops nc → (q2.chanMem c).length ≤ 1) ∧
      ∀ c, c ∈ q.qchan → c ∉ discardedChans ops nc → q.invalid = false →
        (q.chanMem c = [] ∨ ∃ v, q.chanMem c = [Msg.val v]) →
          (q2.chanMem c = [message] ∨ q2.chanMem c = q.chanMem c) ∧
          ((∀ j q1, handler j q1 = false) → q2.chanMem c = [message]) ∧
          qa.chanMem c = [Msg.val v1] ∧
          ∀ mid rsm qm ncm, (∀ o ∈ mid, QOp.collects o = true) →
            qrun mid qa nc = some (rsm, qm, ncm) →
            ∃ qb kb, scan m2 (fun _ _ => false) qm = some (qb, kb) ∧
              (c ∈ qm.qchan → qb.chanMem c = [m2]) ∧
              (c ∉ qm.qchan → qb.chanMem c = [Msg.val v1]) := by
  obtain ⟨gone, hW, hg⟩ := qreach_QWf hw hreach
  have hlive : ∀ c, some c ∈ nc → c ∉ discardedChans ops nc → (q.chanMem c).length ≤ 1 :=
    fun c hc hd => hW.live_len c hc (fun h => hd (hg c h))
  obtain ⟨q2, calls, hs2, _, _, _, _, f5, hd2⟩ :=
    scan_slots hscan message handler q hW.qchan_nodup hW.cap
  obtain ⟨qa, ka, hsa, a1, a2, a3, a4, a5, hda⟩ :=
    scan_slots hscan (Msg.val v1) (fun _ _ => false) q hW.qchan_nodup hW.cap
  refine ⟨hlive, q2, calls, qa, ka, hs2, hsa, ?_, ?_⟩
  · intro c hc hd
    exact le_trans (f5 c) (max_le (le_refl _) (hlive c hc hd))
  intro c hc _ hv hb
  have hdel : ∀ (m : Msg), delivered m (q.chanMem c) = [m] := by
    intro m
    rcases hb with hb | ⟨v, hb⟩ <;> rw [hb] <;> rfl
  obtain ⟨ht2, hall2⟩ := hd2 hv
  obtain ⟨_, halla⟩ := hda hv
  have hqa : qa.chanMem c = [Msg.val v1] := by
    rw [halla (fun _ _ => rfl) c hc, hdel]
  refine ⟨?_, ?_, hqa, ?_⟩
  · rcases ht2 c with h | h
    · exact Or.inr h
    · exact Or.inl (by rw [h.2, hdel])
  · intro hh
    rw [hall2 hh c hc, hdel]
  · intro mid rsm qm ncm hmid hrun
    have hWa : QWf qa nc gone :=
      QWf_of_le hW a5 (a1 ▸ hW.qchan_nodup) (fun d hd => a1 ▸ hd) a3 a4 a2
    obtain ⟨hWm, m1, mv, _⟩ := qrun_collects mid qa nc rsm qm ncm gone hrun hWa hmid
    obtain ⟨qb, kb, hsb, _, _, _, _, _, hdb⟩ :=
      scan_slots hscan m2 (fun _ _ => false) qm hWm.qchan_nodup hWm.cap
    have hvm : qm.invalid = false := by
      unfold Queue.invalid at hv ⊢
      rw [mv, a2]
      exact hv
    obtain ⟨htb, hallb⟩ := hdb hvm
    refine ⟨qb, kb, hsb, ?_, ?_⟩
    · intro hcm
      rw [hallb (fun _ _ => rfl) c hcm, m1, hqa]
      rfl
    · intro hcm
      rcases htb c with h | h
      · rw [h, m1, hqa]
      · exact absurd h.1 hcm

/-- C13, at a concrete input: three slots, the second discarded, a scan that starts a gc
goroutine, and the goroutine, which leaves the first slot alone in the array; a fourth
slot is obtained and the owner of the first slot receives its message, so that the array
holds two empty slots.  Two more scans leave the last message alone in both. -/
theorem C13_witness :
    Chans.start.ok ∧
    ∃ rs q nc,
      qreachIn Chans.start 10 0 [QOp.GetNode, QOp.GetNode, QOp.GetNode, QOp.DiscardNode 1,
        QOp.Scan (Msg.val 5) (fun _ _ => false), QOp.gcStep 0, QOp.GetNode, QOp.Recv 0] = some (rs, q, nc) ∧
      ((∀ c, some c ∈ nc → c ∉ discardedChans [QOp.GetNode, QOp.GetNode, QOp.GetNode, QOp.DiscardNode 1,
        QOp.Scan (Msg.val 5) (fun _ _ => false), QOp.gcStep 0, QOp.GetNode, QOp.Recv 0] nc → (q.chanMem c).length ≤ 1) ∧
        ∃ q2 calls qa ka,
          Queue.Scan (Msg.val 8) (fun j _ => decide (j = 0)) q = some (q2, calls) ∧
          Queue.Scan (Msg.val 8) (fun _ _ => false) q = some (qa, ka) ∧
          (∀ c, some c ∈ nc → c ∉ discardedChans [QOp.GetNode, QOp.GetNode, QOp.GetNode, QOp.DiscardNode 1,
        QOp.Scan (Msg.val 5) (fun _ _ => false), QOp.gcStep 0, QOp.GetNode, QOp.Recv 0] nc → (q2.chanMem c).length ≤ 1) ∧
          ∀ c, c ∈ q.qchan → c ∉ discardedChans [QOp.GetNode, QOp.GetNode, QOp.GetNode, QOp.DiscardNode 1,
        QOp.Scan (Msg.val 5) (fun _ _ => false), QOp.gcStep 0, QOp.GetNode, QOp.Recv 0] nc → q.invalid = false →
            (q.chanMem c = [] ∨ ∃ v, q.chanMem c = [Msg.val v]) →
              (q2.chanMem c = [Msg.val 8] ∨ q2.chanMem c = q.chanMem c) ∧
              ((∀ j q1, (fun (j : Nat) (_ : Queue) => decide (j = 0)) j q1 = false) →
                q2.chanMem c = [Msg.val 8]) ∧
              qa.chanMem c = [Msg.val 8] ∧
              ∀ mid rsm qm ncm, (∀ o ∈ mid, QOp.collects o = true) →
                qrun mid qa nc = some (rsm, qm, ncm) →
                ∃ qb kb, Queue.Scan (Msg.val 9) (fun _ _ => false) qm = some (qb, kb) ∧
                  (c ∈ qm.qchan → qb.chanMem c = [Msg.val 9]) ∧
                  (c ∉ qm.qchan → qb.chanMem c = [Msg.val 8])) ∧
      (qreach 10 0 [QOp.GetNode, QOp.GetNode, QOp.GetNode, QOp.DiscardNode 1,
        QOp.Scan (Msg.val 5) (fun _ _ => false), QOp.gcStep 0, QOp.GetNode, QOp.Recv 0]).map
        (fun r => (r.2.1.qchan, r.2.2, r.2.1.invalid, discardedChans [QOp.GetNode, QOp.GetNode, QOp.GetNode, QOp.DiscardNode 1,
        QOp.Scan (Msg.val 5) (fun _ _ => false), QOp.gcStep 0, QOp.GetNode, QOp.Recv 0] r.2.2))
        = some ([0, 3], [some 0, some 1, some 2, some 3], false, [1]) ∧
      (qreach 10 0 [QOp.GetNode, QOp.GetNode, QOp.GetNode, QOp.DiscardNode 1,
        QOp.Scan (Msg.val 5) (fun _ _ => false), QOp.gcStep 0, QOp.GetNode, QOp.Recv 0]).map
        (fun r => [r.2.1.chanMem 0, r.2.1.chanMem 1, r.2.1.chanMem 2, r.2.1.chanMem 3])
        = some [[], [], [Msg.val 5], []] ∧
      (qreach 10 0 ([QOp.GetNode, QOp.GetNode, QOp.GetNode, QOp.DiscardNode 1,
        QOp.Scan (Msg.val 5) (fun _ _ => false), QOp.gcStep 0, QOp.GetNode, QOp.Recv 0] ++ [QOp.Scan (Msg.val 8) (fun _ _ => false)])).map
        (fun r => [r.2.1.chanMem 0, r.2.1.chanMem 1, r.2.1.chanMem 2, r.2.1.chanMem 3])
        = some [[Msg.val 8], [], [Msg.val 5], [Msg.val 8]] ∧
      (qreach 10 0 ([QOp.GetNode, QOp.GetNode, QOp.GetNode, QOp.DiscardNode 1,
        QOp.Scan (Msg.val 5) (fun _ _ => false), QOp.gcStep 0, QOp.GetNode, QOp.Recv 0] ++ [QOp.Scan (Msg.val 8) (fun _ _ => false),
          QOp.Scan (Msg.val 9) (fun _ _ => false)])).map
        (fun r => [r.2.1.chanMem 0, r.2.1.chanMem 1, r.2.1.chanMem 2, r.2.1.chanMem 3])
        = some [[Msg.val 9], [], [Msg.val 5], [Msg.val 9]] :=
  have hs : (qreachIn Chans.start 10 0 [QOp.GetNode, QOp.GetNode, QOp.GetNode, QOp.DiscardNode 1,
        QOp.Scan (Msg.val 5) (fun _ _ => false), QOp.gcStep 0, QOp.GetNode, QOp.Recv 0]).isSome = true := by decide!
  ⟨Chans.start_ok, _, _, _, (Option.some_get hs).symm,
    C13_last_write_wins Chans.start Chans.start_ok 10 0 _ _ _ _
      (Option.some_get hs).symm Queue.Scan (Or.inl rfl) (Msg.val 8)
      (fun j _ => decide (j = 0)) 8 (Msg.val 9),
    by decide!, by decide!, by decide!, by decide!⟩

/-- C13 as stated fails in two ways.  When the message of the first scan is a `flagNode`
value: two slots are obtained, none is discarded, and `Scan(usedNode)` leaves that value
in both; the next scan, of the message 2, takes it for a marker: it delivers nothing,
calls the handler for no slot, leaves both channels empty and records both positions as
garbage.  And when a collection between the two scans takes the slot out of the array:
three slots are obtained and the first is discarded; with `size` 0 the scan of the
message 1 delivers it into the second and the third slot and starts a gc goroutine, which
leaves the third slot alone in the array; the scan of the message 2 does not reach the
second slot, which was never discarded and still holds the message 1. -/
theorem C13_counterexample_flag_message :
    (qreach 2 5 [QOp.GetNode, QOp.GetNode,
        QOp.Scan (Msg.flag flagNode.usedNode) (fun _ _ => false)]).map
      (fun r => (r.1.getLast?, r.2.1.chanMem 0, r.2.1.chanMem 1, r.2.1.garbage))
      = some (some (QRes.calls 2), [Msg.flag flagNode.usedNode],
          [Msg.flag flagNode.usedNode], []) ∧
    (qreach 2 5 [QOp.GetNode, QOp.GetNode,
        QOp.Scan (Msg.flag flagNode.usedNode) (fun _ _ => false),
        QOp.Scan (Msg.val 2) (fun _ _ => false)]).map
      (fun r => (r.1.getLast?, r.2.1.chanMem 0, r.2.1.chanMem 1, r.2.1.garbage))
      = some (some (QRes.calls 0), [], [], [0, 1]) ∧
    (qreach 3 0 [QOp.GetNode, QOp.GetNode, QOp.GetNode, QOp.DiscardNode 0,
        QOp.Scan (Msg.val 1) (fun _ _ => false)]).map
      (fun r => (r.1.getLast?, r.2.1.qchan, r.2.1.chanMem 1, r.2.1.chanMem 2))
      = some (some (QRes.calls 2), [0, 1, 2], [Msg.val 1], [Msg.val 1]) ∧
    (qreach 3 0 [QOp.GetNode, QOp.GetNode, QOp.GetNode, QOp.DiscardNode 0,
        QOp.Scan (Msg.val 1) (fun _ _ => false), QOp.gcStep 0,
        QOp.Scan (Msg.val 2) (fun _ _ => false)]).map
      (fun r => (r.1.getLast?, r.2.1.qchan, r.2.1.chanMem 1, r.2.1.chanMem 2))
      = some (some (QRes.calls 1), [2], [Msg.val 1], [Msg.val 2]) := by
  refine ⟨by decide!, by decide!, by decide!, by decide!⟩

/-- C14, the code at the failing input.  A `GetNode` on a state whose counter `used` is
not 0 returns nil and changes nothing, as claimed; but `used` is not 0 only while a scan
runs.  Three slots are obtained and the first is discarded; with `size` 0 a scan starts a
gc goroutine.  The goroutine runs up to `q.qlock.Unlock()`; `used` is 0.  A second scan
enters and adds 1 to `used`; the goroutine then runs `atomic.StoreInt32(&q.used, 0)`, and
the scan, when it returns, subtracts 1: `used` is -1.  The goroutine ends.  With the queue
valid, no scan running and no goroutine left, `GetNode` returns nil and adds no slot, and
it still does after one more scan. -/
theorem C14_used_left_negative_by_gc_store :
    (∀ q1 : Queue, q1.used ≠ 0 → q1.GetNode = (none, q1)) ∧
    (qreach 3 0 [QOp.GetNode, QOp.GetNode, QOp.GetNode, QOp.DiscardNode 0,
        QOp.Scan (Msg.val 1) (fun _ _ => false), QOp.gcLock 0]).map
      (fun r => (r.2.1.used, r.2.1.qchan, r.2.1.gcTasks, r.2.1.atStoreUsed))
      = some (0, [2], [], 1) ∧
    (qreach 3 0 [QOp.GetNode, QOp.GetNode, QOp.GetNode, QOp.DiscardNode 0,
        QOp.Scan (Msg.val 1) (fun _ _ => false), QOp.gcLock 0,
        QOp.ScanAcross (Msg.val 2) (fun _ _ => false)]).map
      (fun r => (r.1.getLast?, r.2.1.used, r.2.1.atStoreUsed, r.2.1.atStoreRunning))
      = some (some (QRes.calls 1), -1, 0, 1) ∧
    (qreach 3 0 [QOp.GetNode, QOp.GetNode, QOp.GetNode, QOp.DiscardNode 0,
        QOp.Scan (Msg.val 1) (fun _ _ => false), QOp.gcLock 0,
        QOp.ScanAcross (Msg.val 2) (fun _ _ => false), QOp.gcStoreRunning]).map
      (fun r => (r.2.1.used, r.2.1.invalid, r.2.1.gcRunning, r.2.1.gcTasks))
      = some (-1, false, 0, []) ∧
    (qreach 3 0 [QOp.GetNode, QOp.GetNode, QOp.GetNode, QOp.DiscardNode 0,
        QOp.Scan (Msg.val 1) (fun _ _ => false), QOp.gcLock 0,
        QOp.ScanAcross (Msg.val 2) (fun _ _ => false), QOp.gcStoreRunning]).map
      (fun r => (r.2.1.atStoreUsed, r.2.1.atStoreRunning, r.2.1.qchan, r.2.1.ValidCount))
      = some (0, 0, [2], 2) ∧
    (qreach 3 0 [QOp.GetNode, QOp.GetNode, QOp.GetNode, QOp.DiscardNode 0,
        QOp.Scan (Msg.val 1) (fun _ _ => false), QOp.gcLock 0,
        QOp.ScanAcross (Msg.val 2) (fun _ _ => false), QOp.gcStoreRunning,
        QOp.GetNode]).map
      (fun r => (r.1.getLast?, r.2.1.qchan, r.2.1.ValidCount, r.2.1.used))
      = some (some (QRes.slot none), [2], 2, -1) ∧
    (qreach 3 0 [QOp.GetNode, QOp.GetNode, QOp.GetNode, QOp.DiscardNode 0,
        QOp.Scan (Msg.val 1) (fun _ _ => false), QOp.gcLock 0,
        QOp.ScanAcross (Msg.val 2) (fun _ _ => false), QOp.gcStoreRunning,
        QOp.GetNode, QOp.Scan (Msg.val 3) (fun _ _ => false), QOp.GetNode]).map
      (fun r => (r.1.getLast?, r.2.1.qchan, r.2.1.ValidCount, r.2.1.used))
      = some (some (QRes.slot none), [2], 2, -1) := by
  refine ⟨?_, by decide!, by decide!, by decide!, by decide!, by decide!, by decide!⟩
  intro q1 h
  unfold Queue.GetNode
  split
  · rfl
  · rfl

/-- C11: when `Destory` has returned, whatever the state it was called on, the queue is
invalid and every method returns at once, the state unchanged: `GetNode` returns nil, `GC`
returns false, `Scan` does not call its handler, `DiscardNode` sends nothing, also on a
nil channel, and a second `Destory` does nothing. -/
theorem C11_destroyed_queue_refuses (q q1 : Queue) (h : q.Destory = some q1) :
    q1.invalid = true ∧
    q1.GetNode = (none, q1) ∧
    q1.GC = some (false, q1) ∧
    (∀ message handler, q1.Scan message handler = some (q1, 0)) ∧
    (∀ schan, q1.DiscardNode schan = some q1) ∧
    q1.Destory = some q1 := by
  have hv : q1.invalid = true := by
    simp [Queue.invalid, Destory_keeps h]
  refine ⟨hv, ?_, ?_, ?_, ?_, ?_⟩
  · unfold Queue.GetNode
    rw [if_pos hv]
  · unfold Queue.GC
    rw [if_pos hv]
  · intro message handler
    unfold Queue.Scan
    rw [if_pos hv]
  · intro schan
    unfold Queue.DiscardNode
    rw [if_pos hv]
  · unfold Queue.Destory
    rw [if_pos hv]

/-- C11, at a concrete input: the run of `TestQueue`, ten slots of which the first two are
discarded, a scan that starts a gc goroutine, and `Destory`, which lets the goroutine run
and then puts the seven channels left in the array into the pool.  After it `GetNode`
returns nil, `GC` false, and a scan makes no handler call; the array and the count stay
as they were. -/
theorem C11_witness :
    ∃ q q1,
      (qreach 10 1 (List.replicate 10 QOp.GetNode ++ [QOp.DiscardNode 0, QOp.DiscardNode 1,
        QOp.Scan (Msg.val 1) (fun _ _ => false)])).map (fun r => r.2.1) = some q ∧
      q.Destory = some q1 ∧
      (q1.invalid = true ∧
        q1.GetNode = (none, q1) ∧
        q1.GC = some (false, q1) ∧
        (∀ message handler, q1.Scan message handler = some (q1, 0)) ∧
        (∀ schan, q1.DiscardNode schan = some q1) ∧
        q1.Destory = some q1) ∧
      (qreach 10 1 (List.replicate 10 QOp.GetNode ++ [QOp.DiscardNode 0, QOp.DiscardNode 1,
        QOp.Scan (Msg.val 1) (fun _ _ => false), QOp.Destory, QOp.GetNode, QOp.GC,
        QOp.Scan (Msg.val 2) (fun _ _ => false), QOp.DiscardNode 5, QOp.Destory])).map
          (fun r => (r.1.drop 13, r.2.1.qchan, r.2.1.chanPool, r.2.1.ValidCount))
        = some ([QRes.unit, QRes.slot none, QRes.done false, QRes.calls 0, QRes.unit,
            QRes.unit], [9, 8, 2, 3, 4, 5, 6], [6, 5, 4, 3, 2, 8, 9], 8) :=
  have hd : (Queue.Destory (Option.get
      ((qreach 10 1 (List.replicate 10 QOp.GetNode ++ [QOp.DiscardNode 0,
        QOp.DiscardNode 1, QOp.Scan (Msg.val 1) (fun _ _ => false)])).map (fun r => r.2.1))
      (by decide!))).isSome = true := by decide!
  ⟨_, _, (Option.some_get _).symm, (Option.some_get hd).symm,
    C11_destroyed_queue_refuses _ _ (Option.some_get hd).symm, by decide!⟩

/-- C12, the code at the failing input.  Two slots are obtained and a scan delivers the
message 1 into both; the first slot is discarded while its message is unread, and
`DiscardNode` sends the marker behind the message.  The next scan, of the message 2, takes
the unread message out of the first slot, delivers 2 into it behind the marker and calls
the handler for it: two handler calls with `ValidCount` 1, and position 0 is not recorded
as garbage.  Only the scan after that finds the marker. -/
theorem C12_marker_behind_unread_message :
    (qreach 2 5 [QOp.GetNode, QOp.GetNode, QOp.Scan (Msg.val 1) (fun _ _ => false),
        QOp.DiscardNode 0]).map
      (fun r => (r.2.1.chanMem 0, r.2.1.chanMem 1, r.2.1.ValidCount))
      = some ([Msg.val 1, Msg.flag flagNode.destroyNode], [Msg.val 1], 1) ∧
    (qreach 2 5 [QOp.GetNode, QOp.GetNode, QOp.Scan (Msg.val 1) (fun _ _ => false),
        QOp.DiscardNode 0, QOp.Scan (Msg.val 2) (fun _ _ => false)]).map
      (fun r => (r.1.getLast?, r.2.1.chanMem 0, r.2.1.chanMem 1, r.2.1.garbage,
        r.2.1.ValidCount))
      = some (some (QRes.calls 2), [Msg.flag flagNode.destroyNode, Msg.val 2], [Msg.val 2],
          [], 1) ∧
    (qreach 2 5 [QOp.GetNode, QOp.GetNode, QOp.Scan (Msg.val 1) (fun _ _ => false),
        QOp.DiscardNode 0, QOp.Scan (Msg.val 2) (fun _ _ => false),
        QOp.Scan (Msg.val 3) (fun _ _ => false)]).map
      (fun r => (r.1.getLast?, r.2.1.chanMem 0, r.2.1.chanMem 1, r.2.1.garbage,
        r.2.1.ValidCount))
      = some (some (QRes.calls 1), [Msg.val 2], [Msg.val 3], [0], 1) := by
  refine ⟨by decide!, by decide!, by decide!⟩

/-- C16, the code at the failing inputs.  Whenever `gc` returns, the array it leaves is
shorter by the length of `garbage` and one more.  `GC()` on three live slots with no
pending garbage leaves two of them; with four slots, of which the second is discarded and
recorded by a scan, `GC()` leaves two slots, not three. -/
theorem C16_gc_shrinks_by_one_more :
    (∀ (garbage : List Nat) (q q1 : Queue), Queue.gc garbage q = some q1 →
      q1.qchan.length + garbage.length + 1 = q.qchan.length) ∧
    (qreach 3 5 [QOp.GetNode, QOp.GetNode, QOp.GetNode]).map
      (fun r => (r.2.1.qchan, r.2.1.garbage)) = some ([0, 1, 2], []) ∧
    (qreach 3 5 [QOp.GetNode, QOp.GetNode, QOp.GetNode, QOp.GC]).map
      (fun r => (r.1.getLast?, r.2.1.qchan)) = some (some (QRes.done true), [0, 1]) ∧
    (qreach 4 5 [QOp.GetNode, QOp.GetNode, QOp.GetNode, QOp.GetNode, QOp.DiscardNode 1,
        QOp.Scan (Msg.val 1) (fun _ _ => false)]).map
      (fun r => (r.2.1.qchan, r.2.1.garbage)) = some ([0, 1, 2, 3], [1]) ∧
    (qreach 4 5 [QOp.GetNode, QOp.GetNode, QOp.GetNode, QOp.GetNode, QOp.DiscardNode 1,
        QOp.Scan (Msg.val 1) (fun _ _ => false), QOp.GC]).map
      (fun r => (r.1.getLast?, r.2.1.qchan)) = some (some (QRes.done true), [0, 3]) := by
  refine ⟨?_, by decide!, by decide!, by decide!, by decide!⟩
  intro garbage q q1 h
  unfold Queue.gc at h
  cases hg : Queue.gcLocked garbage q with
  | none => rw [hg] at h; cases h
  | some q3 =>
    rw [hg] at h
    cases h
    unfold Queue.gcLocked at hg
    dsimp only at hg
    split at hg
    · cases hg
    · rename_i qc hloop
      split at hg
      · cases hg
      · rename_i hb
        cases hg
        have hl := gcLoop_length _ _ _ _ _ hloop
        show (qc.take _).length + garbage.length + 1 = q.qchan.length
        rw [List.length_take, hl]
        omega

/-- C17, the code at the failing inputs.  Four slots are obtained and the first is
discarded; with `size` 0 a scan hands position 0 to a gc goroutine.  Before the goroutine
runs, two more slots are obtained and discarded and a second scan records their positions
4 and 5, which stay in `garbage` as a collection is running.  The goroutine then leaves an
array of four slots: the positions 4 and 5 in `garbage` are not indices of it, and the
next collection, a `GC()` call or the goroutine of a later scan, panics.  With one slot
first and two obtained later, `garbage` is left with two positions for an array of one
slot. -/
theorem C17_stale_garbage_positions :
    (qreach 6 0 [QOp.GetNode, QOp.GetNode, QOp.GetNode, QOp.GetNode, QOp.DiscardNode 0,
        QOp.Scan (Msg.val 1) (fun _ _ => false), QOp.GetNode, QOp.GetNode,
        QOp.DiscardNode 4, QOp.DiscardNode 5, QOp.Scan (Msg.val 2) (fun _ _ => false)]).map
      (fun r => (r.2.1.qchan, r.2.1.garbage, r.2.1.gcTasks, r.2.1.gcRunning))
      = some ([0, 1, 2, 3, 4, 5], [4, 5], [[0]], 1) ∧
    (qreach 6 0 [QOp.GetNode, QOp.GetNode, QOp.GetNode, QOp.GetNode, QOp.DiscardNode 0,
        QOp.Scan (Msg.val 1) (fun _ _ => false), QOp.GetNode, QOp.GetNode,
        QOp.DiscardNode 4, QOp.DiscardNode 5, QOp.Scan (Msg.val 2) (fun _ _ => false),
        QOp.gcStep 0]).map
      (fun r => (r.2.1.qchan, r.2.1.garbage, r.2.1.gcTasks, r.2.1.gcRunning,
        r.2.1.garbage.all (fun pos => decide (pos < r.2.1.qchan.length))))
      = some ([5, 1, 2, 3], [4, 5], [], 0, false) ∧
    (qreach 6 0 [QOp.GetNode, QOp.GetNode, QOp.GetNode, QOp.GetNode, QOp.DiscardNode 0,
        QOp.Scan (Msg.val 1) (fun _ _ => false), QOp.GetNode, QOp.GetNode,
        QOp.DiscardNode 4, QOp.DiscardNode 5, QOp.Scan (Msg.val 2) (fun _ _ => false),
        QOp.gcStep 0, QOp.GC]).isSome = false ∧
    (qreach 6 0 [QOp.GetNode, QOp.GetNode, QOp.GetNode, QOp.GetNode, QOp.DiscardNode 0,
        QOp.Scan (Msg.val 1) (fun _ _ => false), QOp.GetNode, QOp.GetNode,
        QOp.DiscardNode 4, QOp.DiscardNode 5, QOp.Scan (Msg.val 2) (fun _ _ => false),
        QOp.gcStep 0, QOp.Scan (Msg.val 3) (fun _ _ => false), QOp.gcStep 0]).isSome
      = false ∧
    (qreach 3 0 [QOp.GetNode, QOp.DiscardNode 0, QOp.Scan (Msg.val 1) (fun _ _ => false),
        QOp.GetNode, QOp.GetNode, QOp.DiscardNode 1, QOp.DiscardNode 2,
        QOp.Scan (Msg.val 2) (fun _ _ => false), QOp.gcStep 0]).map
      (fun r => (r.2.1.qchan, r.2.1.garbage)) = some ([2], [1, 2]) := by
  refine ⟨by decide!, by decide!, by decide!, by decide!, by decide!⟩

/-- C20, the code at the failing input.  With the calls of `TestQueue` but `size` 5, so
that no collection starts: ten slots are obtained and the first two are discarded.  The
first scan calls the handler 8 times and takes the two markers out; the second scan
delivers its message into all ten slots, the two discarded ones included, and calls the
handler 10 times, while `ValidCount` is 8. -/
theorem C20_marker_is_consumed_by_first_scan :
    (qreach 10 5 (List.replicate 10 QOp.GetNode ++ [QOp.DiscardNode 0, QOp.DiscardNode 1,
        QOp.Scan (Msg.val 1) (fun _ _ => false)])).map
      (fun r => (r.1.getLast?, r.2.1.chanMem 0, r.2.1.chanMem 1, r.2.1.chanMem 2))
      = some (some (QRes.calls 8), [], [], [Msg.val 1]) ∧
    (qreach 10 5 (List.replicate 10 QOp.GetNode ++ [QOp.DiscardNode 0, QOp.DiscardNode 1,
        QOp.Scan (Msg.val 1) (fun _ _ => false)])).map
      (fun r => (r.2.1.qchan, r.2.1.garbage, r.2.1.gcTasks, r.2.1.ValidCount))
      = some ([0, 1, 2, 3, 4, 5, 6, 7, 8, 9], [0, 1], [], 8) ∧
    (qreach 10 5 (List.replicate 10 QOp.GetNode ++ [QOp.DiscardNode 0, QOp.DiscardNode 1,
        QOp.Scan (Msg.val 1) (fun _ _ => false),
        QOp.Scan (Msg.val 2) (fun _ _ => false)])).map
      (fun r => (r.1.getLast?, r.2.1.chanMem 0, r.2.1.chanMem 1, r.2.1.chanMem 2))
      = some (some (QRes.calls 10), [Msg.val 2], [Msg.val 2], [Msg.val 2]) ∧
    (qreach 10 5 (List.replicate 10 QOp.GetNode ++ [QOp.DiscardNode 0, QOp.DiscardNode 1,
        QOp.Scan (Msg.val 1) (fun _ _ => false),
        QOp.Scan (Msg.val 2) (fun _ _ => false)])).map
      (fun r => (r.2.1.qchan, r.2.1.garbage, r.2.1.gcTasks, r.2.1.ValidCount))
      = some ([0, 1, 2, 3, 4, 5, 6, 7, 8, 9], [0, 1], [], 8) := by
  refine ⟨by decide!, by decide!, by decide!, by decide!⟩

end NotifyQueue
